import Mathlib

/-!
EECounter / EERecordSystem: a shallow embedding

Source files embedded here: `src/EECounter.cpp` (the wear-levelled counter) and
`src/EERecordSystem.cpp` (the record store and its ID lists).

Modelling conventions.

* The EEPROM is a total map from addresses to stored values together with the
  log of the physical byte writes performed so far.  `readeeprom` returns a
  `byte`, hence the `% 256`.  `updateeeprom` is modelled on an ideal device: the
  first programming attempt succeeds, so the retry loop (at most five attempts)
  collapses to "skip when the byte already holds the value, else store it".
* `int` variables that hold addresses and indices are natural numbers; the
  sentinel `-1` of `first_FF_index` / `second_FF_index` is `none`.  With
  `length >= 4` every intermediate value of `dec_index` and of
  `(x-4+length)%length` is non-negative, so natural-number arithmetic agrees
  with the C arithmetic.  16-bit overflow of `int` addresses is outside the
  model (device EEPROMs are far smaller than 32768 bytes).
* `uint32_t` values are natural numbers reduced `% 2^32` after every operation
  that can overflow; `byte` values are reduced `% 256`.
* Reads have no effect on the device, so the trailing `readeeprom(0)` calls
  of the source leave no trace in the model.
* Loops are structural recursions on a fuel argument that equals the number of
  iterations the C loop can make, so every function is total and evaluates.
* Parameters of type `uint32_t` and `byte` are natural numbers; theorems that
  need the range state it (`id < 2 ^ 32`).
* `EEPROM.length()` and the body of `eeprom_addnewrecord` are not part of the
  sources; they are fields of `Store`.  The arguments handed to `enumcallback`
  are collected in a list.
-/

namespace EECounter

/-- The device: stored bytes and the log of physical writes `(address, value)`. -/
structure EEPROM where
  mem : Nat → Nat
  log : List (Nat × Nat)

/-- Embeds `static byte EECounter::readeeprom(int addr)`. -/
def readeeprom (e : EEPROM) (addr : Nat) : Nat := e.mem addr % 256

/-- Embeds `static void EECounter::updateeeprom(int addr, byte data)`: returns at once
when the byte read back equals `data`, otherwise programs the byte. -/
def updateeeprom (e : EEPROM) (addr data : Nat) : EEPROM :=
  if readeeprom e addr = data % 256 then e
  else { mem := fun a => if a = addr then data % 256 else e.mem a,
         log := e.log ++ [(addr, data % 256)] }

/-- The two private fields of `class EECounter`. -/
structure Counter where
  start_address : Nat
  length : Nat

/-- The body `byte bz = z; bz |= 0x80; if (bz==0xFF) bz=0x70;` shared by
`resetcount` and by the future-checkpoint write of `op`. -/
def checkpointByte (z : Nat) : Nat :=
  let bz := (z % 256) ||| 0x80
  if bz = 0xFF then 0x70 else bz

/-- First loop of `resetcount`: `for (int i=0; i<5; i++)`, run from index `i`
with `fuel` iterations left. -/
def resetHead (c : Counter) (newcount : Nat) : Nat → Nat → EEPROM → EEPROM
  | 0, _, e => e
  | fuel + 1, i, e =>
    let z := newcount >>> ((4 - i) * 7)
    resetHead c newcount fuel (i + 1) (updateeeprom e (c.start_address + i) (checkpointByte z))

/-- Second loop of `resetcount`: `for (int i=6; i<length; i++)`. -/
def resetTail (c : Counter) : Nat → Nat → EEPROM → EEPROM
  | 0, _, e => e
  | fuel + 1, i, e =>
    if readeeprom e (c.start_address + i) = 0xFF then
      resetTail c fuel (i + 1) (updateeeprom e (c.start_address + i) 0x77)
    else resetTail c fuel (i + 1) e

/-- Embeds `uint32_t EECounter::resetcount(uint32_t newcount)` (the medium it leaves). -/
def resetcount (c : Counter) (newcount : Nat) (e : EEPROM) : EEPROM :=
  let e1 := resetHead c newcount 5 0 e
  let e2 := updateeeprom e1 (c.start_address + 5) 0xFF
  resetTail c (c.length - 6) 6 e2

/-- Embeds `int EECounter::inc_index(int x)`. -/
def inc_index (c : Counter) (x : Nat) : Nat := (x + 1) % c.length

/-- Embeds `int EECounter::dec_index(int x)`, i.e. `(x-1+length) % length`. -/
def dec_index (c : Counter) (x : Nat) : Nat := (x + c.length - 1) % c.length

/-- Variables of the first loop of `op`. -/
structure FFState where
  e : EEPROM
  first_FF_index : Option Nat
  second_FF_index : Option Nat

/-- The loop `for (int i=0,a=start_address; i<length; i++,a++)` of `op` that
finds the first and second `0xFF`. -/
def findFF (c : Counter) (op_id : Nat) : Nat → Nat → FFState → FFState
  | 0, _, s => s
  | fuel + 1, i, s =>
    if readeeprom s.e (c.start_address + i) = 0xFF then
      match s.first_FF_index with
      | some _ =>
        let e1 := if op_id = 2 ∧ s.second_FF_index ≠ some 1 then resetcount c 0 s.e else s.e
        if op_id ≠ 2 then
          { e := e1, first_FF_index := s.first_FF_index, second_FF_index := some i }
        else
          findFF c op_id fuel (i + 1)
            { e := e1, first_FF_index := some i, second_FF_index := some i }
      | none =>
        findFF c op_id fuel (i + 1) { s with first_FF_index := some i }
    else findFF c op_id fuel (i + 1) s

/-- The loop `for (byte c=2,q=0x7f; c<=9; c++,q>>=1)` of the scan: the amount
added to `count` for the byte `b`. -/
def smallInc (b : Nat) : Nat → Nat → Nat → Nat
  | 0, _, _ => 0
  | fuel + 1, cv, q =>
    if cv ≤ 9 then
      if b = q then cv else smallInc b fuel (cv + 1) (q >>> 1)
    else 0

/-- Variables of the scan loop of `op`. -/
structure ScanState where
  count : Nat
  checkpoint_register : Nat
  checkpoint_count : Nat
  first_checkpoint_index : Nat
  x : Nat
  ff_plus_one_present : Nat

/-- One iteration of `for (int i=0; i<length; i++,x=inc_index(x))`. -/
def scanBody (c : Counter) (e : EEPROM) (i : Nat) (s : ScanState) : ScanState :=
  let b := readeeprom e (c.start_address + s.x)
  let cc := if b = 0x70 ∨ (b ≥ 0x80 ∧ b < 0xFF) then s.checkpoint_count else 0
  let count := (s.count + smallInc b 8 2 0x7F) % 2 ^ 32
  let s1 : ScanState :=
    if b = 0xFF then
      if i = 1 then
        { s with checkpoint_count := cc, ff_plus_one_present := 1,
                 count := (count + 1) % 2 ^ 32 }
      else { s with checkpoint_count := cc, count := count }
    else
      let b1 := if b = 0x70 then 0xFF else b
      if b1 ≥ 0x80 then
        let reg0 := if cc = 0 then 0 else s.checkpoint_register
        let b2 := b1 &&& 0x7F
        let reg1 := (reg0 <<< 7) % 2 ^ 32
        let reg2 := reg1 ||| b2
        let cc1 := (cc + 1) % 256
        let count1 := (count + 2) % 2 ^ 32
        if cc1 = 5 then
          { s with count := (reg2 + s.ff_plus_one_present) % 2 ^ 32,
                   checkpoint_register := reg2,
                   checkpoint_count := 0,
                   first_checkpoint_index := (s.x + c.length - 4) % c.length }
        else
          { s with count := count1, checkpoint_register := reg2, checkpoint_count := cc1 }
      else { s with checkpoint_count := cc, count := count }
  { s1 with x := inc_index c s1.x }

/-- The scan loop, `fuel` iterations from loop index `i`. -/
def scanLoop (c : Counter) (e : EEPROM) : Nat → Nat → ScanState → ScanState
  | 0, _, s => s
  | fuel + 1, i, s => scanLoop c e fuel (i + 1) (scanBody c e i s)

/-- The loop `for (q=0x7f; q; q>>=1)` of the increment: `some q` when it left
through `break` at the matching `q`, `none` when it ran down to `q == 0`. -/
def lupLoop (lup : Nat) : Nat → Nat → Option Nat
  | 0, _ => none
  | fuel + 1, q =>
    if q ≠ 0 then
      if q = lup then some q else lupLoop lup fuel (q >>> 1)
    else none

/-- The loop `for (i=2; i<=6; i++)` of the increment: the medium after it and
the final value of `i` (`7` when no iteration wrote). -/
def futureLoop (c : Counter) (first_FF_index first_checkpoint_index count : Nat) :
    Nat → Nat → EEPROM → EEPROM × Nat
  | 0, i, e => (e, i)
  | fuel + 1, i, e =>
    if i ≤ 6 then
      if (first_FF_index + i) % c.length = first_checkpoint_index then
        let ii4 := (i * 2 - 4) % 256
        let fcr := (count + ii4) % 2 ^ 32
        let fcr1 := fcr >>> ((i - 2) * 7)
        (updateeeprom e (first_FF_index + c.start_address) (checkpointByte fcr1), i)
      else futureLoop c first_FF_index first_checkpoint_index count fuel (i + 1) e
    else (e, i)

/-- The block `if (op_id==1) { ... }` of `op` after `count++`. -/
def incMutation (c : Counter) (first_FF_index first_checkpoint_index count : Nat)
    (e : EEPROM) : EEPROM :=
  let second_FF_index := inc_index c first_FF_index
  let second_FF_address := second_FF_index + c.start_address
  let third_FF_address := c.start_address + inc_index c second_FF_index
  let before_FF_address := c.start_address + dec_index c first_FF_index
  if readeeprom e second_FF_address ≠ 0xFF then
    let e1 := if readeeprom e third_FF_address = 0xFF
              then updateeeprom e third_FF_address 0x77 else e
    updateeeprom e1 second_FF_address 0xFF
  else
    let e1 := if readeeprom e third_FF_address = 0xFF
              then updateeeprom e third_FF_address 0x77 else e
    let lup := readeeprom e1 before_FF_address
    match lupLoop lup 8 0x7F with
    | some _ => updateeeprom e1 before_FF_address (lup >>> 1)
    | none =>
      let r := futureLoop c first_FF_index first_checkpoint_index count 5 2 e1
      if r.2 = 7 then updateeeprom r.1 (first_FF_index + c.start_address) 0x7F else r.1

/-- Embeds `uint32_t EECounter::op(byte op_id)`: the returned value and the medium it
leaves.  For `op_id == 2` the source returns no value; the model returns `0`. -/
def op (c : Counter) (op_id : Nat) (e : EEPROM) : Nat × EEPROM :=
  let s := findFF c op_id c.length 0
    { e := e, first_FF_index := none, second_FF_index := none }
  if op_id = 2 then
    match s.first_FF_index with
    | none => (0, resetcount c 0 s.e)
    | some _ => (0, s.e)
  else
    match s.first_FF_index with
    | none =>
      if op_id = 1 then (1, resetcount c 1 s.e) else (0, s.e)
    | some first0 =>
      let first :=
        if first0 = 0 ∧ s.second_FF_index = some (c.length - 1) then c.length - 1 else first0
      let r := scanLoop c s.e c.length 0
        { count := 0, checkpoint_register := 0, checkpoint_count := 0,
          first_checkpoint_index := 0, x := first, ff_plus_one_present := 0 }
      if op_id = 1 then
        let count := (r.count + 1) % 2 ^ 32
        (count, incMutation c first r.first_checkpoint_index count s.e)
      else (r.count, s.e)

/-- Embeds `uint32_t EECounter::read()`. -/
def read (c : Counter) (e : EEPROM) : Nat × EEPROM := op c 0 e

/-- Embeds `uint32_t EECounter::increment()`. -/
def increment (c : Counter) (e : EEPROM) : Nat × EEPROM := op c 1 e

/-- Embeds `void EECounter::begin(bool recover)`. -/
def begin (c : Counter) (recover : Bool) (e : EEPROM) : EEPROM :=
  if recover then
    let r0 := op c 0 e
    let r1 := op c 1 r0.2
    let r2 := op c 0 r1.2
    if (r0.1 + 1) % 2 ^ 32 ≠ r1.1 ∨ r1.1 ≠ r2.1 then
      resetcount c ((r0.1 + 1) % 2 ^ 32) r2.2
    else r2.2
  else (op c 2 e).2

/-- The medium after `n` calls of `increment()`. -/
def incrementN (c : Counter) : Nat → EEPROM → EEPROM
  | 0, e => e
  | n + 1, e => (increment c (incrementN c n e)).2

/-- A fully erased device with an empty write log. -/
def erased : EEPROM := { mem := fun _ => 0xFF, log := [] }

end EECounter

namespace EERecordSystem

open EECounter

/-- The byte `((byte*)(&id))[k]` of a `uint32_t` on the little-endian AVR. -/
def idByte (id k : Nat) : Nat := (id / 256 ^ k) % 256

/-- Variables of the loop `for (int i=0; i<4; i++)` that reads one slot:
`bid` is the offset reached by the pointer `bid`, `matched` is `match`, and
`v` is the value assembled through `vid`. -/
structure SlotScan where
  bid : Nat
  matched : Bool
  v : Nat

/-- The loop `for (int i=0; i<4; i++)` of `idop` over the slot at `addr`. -/
def slotFor (op : Char) (id : Nat) (e : EEPROM) (addr : Nat) : Nat → Nat → SlotScan → SlotScan
  | 0, _, s => s
  | fuel + 1, i, s =>
    let rb := readeeprom e (addr + i)
    let v := s.v + rb * 256 ^ i
    if i = 1 ∧ op = 'x' then slotFor op id e addr fuel (i + 1) { s with v := v }
    else if i = 3 ∧ (op = 'd' ∨ op = 'q') then slotFor op id e addr fuel (i + 1) { s with v := v }
    else
      slotFor op id e addr fuel (i + 1)
        { bid := s.bid + 1,
          matched := if rb ≠ idByte id s.bid then false else s.matched,
          v := v }

/-- The loop `for (i=-4; i<0; i++) updateeeprom(currentrecordaddress+i, 0)`,
with `addr = currentrecordaddress - 4`. -/
def zeroSlot (e : EEPROM) (addr : Nat) : EEPROM :=
  updateeeprom (updateeeprom (updateeeprom (updateeeprom e addr 0) (addr + 1) 0) (addr + 2) 0)
    (addr + 3) 0

/-- The loop `for (int i=0; i<4; i++) updateeeprom(freeSlot+i, *bid++)`. -/
def writeSlot (e : EEPROM) (addr id : Nat) : EEPROM :=
  updateeeprom (updateeeprom (updateeeprom (updateeeprom e addr (idByte id 0))
    (addr + 1) (idByte id 1)) (addr + 2) (idByte id 2)) (addr + 3) (idByte id 3)

/-- Variables of `idop` that live across its loops; `calls` collects the
arguments passed to `enumcallback`, `returned` is set by `return true`. -/
structure IdopState where
  e : EEPROM
  freeSlot : Nat
  delete_success : Bool
  calls : List Nat
  returned : Option Bool

/-- The loop `while (currentrecordlength >= 4)` of `idop`. -/
def slotWhile (op : Char) (id : Nat) : Nat → Nat → Nat → IdopState → IdopState
  | 0, _, _, s => s
  | fuel + 1, crl, cra, s =>
    if crl ≥ 4 then
      let r := slotFor op id s.e cra 4 0 { bid := 0, matched := true, v := 0 }
      let cra1 := cra + 4
      let crl1 := crl - 4
      if r.matched ∧ (op = 'q' ∨ op = 'Q') then { s with returned := some true }
      else
        let s1 : IdopState :=
          if r.matched ∧ (op = 'd' ∨ op = 'D' ∨ op = 'x') then
            { s with delete_success := true, e := zeroSlot s.e (cra1 - 4) }
          else s
        let s2 : IdopState :=
          if r.v = 0 then
            if s1.freeSlot = 0 then { s1 with freeSlot := cra1 - 4 } else s1
          else if op = 'E' then { s1 with calls := s1.calls ++ [r.v] }
          else s1
        slotWhile op id fuel crl1 cra1 s2
    else s

/-- The loop `while (EEaddress < EElength)` of `idop`. -/
def recordWhile (op : Char) (id listid EElength : Nat) : Nat → Nat → IdopState → IdopState
  | 0, _, s => s
  | fuel + 1, EEaddress, s =>
    if EEaddress < EElength then
      let b := readeeprom s.e EEaddress
      if b = 0 then s
      else
        let currentrecordaddress := EEaddress + 1
        let currentrecordlength := (b + 255) % 256
        let EEaddress1 := EEaddress + b
        if readeeprom s.e currentrecordaddress = listid then
          let currentrecordlength1 := (currentrecordlength + 255) % 256
          let currentrecordaddress1 := currentrecordaddress + 1
          if op = 'q' ∨ op = 'Q' ∨ op = 'x' ∨ op = 'd' ∨ op = 'D' ∨ op = 'E' then
            let s1 := slotWhile op id 64 currentrecordlength1 currentrecordaddress1 s
            match s1.returned with
            | some _ => s1
            | none => recordWhile op id listid EElength fuel EEaddress1 s1
          else recordWhile op id listid EElength fuel EEaddress1 s
        else recordWhile op id listid EElength fuel EEaddress1 s
    else s

/-- What a call of `idop` yields: the returned `bool`, the medium, and the
arguments of the `enumcallback` invocations in order. -/
structure IdopResult where
  ret : Bool
  e : EEPROM
  calls : List Nat

/-- The record store: the field `began`, the device constant
`EEPROM.length()`, and the private method `eeprom_addnewrecord`, whose body is
not part of the sources and is therefore a parameter. -/
structure Store where
  began : Bool
  EElength : Nat
  eeprom_addnewrecord : Nat → List Nat → EEPROM → Bool × EEPROM

/-- Embeds `bool EERecordSystem::idop(char op, uint32_t id, byte listid, enumcallback)`. -/
def idop (st : Store) (op : Char) (id listid : Nat) (e : EEPROM) : IdopResult :=
  if st.began = false then { ret := false, e := e, calls := [] }
  else if id = 0 then { ret := false, e := e, calls := [] }
  else
    let isAdd := decide (op = 'A')
    let op1 := if op = 'A' then 'Q' else op
    let s := recordWhile op1 id listid st.EElength st.EElength 0
      { e := e, freeSlot := 0, delete_success := false, calls := [], returned := none }
    match s.returned with
    | some r => { ret := r, e := s.e, calls := s.calls }
    | none =>
      if op1 = 'd' ∨ op1 = 'D' ∨ op1 = 'x' then
        { ret := s.delete_success, e := s.e, calls := s.calls }
      else if isAdd then
        if s.freeSlot ≠ 0 then
          { ret := false, e := writeSlot s.e s.freeSlot id, calls := s.calls }
        else
          let newslot := [idByte id 0, idByte id 1, idByte id 2, idByte id 3, 0, 0, 0, 0, 0, 0, 0, 0]
          let r := st.eeprom_addnewrecord listid newslot s.e
          { ret := r.1, e := r.2, calls := s.calls }
      else { ret := false, e := s.e, calls := s.calls }

/-- Embeds `bool EERecordSystem::queryID(uint32_t id, byte listid, bool compare_only_24_bits)`. -/
def queryID (st : Store) (id listid : Nat) (compare_only_24_bits : Bool) (e : EEPROM) :
    IdopResult :=
  idop st (if compare_only_24_bits then 'q' else 'Q') id listid e

/-- Embeds `bool EERecordSystem::addID(uint32_t id, byte listid)`. -/
def addID (st : Store) (id listid : Nat) (e : EEPROM) : IdopResult :=
  idop st 'A' id listid e

/-- Embeds `bool EERecordSystem::deleteID(uint32_t id, byte listid, bool compare_only_24_bits)`. -/
def deleteID (st : Store) (id listid : Nat) (compare_only_24_bits : Bool) (e : EEPROM) :
    IdopResult :=
  idop st (if compare_only_24_bits then 'd' else 'D') id listid e

/-- Embeds `void EERecordSystem::enumIDs(byte listid, enumcallback)`, which calls
`idop('E', 0, listid, enumcallback)`. -/
def enumIDs (st : Store) (listid : Nat) (e : EEPROM) : IdopResult :=
  idop st 'E' 0 listid e

/-- The 32-bit little-endian value stored in the four bytes from `addr`. -/
def slotValue (e : EEPROM) (addr : Nat) : Nat :=
  readeeprom e addr + 256 * readeeprom e (addr + 1) + 65536 * readeeprom e (addr + 2)
    + 16777216 * readeeprom e (addr + 3)

/-- Addresses of the 4-byte slots in a payload of `crl` bytes starting at `cra`. -/
def slotsOf : Nat → Nat → Nat → List Nat
  | 0, _, _ => []
  | fuel + 1, crl, cra => if crl ≥ 4 then cra :: slotsOf fuel (crl - 4) (cra + 4) else []

/-- Addresses, in scan order, of the slots of the records keyed `listid`, walking
the records from `EEaddress`: a record with length byte `b` starting at `p` has
its key at `p+1`, its payload of `b-2` bytes at `p+2`, and is followed by the
record at `p+b`; a zero length byte ends the walk. -/
def listSlots (listid EElength : Nat) (e : EEPROM) : Nat → Nat → List Nat
  | 0, _ => []
  | fuel + 1, EEaddress =>
    if EEaddress < EElength then
      let b := readeeprom e EEaddress
      if b = 0 then []
      else
        (if readeeprom e (EEaddress + 1) = listid
          then slotsOf 64 ((b + 254) % 256) (EEaddress + 2) else [])
        ++ listSlots listid EElength e fuel (EEaddress + b)
    else []

/-- Well-formedness of the record chain from `EEaddress`: every record has a
length byte of at least 2 and ends inside the medium. -/
def wellFormed (EElength : Nat) (e : EEPROM) : Nat → Nat → Prop
  | 0, _ => True
  | fuel + 1, EEaddress =>
    if EEaddress < EElength then
      let b := readeeprom e EEaddress
      if b = 0 then True
      else 2 ≤ b ∧ EEaddress + b ≤ EElength ∧ wellFormed EElength e fuel (EEaddress + b)
    else True

instance (EElength : Nat) (e : EEPROM) : ∀ fuel a, Decidable (wellFormed EElength e fuel a)
  | 0, _ => by unfold wellFormed; exact inferInstance
  | fuel + 1, a => by
    unfold wellFormed
    have := instDecidableWellFormed EElength e fuel
    exact inferInstance

/-- The value `freeSlot` reaches after the scan has looked at `slots`. -/
def freeAfter (e : EEPROM) (slots : List Nat) (fs : Nat) : Nat :=
  slots.foldl (fun f a => if slotValue e a = 0 ∧ f = 0 then a else f) fs

/-- One iteration of the record loop for an operation that scans slots. -/
def recordStep (op : Char) (id listid EElength : Nat) (fuel a : Nat) (s : IdopState) : IdopState :=
  if a < EElength then
    if readeeprom s.e a = 0 then s
    else if readeeprom s.e (a + 1) = listid then
      match (slotWhile op id 64 ((readeeprom s.e a + 254) % 256) (a + 2) s).returned with
      | some _ => slotWhile op id 64 ((readeeprom s.e a + 254) % 256) (a + 2) s
      | none => recordWhile op id listid EElength fuel (a + readeeprom s.e a)
                  (slotWhile op id 64 ((readeeprom s.e a + 254) % 256) (a + 2) s)
    else recordWhile op id listid EElength fuel (a + readeeprom s.e a) s
  else s

/-- Address `x` lies in a slot of `slots` whose value on `e` is `id`. -/
def hit (e : EEPROM) (id : Nat) (slots : List Nat) (x : Nat) : Prop :=
  ∃ a ∈ slots, slotValue e a = id ∧ a ≤ x ∧ x < a + 4

/-- State of the slot loop in mode `D` after the slot at `cra` was processed. -/
def stepD (id : Nat) (s : IdopState) (cra : Nat) : IdopState :=
  let s1 : IdopState :=
    if slotValue s.e cra = id then { s with delete_success := true, e := zeroSlot s.e cra } else s
  if slotValue s.e cra = 0 then
    if s1.freeSlot = 0 then { s1 with freeSlot := cra } else s1
  else s1

/-- Initial loop state of `idop`. -/
def idopInit (e : EEPROM) : IdopState :=
  { e := e, freeSlot := 0, delete_success := false, calls := [], returned := none }

end EERecordSystem

namespace EECounter

/-- The scan's test for a checkpoint byte: `b == 0x70 || (b >= 0x80 && b < 0xFF)`. -/
def isChk (b : Nat) : Prop := b = 0x70 ∨ (0x80 ≤ b ∧ b < 0xFF)

instance decIsChk (b : Nat) : Decidable (isChk b) := by unfold isChk; exact inferInstance

/-- The register after one more checkpoint byte with payload `z % 128`. -/
def regNext (cc reg z : Nat) : Nat := ((if cc = 0 then 0 else reg) * 128) % 2 ^ 32 + z % 128

/-- The region byte at index `j`. -/
def rd (c : Counter) (e : EEPROM) (j : Nat) : Nat := readeeprom e (c.start_address + j)

/-- Region index `j` places after index `p`, going round the circle. -/
def pos (c : Counter) (p j : Nat) : Nat := (p + j) % c.length

/-- The byte of a small-increment chain worth `sv` counts (`2 ≤ sv ≤ 9`). -/
def smallByte (sv : Nat) : Nat := 0x7F >>> (sv - 2)

/-- The index the scan starts from, as `op` computes it from the result of the
first loop. -/
def effectiveFirst (c : Counter) (first0 : Nat) (second : Option Nat) : Nat :=
  if first0 = 0 ∧ second = some (c.length - 1) then c.length - 1 else first0

/-- The shape of the counter region in the states the counter passes through.
Going round the circle from index `p`: five checkpoint bytes holding `K`; `m`
small-increment bytes, all `0x00` except the last, which is worth `sv` counts;
`t` bytes of the next checkpoint chain, which will hold `K + 9*m + 10`; the
first `0xFF`; a second `0xFF` when `ec = 1`; then bytes that are not `0xFF`,
the last of which is not a checkpoint byte. -/
structure Inv (c : Counter) (e : EEPROM) (p K m sv t ec : Nat) : Prop where
  hL : 16 ≤ c.length
  hp : p < c.length
  hK : K < 2 ^ 32
  hm : m + 11 ≤ c.length
  hsv : 2 ≤ sv ∧ sv ≤ 9
  hm0 : m = 0 → sv = 9
  ht : t ≤ 4
  htm : 0 < t → m + 11 = c.length ∧ sv = 9
  hec : ec ≤ 1
  chain : ∀ j, j < 5 → rd c e (pos c p j) = checkpointByte (K >>> ((4 - j) * 7))
  zeros : ∀ j, j + 1 < m → rd c e (pos c p (5 + j)) = 0
  last : 0 < m → rd c e (pos c p (4 + m)) = smallByte sv
  part : ∀ j, j < t → rd c e (pos c p (5 + m + j)) =
    checkpointByte (((K + 9 * m + 10) % 2 ^ 32) >>> ((4 - j) * 7))
  ff : rd c e (pos c p (5 + m + t)) = 0xFF
  ff2 : ec = 1 → rd c e (pos c p (6 + m + t)) = 0xFF
  junk : ∀ j, 6 + m + t + ec ≤ j → j < c.length → rd c e (pos c p j) ≠ 0xFF
  junkLast : 6 + m + t + ec < c.length → ¬ isChk (rd c e (pos c p (c.length - 1)))

/-- The count a region of that shape stands for. -/
def cntOf (K m sv t ec : Nat) : Nat := (K + ec + (9 * m + sv - 9) + 2 * t) % 2 ^ 32

/-- Initial variables of the scan loop. -/
def scanInit (first : Nat) : ScanState :=
  { count := 0, checkpoint_register := 0, checkpoint_count := 0,
    first_checkpoint_index := 0, x := first, ff_plus_one_present := 0 }

/-- The byte of the next checkpoint chain written at place `t` of the chain. -/
def nextChk (K m t : Nat) : Nat :=
  checkpointByte (((K + 9 * m + 10) % 2 ^ 32) >>> ((4 - t) * 7))

/-- The region has shape `Inv` for some parameters standing for the count `n`. -/
def Good (c : Counter) (e : EEPROM) (n : Nat) : Prop :=
  ∃ p K m sv t ec, Inv c e p K m sv t ec ∧ cntOf K m sv t ec = n

/-- The device after the physical writes `ws` have been carried out in order. -/
def applyWrites (e : EEPROM) (ws : List (Nat × Nat)) : EEPROM :=
  ws.foldl (fun d w => { mem := fun a => if a = w.1 then w.2 else d.mem a,
                         log := d.log ++ [w] }) e

/-- The sequence of physical byte writes that `increment()` performs on `e`:
the entries it appends to the write log. -/
def incrementWrites (c : Counter) (e : EEPROM) : List (Nat × Nat) :=
  (increment c e).2.log.drop e.log.length

/-- A counter over the sixteen bytes from address 0. -/
def demoCounter : Counter := { start_address := 0, length := 16 }

/-- A device whose first bytes are those of `l`, every other byte erased. -/
def deviceOf (l : List Nat) : EEPROM := { mem := fun a => l.getD a 0xFF, log := [] }

/-- A region of a used counter: not erased, its last byte (`0x80`) a stale
checkpoint byte. -/
def staleChain : EEPROM :=
  deviceOf [0x77, 0x77, 0x77, 0x77, 0x77, 0x77, 0x77, 0x77, 0x77, 0x77, 0x77, 0x77, 0x77, 0x77,
    0x77, 0x80]

/-- Number of bytes of the region that read `0xFF`. -/
def countFF (c : Counter) (e : EEPROM) : Nat :=
  ((List.range c.length).filter (fun j => decide (readeeprom e (c.start_address + j) = 0xFF))).length

end EECounter

namespace EERecordSystem

open EECounter

/-- A begun store on a 32-byte device; the absent `eeprom_addnewrecord` is
taken to fail. -/
def demoStore : Store :=
  { began := true, EElength := 32, eeprom_addnewrecord := fun _ _ e => (false, e) }

/-- A formatted device holding one ID-list record keyed 1 with the slots
42, 0 (free) and 7 at the addresses 6, 10 and 14. -/
def demoList : EEPROM :=
  { mem := fun a => [4, 0x43, 0x41, 0x53, 14, 1, 42, 0, 0, 0, 0, 0, 0, 0, 7, 0, 0, 0].getD a 0,
    log := [] }

end EERecordSystem

namespace EECounter

/-- The loop `while (length < 16) {}` of the constructor: `some ()` when it is
left, `none` when `fuel` iterations did not leave it. -/
def constructorWait (length : Nat) : Nat → Option Unit
  | 0 => none
  | fuel + 1 => if length < 16 then constructorWait length fuel else some ()

/-- Embeds `EECounter::EECounter(int _start_address, int _length)`: the object
constructed within `fuel` steps of the waiting loop, if the constructor
returns within them. -/
def construct (_start_address _length fuel : Nat) : Option Counter :=
  match constructorWait _length fuel with
  | some _ => some { start_address := _start_address, length := _length }
  | none => none

/-- The region holds a first `0xFF` at offset `k` and no `0xFF` anywhere else
except possibly at the next offset round the circle. -/
def markersAt (c : Counter) (e : EEPROM) (k : Nat) : Prop :=
  k < c.length ∧ readeeprom e (c.start_address + k) = 0xFF ∧
  ∀ j, j < c.length → readeeprom e (c.start_address + j) = 0xFF →
    j = k ∨ j = (k + 1) % c.length

/-- The byte `resetcount(v)` is specified to write at offset `i` of the region:
`0x80 | ((v >> (7*(4-i))) & 0x7F)`, replaced by `0x70` when that is `0xFF`. -/
def specByte (v i : Nat) : Nat :=
  if 0x80 ||| ((v >>> (7 * (4 - i))) &&& 0x7F) = 0xFF then 0x70
  else 0x80 ||| ((v >>> (7 * (4 - i))) &&& 0x7F)

end EECounter

namespace EERecordSystem

open EECounter

/-- The constant `eeprom_initial_image[] = { 4, 'C', 'A', 'S', 0, 0}`. -/
def eeprom_initial_image : List Nat := [4, 0x43, 0x41, 0x53, 0, 0]

/-- The loop `for (int i = 0; i < sizeof(eeprom_initial_image); i++)` of `begin`. -/
def writeImage : Nat → Nat → EEPROM → EEPROM
  | 0, _, e => e
  | fuel + 1, i, e =>
    writeImage fuel (i + 1) (updateeeprom e i (eeprom_initial_image.getD i 0))

/-- Embeds `void EERecordSystem::begin()`: the store object with `began` set, and
the medium. -/
def begin (st : Store) (e : EEPROM) : Store × EEPROM :=
  let e1 :=
    if readeeprom e 1 ≠ 0x43 ∨ readeeprom e 2 ≠ 0x41 ∨ readeeprom e 3 ≠ 0x53
    then writeImage eeprom_initial_image.length 0 e else e
  let e2 := if readeeprom e1 0 ≠ 0x04 then updateeeprom e1 0 0x04 else e1
  ({ st with began := true }, e2)

/-- The loop `while (EEaddress < EElength)` of `getrecordaddress`: `none` when
`fuel` iterations did not end it, `some none` for the return value `-1`,
`some (some (address, datasize))` for a found record. -/
def getrecordLoop (key EElength : Nat) (e : EEPROM) : Nat → Nat → Option (Option (Nat × Nat))
  | 0, _ => none
  | fuel + 1, EEaddress =>
    if EEaddress < EElength then
      let b := readeeprom e EEaddress
      if b = 0 then some none
      else
        let currentrecordaddress := EEaddress + 1
        let currentrecordlength := (b + 255) % 256
        let EEaddress1 := EEaddress + b
        if readeeprom e currentrecordaddress = key then
          some (some (currentrecordaddress, currentrecordlength))
        else getrecordLoop key EElength e fuel EEaddress1
    else some none

/-- Embeds `int EERecordSystem::getrecordaddress(byte key, byte &datasize)`, run
with one unit of fuel more than the medium has bytes. -/
def getrecordaddress (st : Store) (key : Nat) (e : EEPROM) : Option (Option (Nat × Nat)) :=
  if st.began = false then some none
  else getrecordLoop key st.EElength e (st.EElength + 1) 0

/-- The loop `for (int i = 0; i < datasize; i++)
updateeeprom(address + i + 1, recorddata[i])` of `updaterecord`. -/
def writeData (address : Nat) (recorddata : Nat → Nat) : Nat → Nat → EEPROM → EEPROM
  | 0, _, e => e
  | fuel + 1, i, e =>
    writeData address recorddata fuel (i + 1) (updateeeprom e (address + i + 1) (recorddata i))

/-- Embeds `bool EERecordSystem::updaterecord(byte key, void *recorddata, byte
datasize)`; `recorddata i` is the byte at offset `i` from the pointer.  The
result is `none` only if `getrecordaddress` does not return. -/
def updaterecord (st : Store) (key : Nat) (recorddata : Nat → Nat) (datasize : Nat)
    (e : EEPROM) : Option (Bool × EEPROM) :=
  if st.began = false then some (false, e)
  else
    match getrecordaddress st key e with
    | none => none
    | some none =>
      some (st.eeprom_addnewrecord key ((List.range datasize).map (fun i => recorddata i % 256)) e)
    | some (some (address, existingDatasize)) =>
      let datasize1 := if datasize < existingDatasize then existingDatasize else datasize
      some (true, writeData address recorddata datasize1 0 e)

/-- The records met when walking from address `p`, as pairs `(p, b)` of start
address and length byte: the next record starts at `p + b`, and a zero length
byte or the end of the medium ends the walk. -/
def recordsFrom (EElength : Nat) (e : EEPROM) : Nat → Nat → List (Nat × Nat)
  | 0, _ => []
  | fuel + 1, p =>
    if p < EElength then
      if readeeprom e p = 0 then []
      else (p, readeeprom e p) :: recordsFrom EElength e fuel (p + readeeprom e p)
    else []

/-- The reference first-match scan: `(p+1, b-1)` for the first record in
physical order whose key byte, at `p+1`, equals `key`. -/
def firstMatch (key EElength : Nat) (e : EEPROM) : Option (Nat × Nat) :=
  ((recordsFrom EElength e EElength 0).find? (fun r => decide (readeeprom e (r.1 + 1) = key))).map
    (fun r => (r.1 + 1, r.2 - 1))

/-- A formatted device with the records `[3, 5, 0x11]` at address 4 and
`[3, 9, 0x22]` at address 7. -/
def demoRecords : EEPROM :=
  { mem := fun a => [4, 0x43, 0x41, 0x53, 3, 5, 0x11, 3, 9, 0x22].getD a 0, log := [] }

/-- Two data bytes, `0xAA` and `0x00`. -/
def demoData : Nat → Nat := fun i => [0xAA, 0x00].getD i 0

/-- Three data bytes, `0xAA`, `0xBB` and `0xCC`. -/
def demoData3 : Nat → Nat := fun i => [0xAA, 0xBB, 0xCC].getD i 0

end EERecordSystem

namespace EECounter

theorem readeeprom_lt (e : EEPROM) (a : Nat) : readeeprom e a < 256 := by
  unfold readeeprom; omega

theorem readeeprom_updateeeprom (e : EEPROM) (a d x : Nat) :
    readeeprom (updateeeprom e a d) x = if x = a then d % 256 else readeeprom e x := by
  unfold updateeeprom
  by_cases h : readeeprom e a = d % 256
  · rw [if_pos h]
    by_cases hx : x = a
    · rw [if_pos hx, hx, h]
    · rw [if_neg hx]
  · rw [if_neg h]
    by_cases hx : x = a
    · simp [readeeprom, hx]
    · simp [readeeprom, hx]

end EECounter

namespace EERecordSystem

open EECounter

theorem idByte_lt (id k : Nat) : idByte id k < 256 := by
  unfold idByte; omega

theorem slotValue_eq_iff (e : EEPROM) (addr id : Nat) (hid : id < 2 ^ 32) :
    slotValue e addr = id ↔
      (readeeprom e addr = idByte id 0 ∧ readeeprom e (addr + 1) = idByte id 1 ∧
       readeeprom e (addr + 2) = idByte id 2 ∧ readeeprom e (addr + 3) = idByte id 3) := by
  have h0 := readeeprom_lt e addr
  have h1 := readeeprom_lt e (addr + 1)
  have h2 := readeeprom_lt e (addr + 2)
  have h3 := readeeprom_lt e (addr + 3)
  unfold slotValue idByte
  norm_num at hid ⊢
  omega

theorem slotFor_full (op : Char) (id : Nat) (e : EEPROM) (addr : Nat)
    (hx : op ≠ 'x') (hd : op ≠ 'd') (hq : op ≠ 'q') :
    slotFor op id e addr 4 0 { bid := 0, matched := true, v := 0 } =
      { bid := 4,
        matched := decide (readeeprom e addr = idByte id 0 ∧ readeeprom e (addr + 1) = idByte id 1 ∧
          readeeprom e (addr + 2) = idByte id 2 ∧ readeeprom e (addr + 3) = idByte id 3),
        v := slotValue e addr } := by
  simp only [slotFor, hx, hd, hq, and_false, or_self, if_false, slotValue]
  congr 1
  · by_cases h0 : readeeprom e addr = idByte id 0 <;>
    by_cases h1 : readeeprom e (addr + 1) = idByte id 1 <;>
    by_cases h2 : readeeprom e (addr + 2) = idByte id 2 <;>
    by_cases h3 : readeeprom e (addr + 3) = idByte id 3 <;> simp [h0, h1, h2, h3]
  · norm_num
    ring

theorem slotWhile_Q_nomatch (id : Nat) (hid : id < 2 ^ 32) :
    ∀ (fuel crl cra : Nat) (s : IdopState),
      (∀ a ∈ slotsOf fuel crl cra, slotValue s.e a ≠ id) →
      slotWhile 'Q' id fuel crl cra s =
        { s with freeSlot := freeAfter s.e (slotsOf fuel crl cra) s.freeSlot } := by
  intro fuel
  induction fuel with
  | zero => intro crl cra s _; simp [slotWhile, slotsOf, freeAfter]
  | succ n ih =>
    intro crl cra s h
    unfold slotWhile
    unfold slotsOf at h ⊢
    by_cases hc : crl ≥ 4
    · simp only [if_pos hc] at h ⊢
      have hne : slotValue s.e cra ≠ id := h cra (List.mem_cons_self _ _)
      have hm : ¬ (readeeprom s.e cra = idByte id 0 ∧ readeeprom s.e (cra + 1) = idByte id 1 ∧
          readeeprom s.e (cra + 2) = idByte id 2 ∧ readeeprom s.e (cra + 3) = idByte id 3) :=
        fun hh => hne ((slotValue_eq_iff s.e cra id hid).2 hh)
      rw [slotFor_full 'Q' id s.e cra (by decide) (by decide) (by decide)]
      simp only [hm, decide_False, Bool.false_eq_true, false_and, if_false,
        show ¬ ('Q' = 'E') by decide, Nat.add_sub_cancel]
      by_cases hv : slotValue s.e cra = 0
      · by_cases hf : s.freeSlot = 0
        · rw [if_pos hv, if_pos hf, ih]
          · simp [freeAfter, hv, hf]
          · intro a ha; exact h a (List.mem_cons_of_mem _ ha)
        · rw [if_pos hv, if_neg hf, ih]
          · simp [freeAfter, hv, hf]
          · intro a ha; exact h a (List.mem_cons_of_mem _ ha)
      · rw [if_neg hv, ih]
        · simp [freeAfter, hv]
        · intro a ha; exact h a (List.mem_cons_of_mem _ ha)
    · simp only [if_neg hc]
      simp [freeAfter]

theorem slotWhile_Q_match (id : Nat) (hid : id < 2 ^ 32) :
    ∀ (fuel crl cra : Nat) (s : IdopState),
      (∃ a ∈ slotsOf fuel crl cra, slotValue s.e a = id) →
      (slotWhile 'Q' id fuel crl cra s).returned = some true ∧
      (slotWhile 'Q' id fuel crl cra s).e = s.e := by
  intro fuel
  induction fuel with
  | zero => intro crl cra s h; simp [slotsOf] at h
  | succ n ih =>
    intro crl cra s h
    unfold slotWhile
    unfold slotsOf at h
    by_cases hc : crl ≥ 4
    · rw [if_pos hc] at h
      rw [if_pos hc]
      rw [slotFor_full 'Q' id s.e cra (by decide) (by decide) (by decide)]
      by_cases hm : slotValue s.e cra = id
      · have hb := (slotValue_eq_iff s.e cra id hid).1 hm
        simp [hb]
      · have hm2 : ¬ (readeeprom s.e cra = idByte id 0 ∧ readeeprom s.e (cra + 1) = idByte id 1 ∧
          readeeprom s.e (cra + 2) = idByte id 2 ∧ readeeprom s.e (cra + 3) = idByte id 3) :=
          fun hh => hm ((slotValue_eq_iff s.e cra id hid).2 hh)
        simp only [hm2, decide_False, Bool.false_eq_true, false_and, if_false,
          show ¬ ('Q' = 'E') by decide, Nat.add_sub_cancel]
        obtain ⟨a, ha, hav⟩ := h
        rcases List.mem_cons.1 ha with rfl | ha'
        · exact absurd hav hm
        · split
          · split
            · apply ih; exact ⟨a, ha', hav⟩
            · apply ih; exact ⟨a, ha', hav⟩
          · apply ih; exact ⟨a, ha', hav⟩
    · rw [if_neg hc] at h
      simp at h

theorem freeAfter_append (e : EEPROM) (l1 l2 : List Nat) (fs : Nat) :
    freeAfter e (l1 ++ l2) fs = freeAfter e l2 (freeAfter e l1 fs) := by
  simp [freeAfter, List.foldl_append]

theorem recordWhile_succ (op : Char) (id listid EElength : Nat)
    (hop : op = 'q' ∨ op = 'Q' ∨ op = 'x' ∨ op = 'd' ∨ op = 'D' ∨ op = 'E')
    (fuel a : Nat) (s : IdopState) :
    recordWhile op id listid EElength (fuel + 1) a s = recordStep op id listid EElength fuel a s := by
  have e255 : ((readeeprom s.e a + 255) % 256 + 255) % 256 = (readeeprom s.e a + 254) % 256 := by
    omega
  rw [recordWhile, recordStep]
  by_cases ha : a < EElength
  · rw [if_pos ha, if_pos ha]
    by_cases hb : readeeprom s.e a = 0
    · rw [if_pos hb, if_pos hb]
    · rw [if_neg hb, if_neg hb]
      by_cases hk : readeeprom s.e (a + 1) = listid
      · rw [if_pos hk, if_pos hk, if_pos hop, e255]
        try rfl
      · rw [if_neg hk, if_neg hk]
  · rw [if_neg ha, if_neg ha]

theorem listSlots_succ (listid EElength : Nat) (e : EEPROM) (fuel a : Nat) :
    listSlots listid EElength e (fuel + 1) a =
      if a < EElength then
        if readeeprom e a = 0 then []
        else (if readeeprom e (a + 1) = listid
                then slotsOf 64 ((readeeprom e a + 254) % 256) (a + 2) else [])
              ++ listSlots listid EElength e fuel (a + readeeprom e a)
      else [] := by
  rw [listSlots]

theorem recordWhile_Q_nomatch (id listid EElength : Nat) (hid : id < 2 ^ 32) :
    ∀ (fuel a : Nat) (s : IdopState), s.returned = none →
      (∀ x ∈ listSlots listid EElength s.e fuel a, slotValue s.e x ≠ id) →
      recordWhile 'Q' id listid EElength fuel a s =
        { s with freeSlot := freeAfter s.e (listSlots listid EElength s.e fuel a) s.freeSlot } := by
  intro fuel
  induction fuel with
  | zero => intro a s _ _; simp [recordWhile, listSlots, freeAfter]
  | succ n ih =>
    intro a s hret h
    rw [recordWhile_succ 'Q' id listid EElength (by decide), recordStep]
    rw [listSlots_succ] at h ⊢
    by_cases ha : a < EElength
    · rw [if_pos ha] at h ⊢
      rw [if_pos ha]
      by_cases hb : readeeprom s.e a = 0
      · rw [if_pos hb, if_pos hb]
        simp [freeAfter]
      · rw [if_neg hb] at h ⊢
        rw [if_neg hb]
        by_cases hk : readeeprom s.e (a + 1) = listid
        · rw [if_pos hk] at h ⊢
          rw [if_pos hk]
          rw [slotWhile_Q_nomatch id hid 64 _ _ s
            (fun x hx => h x (List.mem_append_left _ hx))]
          simp only [hret]
          have hi := ih (a + readeeprom s.e a)
            { e := s.e,
              freeSlot := freeAfter s.e (slotsOf 64 ((readeeprom s.e a + 254) % 256) (a + 2)) s.freeSlot,
              delete_success := s.delete_success, calls := s.calls, returned := none } rfl
            (fun x hx => h x (List.mem_append_right _ hx))
          rw [hi]
          simp only [freeAfter_append]
        · rw [if_neg hk] at h ⊢
          rw [if_neg hk]
          rw [ih _ _ hret (fun x hx => h x (by simpa using hx))]
          simp
    · rw [if_neg ha, if_neg ha]
      simp [freeAfter]

theorem recordWhile_Q_match (id listid EElength : Nat) (hid : id < 2 ^ 32) :
    ∀ (fuel a : Nat) (s : IdopState), s.returned = none →
      (∃ x ∈ listSlots listid EElength s.e fuel a, slotValue s.e x = id) →
      (recordWhile 'Q' id listid EElength fuel a s).returned = some true ∧
      (recordWhile 'Q' id listid EElength fuel a s).e = s.e := by
  intro fuel
  induction fuel with
  | zero => intro a s _ h; simp [listSlots] at h
  | succ n ih =>
    intro a s hret h
    rw [recordWhile_succ 'Q' id listid EElength (by decide), recordStep]
    rw [listSlots_succ] at h
    by_cases ha : a < EElength
    · rw [if_pos ha] at h ⊢
      by_cases hb : readeeprom s.e a = 0
      · rw [if_pos hb] at h
        simp at h
      · rw [if_neg hb] at h ⊢
        by_cases hk : readeeprom s.e (a + 1) = listid
        · rw [if_pos hk] at h ⊢
          by_cases hcur : ∃ x ∈ slotsOf 64 ((readeeprom s.e a + 254) % 256) (a + 2), slotValue s.e x = id
          · have hm := slotWhile_Q_match id hid 64 _ _ s hcur
            simp only [hm.1]
            exact ⟨trivial, hm.2⟩
          · have hcur' : ∀ x ∈ slotsOf 64 ((readeeprom s.e a + 254) % 256) (a + 2), slotValue s.e x ≠ id :=
              fun x hx hv => hcur ⟨x, hx, hv⟩
            rw [slotWhile_Q_nomatch id hid 64 _ _ s hcur']
            simp only [hret]
            obtain ⟨x, hx, hxv⟩ := h
            rcases List.mem_append.1 hx with h1 | h2
            · exact absurd hxv (hcur' x h1)
            · exact ih (a + readeeprom s.e a)
                { e := s.e,
                  freeSlot := freeAfter s.e (slotsOf 64 ((readeeprom s.e a + 254) % 256) (a + 2)) s.freeSlot,
                  delete_success := s.delete_success, calls := s.calls, returned := none } rfl
                ⟨x, h2, hxv⟩
        · rw [if_neg hk] at h ⊢
          obtain ⟨x, hx, hxv⟩ := h
          exact ih _ _ hret ⟨x, by simpa using hx, hxv⟩
    · rw [if_neg ha] at h
      simp at h

theorem readeeprom_zeroSlot (e : EEPROM) (a x : Nat) :
    readeeprom (zeroSlot e a) x = if a ≤ x ∧ x < a + 4 then 0 else readeeprom e x := by
  unfold zeroSlot
  simp only [readeeprom_updateeeprom]
  by_cases h3 : x = a + 3
  · simp [h3]
  · by_cases h2 : x = a + 2
    · simp [h2]
    · by_cases h1 : x = a + 1
      · simp [h1]
      · by_cases h0 : x = a
        · simp [h0]
        · have : ¬ (a ≤ x ∧ x < a + 4) := by omega
          simp [h0, h1, h2, h3, this]

theorem readeeprom_writeSlot (e : EEPROM) (a id x : Nat) :
    readeeprom (writeSlot e a id) x =
      if a ≤ x ∧ x < a + 4 then idByte id (x - a) else readeeprom e x := by
  unfold writeSlot
  simp only [readeeprom_updateeeprom]
  have hb := fun k => Nat.mod_eq_of_lt (idByte_lt id k)
  by_cases h3 : x = a + 3
  · simp [h3, hb]
  · by_cases h2 : x = a + 2
    · simp [h2, hb]
    · by_cases h1 : x = a + 1
      · simp [h1, hb]
      · by_cases h0 : x = a
        · simp [h0, hb]
        · have : ¬ (a ≤ x ∧ x < a + 4) := by omega
          simp [h0, h1, h2, h3, this]

theorem slotValue_congr (e1 e2 : EEPROM) (a : Nat)
    (h : ∀ x, a ≤ x → x < a + 4 → readeeprom e1 x = readeeprom e2 x) :
    slotValue e1 a = slotValue e2 a := by
  unfold slotValue
  rw [h a (by omega) (by omega), h (a + 1) (by omega) (by omega),
    h (a + 2) (by omega) (by omega), h (a + 3) (by omega) (by omega)]

theorem slotValue_writeSlot (e : EEPROM) (a id : Nat) (hid : id < 2 ^ 32) :
    slotValue (writeSlot e a id) a = id := by
  rw [slotValue_eq_iff _ _ _ hid]
  simp [readeeprom_writeSlot]

theorem slotsOf_range : ∀ (fuel crl cra s : Nat), s ∈ slotsOf fuel crl cra →
    cra ≤ s ∧ s + 4 ≤ cra + crl := by
  intro fuel
  induction fuel with
  | zero => intro crl cra s h; simp [slotsOf] at h
  | succ n ih =>
    intro crl cra s h
    rw [slotsOf] at h
    by_cases hc : crl ≥ 4
    · rw [if_pos hc] at h
      rcases List.mem_cons.1 h with rfl | h'
      · omega
      · have := ih _ _ _ h'
        omega
    · rw [if_neg hc] at h
      simp at h

theorem slotsOf_pairwise : ∀ (fuel crl cra : Nat),
    (slotsOf fuel crl cra).Pairwise (fun x y => x + 4 ≤ y) := by
  intro fuel
  induction fuel with
  | zero => intro crl cra; simp [slotsOf]
  | succ n ih =>
    intro crl cra
    rw [slotsOf]
    by_cases hc : crl ≥ 4
    · rw [if_pos hc]
      refine List.Pairwise.cons ?_ (ih _ _)
      intro y hy
      have := slotsOf_range _ _ _ _ hy
      omega
    · rw [if_neg hc]
      exact List.Pairwise.nil

theorem listSlots_lower (listid EElength : Nat) (e : EEPROM) :
    ∀ (fuel a s : Nat), s ∈ listSlots listid EElength e fuel a → a + 2 ≤ s := by
  intro fuel
  induction fuel with
  | zero => intro a s h; simp [listSlots] at h
  | succ n ih =>
    intro a s h
    rw [listSlots_succ] at h
    by_cases ha : a < EElength
    · rw [if_pos ha] at h
      by_cases hb : readeeprom e a = 0
      · rw [if_pos hb] at h; simp at h
      · rw [if_neg hb] at h
        rcases List.mem_append.1 h with h1 | h2
        · by_cases hk : readeeprom e (a + 1) = listid
          · rw [if_pos hk] at h1
            exact (slotsOf_range _ _ _ _ h1).1
          · rw [if_neg hk] at h1; simp at h1
        · have := ih _ _ h2
          omega
    · rw [if_neg ha] at h; simp at h

theorem wellFormed_succ (EElength : Nat) (e : EEPROM) (fuel a : Nat) :
    wellFormed EElength e (fuel + 1) a =
      if a < EElength then
        if readeeprom e a = 0 then True
        else 2 ≤ readeeprom e a ∧ a + readeeprom e a ≤ EElength ∧
          wellFormed EElength e fuel (a + readeeprom e a)
      else True := by
  rw [wellFormed]

/-- Under well-formedness the slots of the current record end before the next record. -/
theorem curSlots_range (e : EEPROM) (a s : Nat) (hb2 : 2 ≤ readeeprom e a)
    (h : s ∈ slotsOf 64 ((readeeprom e a + 254) % 256) (a + 2)) :
    a + 2 ≤ s ∧ s + 4 ≤ a + readeeprom e a := by
  have hlt := readeeprom_lt e a
  have := slotsOf_range _ _ _ _ h
  omega

theorem listSlots_pairwise (listid EElength : Nat) (e : EEPROM) :
    ∀ (fuel a : Nat), wellFormed EElength e fuel a →
      (listSlots listid EElength e fuel a).Pairwise (fun x y => x + 4 ≤ y) := by
  intro fuel
  induction fuel with
  | zero => intro a _; simp [listSlots]
  | succ n ih =>
    intro a hwf
    rw [listSlots_succ]
    rw [wellFormed_succ] at hwf
    by_cases ha : a < EElength
    · rw [if_pos ha] at hwf ⊢
      by_cases hb : readeeprom e a = 0
      · rw [if_pos hb]; exact List.Pairwise.nil
      · rw [if_neg hb] at hwf ⊢
        obtain ⟨hb2, _, hwf'⟩ := hwf
        rw [List.pairwise_append]
        refine ⟨?_, ih _ hwf', ?_⟩
        · by_cases hk : readeeprom e (a + 1) = listid
          · rw [if_pos hk]; exact slotsOf_pairwise _ _ _
          · rw [if_neg hk]; exact List.Pairwise.nil
        · intro x hx y hy
          have hy2 := listSlots_lower _ _ _ _ _ _ hy
          by_cases hk : readeeprom e (a + 1) = listid
          · rw [if_pos hk] at hx
            have := curSlots_range e a x hb2 hx
            omega
          · rw [if_neg hk] at hx; simp at hx
    · rw [if_neg ha]; exact List.Pairwise.nil

/-- The record walk only depends on the bytes outside the slots it visits. -/
theorem listSlots_congr (listid EElength : Nat) (e e2 : EEPROM) :
    ∀ (fuel a : Nat), wellFormed EElength e fuel a →
      (∀ x, a ≤ x → (∀ s ∈ listSlots listid EElength e fuel a, ¬ (s ≤ x ∧ x < s + 4)) →
        readeeprom e2 x = readeeprom e x) →
      listSlots listid EElength e2 fuel a = listSlots listid EElength e fuel a := by
  intro fuel
  induction fuel with
  | zero => intro a _ _; simp [listSlots]
  | succ n ih =>
    intro a hwf h
    have hlow := listSlots_lower listid EElength e (n + 1) a
    have h0 : readeeprom e2 a = readeeprom e a :=
      h a (Nat.le_refl _) (fun s hs hh => by have := hlow s hs; omega)
    have h1 : readeeprom e2 (a + 1) = readeeprom e (a + 1) :=
      h (a + 1) (by omega) (fun s hs hh => by have := hlow s hs; omega)
    rw [listSlots_succ] at h
    rw [listSlots_succ, listSlots_succ, h0, h1]
    rw [wellFormed_succ] at hwf
    by_cases ha : a < EElength
    · rw [if_pos ha] at hwf h ⊢
      rw [if_pos ha]
      by_cases hb : readeeprom e a = 0
      · rw [if_pos hb, if_pos hb]
      · rw [if_neg hb] at hwf h ⊢
        rw [if_neg hb]
        obtain ⟨hb2, _, hwf'⟩ := hwf
        congr 1
        apply ih _ hwf'
        intro x hx hnot
        apply h x (by omega)
        intro s hs
        rcases List.mem_append.1 hs with hs1 | hs2
        · by_cases hk : readeeprom e (a + 1) = listid
          · rw [if_pos hk] at hs1
            have := curSlots_range e a s hb2 hs1
            omega
          · rw [if_neg hk] at hs1; simp at hs1
        · exact hnot s hs2
    · rw [if_neg ha, if_neg ha]

theorem slotWhile_del_succ (op : Char) (hq : ¬ (op = 'q' ∨ op = 'Q'))
    (hd : op = 'd' ∨ op = 'D' ∨ op = 'x') (hE : ¬ op = 'E') (hx : op ≠ 'x') (hd1 : op ≠ 'd')
    (id : Nat) (hid : id < 2 ^ 32) (n crl cra : Nat) (s : IdopState)
    (hc : crl ≥ 4) :
    slotWhile op id (n + 1) crl cra s = slotWhile op id n (crl - 4) (cra + 4) (stepD id s cra) := by
  rw [slotWhile, if_pos hc, slotFor_full op id s.e cra hx hd1 (fun h => hq (Or.inl h))]
  have c1 : (decide (readeeprom s.e cra = idByte id 0 ∧ readeeprom s.e (cra + 1) = idByte id 1 ∧
        readeeprom s.e (cra + 2) = idByte id 2 ∧ readeeprom s.e (cra + 3) = idByte id 3) = true ∧
        (op = 'd' ∨ op = 'D' ∨ op = 'x')) =
        (slotValue s.e cra = id) :=
    propext ⟨fun h => (slotValue_eq_iff s.e cra id hid).2 (of_decide_eq_true h.1),
      fun h => ⟨decide_eq_true ((slotValue_eq_iff s.e cra id hid).1 h), hd⟩⟩
  have c2 : (decide (readeeprom s.e cra = idByte id 0 ∧ readeeprom s.e (cra + 1) = idByte id 1 ∧
        readeeprom s.e (cra + 2) = idByte id 2 ∧ readeeprom s.e (cra + 3) = idByte id 3) = true ∧
        (op = 'q' ∨ op = 'Q')) = False :=
    propext ⟨fun h => hq h.2, False.elim⟩
  have c3 : (op = 'E') = False := propext ⟨hE, False.elim⟩
  dsimp only
  simp only [c1, c2, c3, if_false, Nat.add_sub_cancel]
  rfl

theorem slotWhile_D_succ (id : Nat) (hid : id < 2 ^ 32) (n crl cra : Nat) (s : IdopState)
    (hc : crl ≥ 4) :
    slotWhile 'D' id (n + 1) crl cra s = slotWhile 'D' id n (crl - 4) (cra + 4) (stepD id s cra) :=
  slotWhile_del_succ 'D' (by decide) (by decide) (by decide) (by decide) (by decide)
    id hid n crl cra s hc

theorem stepD_e (id : Nat) (s : IdopState) (cra : Nat) :
    (stepD id s cra).e = if slotValue s.e cra = id then zeroSlot s.e cra else s.e := by
  unfold stepD
  dsimp only
  split_ifs <;> rfl

theorem stepD_returned (id : Nat) (s : IdopState) (cra : Nat) :
    (stepD id s cra).returned = s.returned := by
  unfold stepD
  dsimp only
  split_ifs <;> rfl

theorem stepD_calls (id : Nat) (s : IdopState) (cra : Nat) :
    (stepD id s cra).calls = s.calls := by
  unfold stepD
  dsimp only
  split_ifs <;> rfl

theorem stepD_delete_success (id : Nat) (s : IdopState) (cra : Nat) :
    (stepD id s cra).delete_success = true ↔
      (s.delete_success = true ∨ slotValue s.e cra = id) := by
  unfold stepD
  dsimp only
  by_cases hm : slotValue s.e cra = id
  · rw [if_pos hm]
    split_ifs <;> simp [hm]
  · rw [if_neg hm]
    split_ifs <;> simp [hm]

theorem slotValue_stepD (id : Nat) (s : IdopState) (cra a : Nat) (h : cra + 4 ≤ a) :
    slotValue (stepD id s cra).e a = slotValue s.e a := by
  apply slotValue_congr
  intro x hx1 hx2
  rw [stepD_e]
  by_cases hm : slotValue s.e cra = id
  · rw [if_pos hm, readeeprom_zeroSlot, if_neg (by omega)]
  · rw [if_neg hm]

theorem slotWhile_D (id : Nat) (hid : id < 2 ^ 32) :
    ∀ (fuel crl cra : Nat) (s : IdopState),
      (slotWhile 'D' id fuel crl cra s).returned = s.returned ∧
      (slotWhile 'D' id fuel crl cra s).calls = s.calls ∧
      (∀ x, (hit s.e id (slotsOf fuel crl cra) x →
              readeeprom (slotWhile 'D' id fuel crl cra s).e x = 0) ∧
            (¬ hit s.e id (slotsOf fuel crl cra) x →
              readeeprom (slotWhile 'D' id fuel crl cra s).e x = readeeprom s.e x)) ∧
      ((slotWhile 'D' id fuel crl cra s).delete_success = true ↔
        (s.delete_success = true ∨ ∃ a ∈ slotsOf fuel crl cra, slotValue s.e a = id)) := by
  intro fuel
  induction fuel with
  | zero =>
    intro crl cra s
    simp [slotWhile, slotsOf, hit]
  | succ n ih =>
    intro crl cra s
    by_cases hc : crl ≥ 4
    · rw [slotWhile_D_succ id hid n crl cra s hc]
      obtain ⟨i1, i2, i3, i4⟩ := ih (crl - 4) (cra + 4) (stepD id s cra)
      have hsl : slotsOf (n + 1) crl cra = cra :: slotsOf n (crl - 4) (cra + 4) := by
        rw [slotsOf, if_pos hc]
      have hval : ∀ a ∈ slotsOf n (crl - 4) (cra + 4),
          slotValue (stepD id s cra).e a = slotValue s.e a := fun a ha =>
        slotValue_stepD id s cra a (slotsOf_range _ _ _ _ ha).1
      have hhit : ∀ x, hit (stepD id s cra).e id (slotsOf n (crl - 4) (cra + 4)) x ↔
          hit s.e id (slotsOf n (crl - 4) (cra + 4)) x := by
        intro x
        unfold hit
        constructor
        · rintro ⟨a, ha, hv, hx⟩; exact ⟨a, ha, by rw [← hval a ha]; exact hv, hx⟩
        · rintro ⟨a, ha, hv, hx⟩; exact ⟨a, ha, by rw [hval a ha]; exact hv, hx⟩
      refine ⟨by rw [i1, stepD_returned], by rw [i2, stepD_calls], ?_, ?_⟩
      · intro x
        rw [hsl]
        constructor
        · rintro ⟨a, ha, hv, hx⟩
          by_cases hr : hit (stepD id s cra).e id (slotsOf n (crl - 4) (cra + 4)) x
          · exact (i3 x).1 hr
          · rw [(i3 x).2 hr]
            rcases List.mem_cons.1 ha with rfl | ha'
            · rw [stepD_e, if_pos hv, readeeprom_zeroSlot, if_pos hx]
            · exact absurd ((hhit x).2 ⟨a, ha', hv, hx⟩) hr
        · intro hn
          have hr : ¬ hit (stepD id s cra).e id (slotsOf n (crl - 4) (cra + 4)) x := by
            rw [hhit]
            rintro ⟨a, ha, hv, hx⟩
            exact hn ⟨a, List.mem_cons_of_mem _ ha, hv, hx⟩
          rw [(i3 x).2 hr, stepD_e]
          by_cases hm : slotValue s.e cra = id
          · rw [if_pos hm, readeeprom_zeroSlot]
            have : ¬ (cra ≤ x ∧ x < cra + 4) := fun hx =>
              hn ⟨cra, List.mem_cons_self _ _, hm, hx⟩
            rw [if_neg this]
          · rw [if_neg hm]
      · rw [i4, stepD_delete_success, hsl]
        constructor
        · rintro (h | ⟨a, ha, hv⟩)
          · rcases h with h | h
            · exact Or.inl h
            · exact Or.inr ⟨cra, List.mem_cons_self _ _, h⟩
          · exact Or.inr ⟨a, List.mem_cons_of_mem _ ha, by rw [← hval a ha]; exact hv⟩
        · rintro (h | ⟨a, ha, hv⟩)
          · exact Or.inl (Or.inl h)
          · rcases List.mem_cons.1 ha with rfl | ha'
            · exact Or.inl (Or.inr hv)
            · exact Or.inr ⟨a, ha', by rw [hval a ha']; exact hv⟩
    · have h1 : slotWhile 'D' id (n + 1) crl cra s = s := by rw [slotWhile, if_neg hc]
      have h2 : slotsOf (n + 1) crl cra = [] := by rw [slotsOf, if_neg hc]
      rw [h1, h2]
      simp [hit]

theorem hit_append (e : EEPROM) (id : Nat) (l1 l2 : List Nat) (x : Nat) :
    hit e id (l1 ++ l2) x ↔ hit e id l1 x ∨ hit e id l2 x := by
  unfold hit
  constructor
  · rintro ⟨a, ha, h⟩
    rcases List.mem_append.1 ha with h1 | h2
    · exact Or.inl ⟨a, h1, h⟩
    · exact Or.inr ⟨a, h2, h⟩
  · rintro (⟨a, ha, h⟩ | ⟨a, ha, h⟩)
    · exact ⟨a, List.mem_append_left _ ha, h⟩
    · exact ⟨a, List.mem_append_right _ ha, h⟩

theorem hit_congr (e1 e2 : EEPROM) (id : Nat) (l : List Nat) (x : Nat)
    (h : ∀ a ∈ l, slotValue e1 a = slotValue e2 a) :
    hit e1 id l x ↔ hit e2 id l x := by
  unfold hit
  constructor
  · rintro ⟨a, ha, hv, hx⟩; exact ⟨a, ha, by rw [← h a ha]; exact hv, hx⟩
  · rintro ⟨a, ha, hv, hx⟩; exact ⟨a, ha, by rw [h a ha]; exact hv, hx⟩

theorem wellFormed_congr (EElength : Nat) (e e2 : EEPROM) :
    ∀ (fuel a : Nat), (∀ x, a ≤ x → readeeprom e2 x = readeeprom e x) →
      wellFormed EElength e fuel a → wellFormed EElength e2 fuel a := by
  intro fuel
  induction fuel with
  | zero => intro a _ _; simp [wellFormed]
  | succ n ih =>
    intro a h hwf
    rw [wellFormed_succ] at hwf ⊢
    rw [h a (Nat.le_refl _)]
    by_cases ha : a < EElength
    · rw [if_pos ha] at hwf ⊢
      by_cases hb : readeeprom e a = 0
      · rw [if_pos hb]; trivial
      · rw [if_neg hb] at hwf ⊢
        exact ⟨hwf.1, hwf.2.1, ih _ (fun x hx => h x (by omega)) hwf.2.2⟩
    · rw [if_neg ha]; trivial

theorem recordWhile_D (id listid EElength : Nat) (hid : id < 2 ^ 32) :
    ∀ (fuel a : Nat) (s : IdopState), s.returned = none →
      wellFormed EElength s.e fuel a →
      (recordWhile 'D' id listid EElength fuel a s).returned = none ∧
      (recordWhile 'D' id listid EElength fuel a s).calls = s.calls ∧
      (∀ x, (hit s.e id (listSlots listid EElength s.e fuel a) x →
              readeeprom (recordWhile 'D' id listid EElength fuel a s).e x = 0) ∧
            (¬ hit s.e id (listSlots listid EElength s.e fuel a) x →
              readeeprom (recordWhile 'D' id listid EElength fuel a s).e x = readeeprom s.e x)) ∧
      ((recordWhile 'D' id listid EElength fuel a s).delete_success = true ↔
        (s.delete_success = true ∨
          ∃ x ∈ listSlots listid EElength s.e fuel a, slotValue s.e x = id)) := by
  intro fuel
  induction fuel with
  | zero =>
    intro a s hret _
    simp [recordWhile, listSlots, hit, hret]
  | succ n ih =>
    intro a s hret hwf
    rw [recordWhile_succ 'D' id listid EElength (by decide), recordStep, listSlots_succ]
    rw [wellFormed_succ] at hwf
    by_cases ha : a < EElength
    · rw [if_pos ha] at hwf
      rw [if_pos ha, if_pos ha]
      by_cases hb : readeeprom s.e a = 0
      · rw [if_pos hb, if_pos hb]
        simp [hit, hret]
      · rw [if_neg hb] at hwf
        rw [if_neg hb, if_neg hb]
        obtain ⟨hb2, _, hwf'⟩ := hwf
        by_cases hk : readeeprom s.e (a + 1) = listid
        · rw [if_pos hk, if_pos hk]
          obtain ⟨d1, d2, d3, d4⟩ := slotWhile_D id hid 64 ((readeeprom s.e a + 254) % 256) (a + 2) s
          generalize hs1 : slotWhile 'D' id 64 ((readeeprom s.e a + 254) % 256) (a + 2) s = s1
            at d1 d2 d3 d4 ⊢
          generalize hcur : slotsOf 64 ((readeeprom s.e a + 254) % 256) (a + 2) = cur
            at d3 d4 ⊢
          have hcr : ∀ y ∈ cur, a + 2 ≤ y ∧ y + 4 ≤ a + readeeprom s.e a := fun y hy =>
            curSlots_range s.e a y hb2 (by rw [hcur]; exact hy)
          have hr1 : s1.returned = none := by rw [d1, hret]
          rw [hr1]
          dsimp only
          have hagree : ∀ x, a + readeeprom s.e a ≤ x → readeeprom s1.e x = readeeprom s.e x := by
            intro x hx
            apply (d3 x).2
            rintro ⟨y, hy, _, hy2⟩
            have := hcr y hy
            omega
          have hwf1 : wellFormed EElength s1.e n (a + readeeprom s.e a) :=
            wellFormed_congr EElength s.e s1.e n _ hagree hwf'
          have hls : listSlots listid EElength s1.e n (a + readeeprom s.e a) =
              listSlots listid EElength s.e n (a + readeeprom s.e a) :=
            listSlots_congr listid EElength s.e s1.e n _ hwf' (fun x hx _ => hagree x hx)
          obtain ⟨i1, i2, i3, i4⟩ := ih (a + readeeprom s.e a) s1 hr1 hwf1
          rw [hls] at i3 i4
          generalize hrest : listSlots listid EElength s.e n (a + readeeprom s.e a) = rest
            at i3 i4 ⊢
          have hrl : ∀ y ∈ rest, a + readeeprom s.e a + 2 ≤ y := fun y hy =>
            listSlots_lower listid EElength s.e n _ y (by rw [hrest]; exact hy)
          have hval : ∀ y ∈ rest, slotValue s1.e y = slotValue s.e y := fun y hy =>
            slotValue_congr _ _ _ (fun x hx1 _ => hagree x (by have := hrl y hy; omega))
          refine ⟨i1, by rw [i2, d2], ?_, ?_⟩
          · intro x
            rw [hit_append]
            constructor
            · rintro (hc | hr)
              · by_cases hr' : hit s1.e id rest x
                · exact (i3 x).1 hr'
                · rw [(i3 x).2 hr']; exact (d3 x).1 hc
              · exact (i3 x).1 ((hit_congr s1.e s.e id rest x hval).2 hr)
            · intro hn
              have hr' : ¬ hit s1.e id rest x := fun hh =>
                hn (Or.inr ((hit_congr s1.e s.e id rest x hval).1 hh))
              rw [(i3 x).2 hr']
              exact (d3 x).2 (fun hh => hn (Or.inl hh))
          · rw [i4, d4]
            constructor
            · rintro ((h | ⟨y, hy, hv⟩) | ⟨y, hy, hv⟩)
              · exact Or.inl h
              · exact Or.inr ⟨y, List.mem_append_left _ hy, hv⟩
              · exact Or.inr ⟨y, List.mem_append_right _ hy, by rw [← hval y hy]; exact hv⟩
            · rintro (h | ⟨y, hy, hv⟩)
              · exact Or.inl (Or.inl h)
              · rcases List.mem_append.1 hy with h1 | h2
                · exact Or.inl (Or.inr ⟨y, h1, hv⟩)
                · exact Or.inr ⟨y, h2, by rw [hval y h2]; exact hv⟩
        · rw [if_neg hk, if_neg hk]
          simpa using ih (a + readeeprom s.e a) s hret hwf'
    · rw [if_neg ha, if_neg ha]
      simp [hit, hret]

theorem pairwise_disjoint (l : List Nat) (h : l.Pairwise (fun x y => x + 4 ≤ y))
    (a b : Nat) (ha : a ∈ l) (hb : b ∈ l) (hab : a ≠ b) : a + 4 ≤ b ∨ b + 4 ≤ a := by
  induction l with
  | nil => simp at ha
  | cons c t ih =>
    rw [List.pairwise_cons] at h
    rcases List.mem_cons.1 ha with rfl | ha'
    · rcases List.mem_cons.1 hb with rfl | hb'
      · exact absurd rfl hab
      · exact Or.inl (h.1 b hb')
    · rcases List.mem_cons.1 hb with rfl | hb'
      · exact Or.inr (h.1 a ha')
      · exact ih h.2 ha' hb'

theorem freeAfter_of_ne_zero (e : EEPROM) (l : List Nat) (fs : Nat) (h : fs ≠ 0) :
    freeAfter e l fs = fs := by
  induction l with
  | nil => rfl
  | cons c t ih =>
    unfold freeAfter at ih ⊢
    rw [List.foldl_cons, if_neg (fun hh => h hh.2)]
    exact ih

theorem freeAfter_zero (e : EEPROM) (l : List Nat) (a0 : Nat) (hpos : ∀ a ∈ l, a ≠ 0)
    (hf : l.find? (fun a => decide (slotValue e a = 0)) = some a0) :
    freeAfter e l 0 = a0 := by
  induction l with
  | nil => simp at hf
  | cons c t ih =>
    rw [List.find?_cons] at hf
    by_cases hc : slotValue e c = 0
    · simp only [hc, decide_True] at hf
      have : c = a0 := by simpa using hf
      subst this
      unfold freeAfter
      rw [List.foldl_cons, if_pos ⟨hc, rfl⟩]
      exact freeAfter_of_ne_zero e t c (hpos c (List.mem_cons_self _ _))
    · simp only [hc, decide_False] at hf
      unfold freeAfter
      rw [List.foldl_cons, if_neg (fun hh => hc hh.1)]
      exact ih (fun a ha => hpos a (List.mem_cons_of_mem _ ha)) hf

theorem idop_zero (st : Store) (op : Char) (listid : Nat) (e : EEPROM) :
    idop st op 0 listid e = { ret := false, e := e, calls := [] } := by
  unfold idop
  by_cases hb : st.began = false
  · rw [if_pos hb]
  · rw [if_neg hb, if_pos rfl]

theorem idop_Q_of_nomatch (st : Store) (id listid : Nat) (e : EEPROM)
    (hid : id < 2 ^ 32)
    (h : ∀ a ∈ listSlots listid st.EElength e st.EElength 0, slotValue e a ≠ id) :
    (idop st 'Q' id listid e).ret = false := by
  unfold idop
  by_cases hb : st.began = false
  · rw [if_pos hb]
  · rw [if_neg hb]
    by_cases h0 : id = 0
    · rw [if_pos h0]
    · rw [if_neg h0]
      have hr := recordWhile_Q_nomatch id listid st.EElength hid st.EElength 0 (idopInit e) rfl h
      have c1 : (if ('Q' : Char) = 'A' then 'Q' else 'Q') = 'Q' := by decide
      dsimp only
      rw [c1]
      unfold idopInit at hr
      rw [hr]
      rfl

theorem idop_Q_of_match (st : Store) (id listid : Nat) (e : EEPROM)
    (hb : st.began = true) (hid0 : id ≠ 0) (hid : id < 2 ^ 32)
    (h : ∃ a ∈ listSlots listid st.EElength e st.EElength 0, slotValue e a = id) :
    (idop st 'Q' id listid e).ret = true ∧ (idop st 'Q' id listid e).e = e := by
  unfold idop
  rw [if_neg (by simp [hb]), if_neg hid0]
  have hr := recordWhile_Q_match id listid st.EElength hid st.EElength 0 (idopInit e) rfl h
  have c1 : (if ('Q' : Char) = 'A' then 'Q' else 'Q') = 'Q' := by decide
  dsimp only
  rw [c1]
  unfold idopInit at hr
  generalize recordWhile 'Q' id listid st.EElength st.EElength 0
    { e := e, freeSlot := 0, delete_success := false, calls := [], returned := none } = s at hr ⊢
  rw [hr.1]
  exact ⟨rfl, hr.2⟩

theorem idop_A_of_match (st : Store) (id listid : Nat) (e : EEPROM)
    (hb : st.began = true) (hid0 : id ≠ 0) (hid : id < 2 ^ 32)
    (h : ∃ a ∈ listSlots listid st.EElength e st.EElength 0, slotValue e a = id) :
    (idop st 'A' id listid e).ret = true ∧ (idop st 'A' id listid e).e = e := by
  unfold idop
  rw [if_neg (by simp [hb]), if_neg hid0]
  have hr := recordWhile_Q_match id listid st.EElength hid st.EElength 0 (idopInit e) rfl h
  have c1 : (if ('A' : Char) = 'A' then 'Q' else 'A') = 'Q' := by decide
  dsimp only
  rw [c1]
  unfold idopInit at hr
  generalize recordWhile 'Q' id listid st.EElength st.EElength 0
    { e := e, freeSlot := 0, delete_success := false, calls := [], returned := none } = s at hr ⊢
  rw [hr.1]
  exact ⟨rfl, hr.2⟩

theorem idop_A_of_free (st : Store) (id listid a0 : Nat) (e : EEPROM)
    (hb : st.began = true) (hid0 : id ≠ 0) (hid : id < 2 ^ 32)
    (h : ∀ a ∈ listSlots listid st.EElength e st.EElength 0, slotValue e a ≠ id)
    (hf : (listSlots listid st.EElength e st.EElength 0).find?
      (fun a => decide (slotValue e a = 0)) = some a0) :
    idop st 'A' id listid e = { ret := false, e := writeSlot e a0 id, calls := [] } := by
  unfold idop
  rw [if_neg (by simp [hb]), if_neg hid0]
  have hr := recordWhile_Q_nomatch id listid st.EElength hid st.EElength 0 (idopInit e) rfl h
  have hfa : freeAfter e (listSlots listid st.EElength e st.EElength 0) 0 = a0 :=
    freeAfter_zero e _ a0 (fun a ha => by
      have := listSlots_lower listid st.EElength e _ _ a ha
      omega) hf
  have ha0 : a0 ≠ 0 := by
    have := listSlots_lower listid st.EElength e _ _ a0 (List.mem_of_find?_eq_some hf)
    omega
  have c1 : (if ('A' : Char) = 'A' then 'Q' else 'A') = 'Q' := by decide
  have c2 : ¬ (('Q' : Char) = 'd' ∨ ('Q' : Char) = 'D' ∨ ('Q' : Char) = 'x') := by decide
  dsimp only
  rw [c1]
  unfold idopInit at hr
  dsimp only at hr
  rw [hr, hfa]
  dsimp only
  rw [if_neg c2, if_pos (by decide), if_pos ha0]

theorem idop_D_spec (st : Store) (id listid : Nat) (e : EEPROM)
    (hb : st.began = true) (hid0 : id ≠ 0) (hid : id < 2 ^ 32)
    (hwf : wellFormed st.EElength e st.EElength 0) :
    (∀ x, (hit e id (listSlots listid st.EElength e st.EElength 0) x →
            readeeprom (idop st 'D' id listid e).e x = 0) ∧
          (¬ hit e id (listSlots listid st.EElength e st.EElength 0) x →
            readeeprom (idop st 'D' id listid e).e x = readeeprom e x)) ∧
    ((idop st 'D' id listid e).ret = true ↔
      ∃ a ∈ listSlots listid st.EElength e st.EElength 0, slotValue e a = id) := by
  unfold idop
  rw [if_neg (by simp [hb]), if_neg hid0]
  obtain ⟨r1, _, r3, r4⟩ :=
    recordWhile_D id listid st.EElength hid st.EElength 0 (idopInit e) rfl hwf
  have c1 : (if ('D' : Char) = 'A' then 'Q' else 'D') = 'D' := by decide
  have c2 : (('D' : Char) = 'd' ∨ ('D' : Char) = 'D' ∨ ('D' : Char) = 'x') := by decide
  dsimp only
  rw [c1]
  unfold idopInit at r1 r3 r4
  dsimp only at r3 r4
  generalize recordWhile 'D' id listid st.EElength st.EElength 0
    { e := e, freeSlot := 0, delete_success := false, calls := [], returned := none } = s
    at r1 r3 r4 ⊢
  rw [r1]
  dsimp only
  rw [if_pos c2]
  dsimp only
  refine ⟨r3, ?_⟩
  rw [r4]
  simp

theorem query_after_delete (st : Store) (id listid : Nat) (e : EEPROM)
    (hb : st.began = true) (hid0 : id ≠ 0) (hid : id < 2 ^ 32)
    (hwf : wellFormed st.EElength e st.EElength 0) :
    (idop st 'Q' id listid (idop st 'D' id listid e).e).ret = false := by
  obtain ⟨hrd, _⟩ := idop_D_spec st id listid e hb hid0 hid hwf
  generalize (idop st 'D' id listid e).e = e2 at hrd ⊢
  have hls : listSlots listid st.EElength e2 st.EElength 0 =
      listSlots listid st.EElength e st.EElength 0 := by
    apply listSlots_congr listid st.EElength e e2 _ _ hwf
    intro x _ hnot
    apply (hrd x).2
    rintro ⟨a, ha, _, hx⟩
    exact hnot a ha hx
  have hpw := listSlots_pairwise listid st.EElength e st.EElength 0 hwf
  apply idop_Q_of_nomatch st id listid e2 hid
  rw [hls]
  intro a ha hv
  by_cases hm : slotValue e a = id
  · have hz : slotValue e2 a = 0 := by
      unfold slotValue
      rw [(hrd a).1 ⟨a, ha, hm, by omega, by omega⟩,
        (hrd (a + 1)).1 ⟨a, ha, hm, by omega, by omega⟩,
        (hrd (a + 2)).1 ⟨a, ha, hm, by omega, by omega⟩,
        (hrd (a + 3)).1 ⟨a, ha, hm, by omega, by omega⟩]
    rw [hz] at hv
    exact hid0 hv.symm
  · have hsame : slotValue e2 a = slotValue e a := by
      apply slotValue_congr
      intro x hx1 hx2
      apply (hrd x).2
      rintro ⟨b, hb', hbv, hbx⟩
      have hne : a ≠ b := fun hab => hm (by rw [hab]; exact hbv)
      have := pairwise_disjoint _ hpw a b ha hb' hne
      omega
    rw [hsame] at hv
    exact hm hv

theorem query_after_add (st : Store) (id listid a0 : Nat) (e : EEPROM)
    (hb : st.began = true) (hid0 : id ≠ 0) (hid : id < 2 ^ 32)
    (hwf : wellFormed st.EElength e st.EElength 0)
    (ha0 : a0 ∈ listSlots listid st.EElength e st.EElength 0) :
    (idop st 'Q' id listid (writeSlot e a0 id)).ret = true := by
  have hls : listSlots listid st.EElength (writeSlot e a0 id) st.EElength 0 =
      listSlots listid st.EElength e st.EElength 0 := by
    apply listSlots_congr listid st.EElength e _ _ _ hwf
    intro x _ hnot
    rw [readeeprom_writeSlot, if_neg (hnot a0 ha0)]
  apply (idop_Q_of_match st id listid _ hb hid0 hid _).1
  rw [hls]
  exact ⟨a0, ha0, slotValue_writeSlot e a0 id hid⟩

end EERecordSystem

namespace EECounter

set_option maxRecDepth 100000 in
theorem lor_128 (z : Nat) : (z % 256) ||| 0x80 = 128 + z % 128 := by
  have h : ∀ b : Fin 256, (b.val ||| 0x80) = 128 + b.val % 128 := by decide
  have := h ⟨z % 256, Nat.mod_lt _ (by norm_num)⟩
  simp only at this
  rw [this]
  omega

theorem land_127 (b : Nat) : b &&& 0x7F = b % 128 := by
  have := Nat.and_pow_two_sub_one_eq_mod b 7
  simpa using this

theorem shl7_lor (r b : Nat) (hb : b < 128) :
    ((r <<< 7) % 2 ^ 32) ||| b = (r * 128) % 2 ^ 32 + b := by
  rw [Nat.shiftLeft_eq]
  have h1 : (r * 2 ^ 7) % 2 ^ 32 = 2 ^ 7 * ((r * 2 ^ 7) % 2 ^ 32 / 2 ^ 7) := by
    norm_num
    omega
  have h2 := Nat.mul_add_lt_is_or (show b < 2 ^ 7 by norm_num; exact hb)
    ((r * 2 ^ 7) % 2 ^ 32 / 2 ^ 7)
  rw [← h1] at h2
  rw [← h2]
  norm_num

theorem checkpointByte_eq (z : Nat) :
    checkpointByte z = if z % 128 = 127 then 0x70 else 128 + z % 128 := by
  unfold checkpointByte
  simp only [lor_128]
  by_cases h : z % 128 = 127
  · rw [if_pos h, if_pos (by omega)]
  · rw [if_neg h, if_neg (by omega)]

theorem checkpointByte_isChk (z : Nat) : isChk (checkpointByte z) := by
  rw [checkpointByte_eq]
  unfold isChk
  by_cases h : z % 128 = 127
  · rw [if_pos h]; left; rfl
  · rw [if_neg h]; right; omega

theorem checkpointByte_lt (z : Nat) : checkpointByte z < 255 := by
  rw [checkpointByte_eq]
  split_ifs <;> omega

theorem smallInc_eq (b : Nat) :
    smallInc b 8 2 0x7F =
      if b = 0x7F then 2 else if b = 0x3F then 3 else if b = 0x1F then 4
      else if b = 0x0F then 5 else if b = 7 then 6 else if b = 3 then 7
      else if b = 1 then 8 else if b = 0 then 9 else 0 := by
  simp [smallInc]

theorem smallInc_of_isChk (b : Nat) (h : isChk b) : smallInc b 8 2 0x7F = 0 := by
  rw [smallInc_eq]
  unfold isChk at h
  split_ifs <;> omega

theorem smallInc_FF : smallInc 0xFF 8 2 0x7F = 0 := by decide

theorem scanBody_FF (c : Counter) (e : EEPROM) (i : Nat) (s : ScanState)
    (hb : readeeprom e (c.start_address + s.x) = 0xFF) (hc : s.count < 2 ^ 32) :
    scanBody c e i s =
      if i = 1 then
        { s with checkpoint_count := 0, ff_plus_one_present := 1,
                 count := (s.count + 1) % 2 ^ 32, x := inc_index c s.x }
      else { s with checkpoint_count := 0, x := inc_index c s.x } := by
  unfold scanBody
  simp only [hb, smallInc_FF]
  have h1 : ¬ ((255 : Nat) = 0x70 ∨ ((255 : Nat) ≥ 0x80 ∧ (255 : Nat) < 0xFF)) := by decide
  rw [if_neg h1]
  have h2 : (s.count + 0) % 2 ^ 32 = s.count := by
    rw [Nat.add_zero]; exact Nat.mod_eq_of_lt hc
  rw [h2]
  by_cases hi : i = 1
  · simp [hi]
  · simp [hi]

theorem scanBody_other (c : Counter) (e : EEPROM) (i : Nat) (s : ScanState)
    (hb1 : readeeprom e (c.start_address + s.x) ≠ 0xFF)
    (hb2 : ¬ isChk (readeeprom e (c.start_address + s.x))) :
    scanBody c e i s =
      { s with checkpoint_count := 0,
               count := (s.count + smallInc (readeeprom e (c.start_address + s.x)) 8 2 0x7F) % 2 ^ 32,
               x := inc_index c s.x } := by
  have hlt := readeeprom_lt e (c.start_address + s.x)
  unfold scanBody
  generalize readeeprom e (c.start_address + s.x) = b at hb1 hb2 hlt ⊢
  unfold isChk at hb2
  have h70 : b ≠ 0x70 := fun h => hb2 (Or.inl h)
  have h80 : ¬ (b ≥ 0x80) := fun h => hb2 (Or.inr ⟨h, by omega⟩)
  have h1 : ¬ (b = 0x70 ∨ (b ≥ 0x80 ∧ b < 0xFF)) := hb2
  simp only [h1, if_false, hb1, h70, h80]
  simp

theorem scanBody_chk (c : Counter) (e : EEPROM) (i : Nat) (s : ScanState) (z : Nat)
    (hb : readeeprom e (c.start_address + s.x) = checkpointByte z)
    (hcc : s.checkpoint_count ≤ 4) (hc : s.count < 2 ^ 32) :
    scanBody c e i s =
      if s.checkpoint_count = 4 then
        { s with count := (regNext s.checkpoint_count s.checkpoint_register z
                            + s.ff_plus_one_present) % 2 ^ 32,
                 checkpoint_register := regNext s.checkpoint_count s.checkpoint_register z,
                 checkpoint_count := 0,
                 first_checkpoint_index := (s.x + c.length - 4) % c.length,
                 x := inc_index c s.x }
      else
        { s with count := (s.count + 2) % 2 ^ 32,
                 checkpoint_register := regNext s.checkpoint_count s.checkpoint_register z,
                 checkpoint_count := s.checkpoint_count + 1,
                 x := inc_index c s.x } := by
  have hchk := checkpointByte_isChk z
  have hlt := checkpointByte_lt z
  have hsm := smallInc_of_isChk _ hchk
  have hpay : (if checkpointByte z = 0x70 then 0xFF else checkpointByte z) &&& 0x7F = z % 128 := by
    rw [land_127, checkpointByte_eq]
    by_cases h : z % 128 = 127
    · rw [if_pos h]; simp [h]
    · rw [if_neg h]
      rw [if_neg (by omega)]
      omega
  have hge : (if checkpointByte z = 0x70 then 0xFF else checkpointByte z) ≥ 0x80 := by
    unfold isChk at hchk
    split_ifs with h
    · norm_num
    · rcases hchk with h1 | h1
      · exact absurd h1 h
      · exact h1.1
  unfold scanBody
  simp only [hb, hsm]
  have h1 : (checkpointByte z = 0x70 ∨ (checkpointByte z ≥ 0x80 ∧ checkpointByte z < 0xFF)) := hchk
  have h2 : checkpointByte z ≠ 0xFF := by omega
  rw [if_pos h1, if_neg h2]
  simp only [hge, if_true, hpay]
  have h3 : (s.count + 0) % 2 ^ 32 = s.count := by
    rw [Nat.add_zero]; exact Nat.mod_eq_of_lt hc
  rw [h3, shl7_lor _ _ (Nat.mod_lt _ (by norm_num))]
  have h5 : (s.checkpoint_count + 1) % 256 = s.checkpoint_count + 1 := by omega
  rw [h5]
  unfold regNext
  by_cases h4 : s.checkpoint_count = 4
  · simp [h4]
  · have h6 : ¬ (s.checkpoint_count + 1 = 5) := by omega
    simp [h4, h6]

theorem pos_lt (c : Counter) (hL : 0 < c.length) (p j : Nat) : pos c p j < c.length :=
  Nat.mod_lt _ hL

theorem pos_zero (c : Counter) (p : Nat) (hp : p < c.length) : pos c p 0 = p := by
  unfold pos; rw [Nat.add_zero]; exact Nat.mod_eq_of_lt hp

theorem pos_add_length (c : Counter) (p j : Nat) : pos c p (j + c.length) = pos c p j := by
  unfold pos; rw [← Nat.add_assoc, Nat.add_mod_right]

theorem inc_index_pos (c : Counter) (p j : Nat) : inc_index c (pos c p j) = pos c p (j + 1) := by
  unfold inc_index pos
  rw [Nat.mod_add_mod, Nat.add_assoc]

theorem dec_index_pos (c : Counter) (hL : 0 < c.length) (p j : Nat) :
    dec_index c (pos c p (j + 1)) = pos c p j := by
  unfold dec_index pos
  have h1 : (p + (j + 1)) % c.length + c.length - 1 = (p + (j + 1)) % c.length + (c.length - 1) := by
    omega
  rw [h1, Nat.mod_add_mod]
  have h2 : p + (j + 1) + (c.length - 1) = p + j + c.length := by omega
  rw [h2, Nat.add_mod_right]

theorem fci_pos (c : Counter) (hL : 4 ≤ c.length) (p j : Nat) :
    (pos c p (j + 4) + c.length - 4) % c.length = pos c p j := by
  unfold pos
  have h1 : (p + (j + 4)) % c.length + c.length - 4 = (p + (j + 4)) % c.length + (c.length - 4) := by
    omega
  rw [h1, Nat.mod_add_mod]
  have h2 : p + (j + 4) + (c.length - 4) = p + j + c.length := by omega
  rw [h2, Nat.add_mod_right]

theorem pos_inj (c : Counter) (p j1 j2 : Nat) (h1 : j1 < c.length) (h2 : j2 < c.length)
    (h : pos c p j1 = pos c p j2) : j1 = j2 := by
  unfold pos at h
  have h3 : j1 ≡ j2 [MOD c.length] := Nat.ModEq.add_left_cancel' p h
  unfold Nat.ModEq at h3
  rw [Nat.mod_eq_of_lt h1, Nat.mod_eq_of_lt h2] at h3
  exact h3

theorem pos_ne (c : Counter) (p j1 j2 : Nat) (h1 : j1 < c.length) (h2 : j2 < c.length)
    (h : j1 ≠ j2) : pos c p j1 ≠ pos c p j2 :=
  fun hh => h (pos_inj c p j1 j2 h1 h2 hh)

theorem pos_surj (c : Counter) (p a : Nat) (hp : p < c.length) (ha : a < c.length) :
    ∃ j, j < c.length ∧ pos c p j = a := by
  by_cases h : p ≤ a
  · refine ⟨a - p, by omega, ?_⟩
    unfold pos
    rw [show p + (a - p) = a by omega]
    exact Nat.mod_eq_of_lt ha
  · refine ⟨a + c.length - p, by omega, ?_⟩
    unfold pos
    rw [show p + (a + c.length - p) = a + c.length by omega, Nat.add_mod_right]
    exact Nat.mod_eq_of_lt ha

theorem scanLoop_add (c : Counter) (e : EEPROM) :
    ∀ (k1 k2 i : Nat) (s : ScanState),
      scanLoop c e (k1 + k2) i s = scanLoop c e k2 (i + k1) (scanLoop c e k1 i s) := by
  intro k1
  induction k1 with
  | zero => intro k2 i s; simp [scanLoop]
  | succ n ih =>
    intro k2 i s
    rw [show n + 1 + k2 = (n + k2) + 1 by omega]
    rw [scanLoop, scanLoop, ih]
    rw [show i + 1 + n = i + (n + 1) by omega]

theorem scanLoop_one (c : Counter) (e : EEPROM) (i : Nat) (s : ScanState) :
    scanLoop c e 1 i s = scanBody c e i s := by
  rw [scanLoop, scanLoop]

theorem isChk_exists (b : Nat) (h : isChk b) : ∃ z, b = checkpointByte z := by
  unfold isChk at h
  rcases h with h | h
  · exact ⟨127, by rw [h]; decide⟩
  · refine ⟨b - 128, ?_⟩
    rw [checkpointByte_eq, if_neg (by omega)]
    omega

/-- Facts about one scan step on a byte other than `0xFF`. -/
theorem scanBody_nonFF (c : Counter) (e : EEPROM) (i : Nat) (s : ScanState)
    (hb : readeeprom e (c.start_address + s.x) ≠ 0xFF)
    (hc : s.count < 2 ^ 32) (hcc : s.checkpoint_count ≤ 4) :
    (scanBody c e i s).x = inc_index c s.x ∧
    (scanBody c e i s).ff_plus_one_present = s.ff_plus_one_present ∧
    (scanBody c e i s).count < 2 ^ 32 ∧
    (scanBody c e i s).checkpoint_count ≤ 4 ∧
    (¬ isChk (readeeprom e (c.start_address + s.x)) → (scanBody c e i s).checkpoint_count = 0) := by
  by_cases hk : isChk (readeeprom e (c.start_address + s.x))
  · obtain ⟨z, hz⟩ := isChk_exists _ hk
    rw [scanBody_chk c e i s z hz hcc hc]
    by_cases h4 : s.checkpoint_count = 4
    · rw [if_pos h4]
      exact ⟨rfl, rfl, Nat.mod_lt _ (by norm_num), by simp, fun h => absurd hk h⟩
    · rw [if_neg h4]
      exact ⟨rfl, rfl, Nat.mod_lt _ (by norm_num), by simp; omega, fun h => absurd hk h⟩
  · rw [scanBody_other c e i s hb hk]
    exact ⟨rfl, rfl, Nat.mod_lt _ (by norm_num), by simp, fun _ => rfl⟩

theorem scan_junk (c : Counter) (e : EEPROM) (p : Nat) :
    ∀ (k i : Nat) (s : ScanState) (j : Nat), s.x = pos c p j →
      (∀ d, d < k → rd c e (pos c p (j + d)) ≠ 0xFF) →
      s.count < 2 ^ 32 → s.checkpoint_count ≤ 4 →
      (scanLoop c e k i s).x = pos c p (j + k) ∧
      (scanLoop c e k i s).ff_plus_one_present = s.ff_plus_one_present ∧
      (scanLoop c e k i s).count < 2 ^ 32 ∧
      (scanLoop c e k i s).checkpoint_count ≤ 4 := by
  intro k
  induction k with
  | zero => intro i s j hx _ hc hcc; exact ⟨hx, rfl, hc, hcc⟩
  | succ n ih =>
    intro i s j hx hb hc hcc
    rw [scanLoop]
    have hb0 : readeeprom e (c.start_address + s.x) ≠ 0xFF := by
      have := hb 0 (by omega)
      rw [Nat.add_zero, ← hx] at this
      exact this
    obtain ⟨b1, b2, b3, b4, _⟩ := scanBody_nonFF c e i s hb0 hc hcc
    have hx' : (scanBody c e i s).x = pos c p (j + 1) := by
      rw [b1, hx, inc_index_pos]
    obtain ⟨r1, r2, r3, r4⟩ := ih (i + 1) (scanBody c e i s) (j + 1) hx'
      (fun d hd => by
        have := hb (d + 1) (by omega)
        rw [show j + (d + 1) = j + 1 + d by omega] at this
        exact this) b3 b4
    exact ⟨by rw [r1]; congr 1; omega, by rw [r2, b2], r3, r4⟩

theorem scan_junk_last (c : Counter) (e : EEPROM) (p : Nat)
    (k i : Nat) (s : ScanState) (j : Nat) (hx : s.x = pos c p j)
    (hb : ∀ d, d < k + 1 → rd c e (pos c p (j + d)) ≠ 0xFF)
    (hlast : ¬ isChk (rd c e (pos c p (j + k))))
    (hc : s.count < 2 ^ 32) (hcc : s.checkpoint_count ≤ 4) :
    (scanLoop c e (k + 1) i s).checkpoint_count = 0 := by
  rw [scanLoop_add, scanLoop_one]
  obtain ⟨r1, _, r3, r4⟩ := scan_junk c e p k i s j hx (fun d hd => hb d (by omega)) hc hcc
  have hb0 : readeeprom e (c.start_address + (scanLoop c e k i s).x) ≠ 0xFF := by
    rw [r1]; exact hb k (by omega)
  have := (scanBody_nonFF c e (i + k) _ hb0 r3 r4).2.2.2.2
  apply this
  rw [r1]
  exact hlast

theorem scan_part (c : Counter) (e : EEPROM) (p : Nat) :
    ∀ (t i : Nat) (s : ScanState) (j : Nat), s.x = pos c p j →
      (∀ d, d < t → isChk (rd c e (pos c p (j + d)))) →
      s.checkpoint_count + t ≤ 4 → s.count < 2 ^ 32 →
      (scanLoop c e t i s).x = pos c p (j + t) ∧
      (scanLoop c e t i s).count = (s.count + 2 * t) % 2 ^ 32 ∧
      (scanLoop c e t i s).checkpoint_count = s.checkpoint_count + t ∧
      (scanLoop c e t i s).first_checkpoint_index = s.first_checkpoint_index ∧
      (scanLoop c e t i s).ff_plus_one_present = s.ff_plus_one_present := by
  intro t
  induction t with
  | zero =>
    intro i s j hx _ _ hc
    exact ⟨hx, by
      show s.count = (s.count + 2 * 0) % 2 ^ 32
      rw [Nat.mul_zero, Nat.add_zero, Nat.mod_eq_of_lt hc], rfl, rfl, rfl⟩
  | succ n ih =>
    intro i s j hx hb hcc hc
    rw [scanLoop]
    have hb0 : isChk (readeeprom e (c.start_address + s.x)) := by
      have := hb 0 (by omega)
      rw [Nat.add_zero, ← hx] at this
      exact this
    obtain ⟨z, hz⟩ := isChk_exists _ hb0
    have hstep := scanBody_chk c e i s z hz (by omega) hc
    rw [if_neg (by omega)] at hstep
    have hx' : (scanBody c e i s).x = pos c p (j + 1) := by
      rw [hstep]; dsimp only; rw [hx, inc_index_pos]
    have hcc' : (scanBody c e i s).checkpoint_count = s.checkpoint_count + 1 := by
      rw [hstep]
    have hcount' : (scanBody c e i s).count = (s.count + 2) % 2 ^ 32 := by rw [hstep]
    obtain ⟨r1, r2, r3, r4, r5⟩ := ih (i + 1) (scanBody c e i s) (j + 1) hx'
      (fun d hd => by
        have := hb (d + 1) (by omega)
        rw [show j + (d + 1) = j + 1 + d by omega] at this
        exact this) (by rw [hcc']; omega) (by rw [hcount']; exact Nat.mod_lt _ (by norm_num))
    refine ⟨by rw [r1]; congr 1; omega, ?_, by rw [r3, hcc']; omega, ?_, ?_⟩
    · rw [r2, hcount']; omega
    · rw [r4, hstep]
    · rw [r5, hstep]

theorem scan_zeros (c : Counter) (e : EEPROM) (p : Nat) :
    ∀ (k i : Nat) (s : ScanState) (j : Nat), s.x = pos c p j →
      (∀ d, d < k → rd c e (pos c p (j + d)) = 0) →
      s.count < 2 ^ 32 → s.checkpoint_count = 0 →
      (scanLoop c e k i s).x = pos c p (j + k) ∧
      (scanLoop c e k i s).count = (s.count + 9 * k) % 2 ^ 32 ∧
      (scanLoop c e k i s).checkpoint_count = 0 ∧
      (scanLoop c e k i s).first_checkpoint_index = s.first_checkpoint_index ∧
      (scanLoop c e k i s).ff_plus_one_present = s.ff_plus_one_present := by
  intro k
  induction k with
  | zero =>
    intro i s j hx _ hc hcc
    exact ⟨hx, by
      show s.count = (s.count + 9 * 0) % 2 ^ 32
      rw [Nat.mul_zero, Nat.add_zero, Nat.mod_eq_of_lt hc], hcc, rfl, rfl⟩
  | succ n ih =>
    intro i s j hx hb hc hcc
    rw [scanLoop]
    have hb0 : readeeprom e (c.start_address + s.x) = 0 := by
      have := hb 0 (by omega)
      rw [Nat.add_zero, ← hx] at this
      exact this
    have hstep := scanBody_other c e i s (by rw [hb0]; decide) (by rw [hb0]; decide)
    rw [hb0] at hstep
    have hsm : smallInc 0 8 2 0x7F = 9 := by decide
    rw [hsm] at hstep
    have hx' : (scanBody c e i s).x = pos c p (j + 1) := by
      rw [hstep]; dsimp only; rw [hx, inc_index_pos]
    have hcount' : (scanBody c e i s).count = (s.count + 9) % 2 ^ 32 := by rw [hstep]
    obtain ⟨r1, r2, r3, r4, r5⟩ := ih (i + 1) (scanBody c e i s) (j + 1) hx'
      (fun d hd => by
        have := hb (d + 1) (by omega)
        rw [show j + (d + 1) = j + 1 + d by omega] at this
        exact this) (by rw [hcount']; exact Nat.mod_lt _ (by norm_num)) (by rw [hstep])
    refine ⟨by rw [r1]; congr 1; omega, ?_, r3, ?_, ?_⟩
    · rw [r2, hcount']; omega
    · rw [r4, hstep]
    · rw [r5, hstep]

theorem smallByte_props (sv : Nat) (h2 : 2 ≤ sv) (h9 : sv ≤ 9) :
    smallInc (smallByte sv) 8 2 0x7F = sv ∧ smallByte sv ≠ 0xFF ∧ ¬ isChk (smallByte sv) ∧
    smallByte sv < 0x80 := by
  interval_cases sv <;> decide

theorem scan_small (c : Counter) (e : EEPROM) (i : Nat) (s : ScanState) (sv : Nat)
    (h2 : 2 ≤ sv) (h9 : sv ≤ 9)
    (hb : readeeprom e (c.start_address + s.x) = smallByte sv) :
    scanBody c e i s =
      { s with checkpoint_count := 0, count := (s.count + sv) % 2 ^ 32,
               x := inc_index c s.x } := by
  obtain ⟨p1, p2, p3, _⟩ := smallByte_props sv h2 h9
  have := scanBody_other c e i s (by rw [hb]; exact p2) (by rw [hb]; exact p3)
  rw [this, hb, p1]

theorem scanLoop_snoc (c : Counter) (e : EEPROM) (k i : Nat) (s : ScanState) :
    scanLoop c e (k + 1) i s = scanBody c e (i + k) (scanLoop c e k i s) := by
  rw [scanLoop_add, scanLoop_one]

theorem scan_chain_reg (c : Counter) (e : EEPROM) (p : Nat) (K : Nat) (hK : K < 2 ^ 32) :
    ∀ (t i : Nat) (s : ScanState) (j : Nat), s.x = pos c p j →
      (∀ d, d < t → rd c e (pos c p (j + d)) = checkpointByte (K >>> ((4 - d) * 7))) →
      s.checkpoint_count = 0 → t ≤ 4 → s.count < 2 ^ 32 → 0 < t →
      (scanLoop c e t i s).checkpoint_register = K / 128 ^ (5 - t) := by
  intro t
  induction t with
  | zero => intro i s j _ _ _ _ _ h0; omega
  | succ n ih =>
    intro i s j hx hb hcc ht hc _
    obtain ⟨r1, r2, r3, _, _⟩ := scan_part c e p n i s j hx
      (fun d hd => by rw [hb d (by omega)]; exact checkpointByte_isChk _) (by omega) hc
    rw [scanLoop_snoc]
    have hbn : readeeprom e (c.start_address + (scanLoop c e n i s).x) =
        checkpointByte (K >>> ((4 - n) * 7)) := by
      rw [r1]; exact hb n (by omega)
    rw [scanBody_chk c e (i + n) _ _ hbn (by omega) (by rw [r2]; exact Nat.mod_lt _ (by norm_num))]
    rw [if_neg (by omega)]
    dsimp only
    rw [r3, hcc]
    unfold regNext
    rcases Nat.eq_zero_or_pos n with h0 | hpos
    · subst h0
      simp only [Nat.shiftRight_eq_div_pow]
      norm_num at hK ⊢
      omega
    · have := ih i s j hx (fun d hd => hb d (by omega)) hcc (by omega) hc hpos
      rw [this]
      simp only [Nat.shiftRight_eq_div_pow]
      have hn : n = 1 ∨ n = 2 ∨ n = 3 := by omega
      rcases hn with rfl | rfl | rfl <;> norm_num at hK ⊢ <;> omega

theorem scan_chain (c : Counter) (e : EEPROM) (p : Nat) (hL : 4 ≤ c.length)
    (i : Nat) (s : ScanState) (j K : Nat) (hx : s.x = pos c p j)
    (hK : K < 2 ^ 32)
    (hb : ∀ d, d < 5 → rd c e (pos c p (j + d)) = checkpointByte (K >>> ((4 - d) * 7)))
    (hcc : s.checkpoint_count = 0) (hc : s.count < 2 ^ 32) :
    scanLoop c e 5 i s =
      { count := (K + s.ff_plus_one_present) % 2 ^ 32,
        checkpoint_register := K,
        checkpoint_count := 0,
        first_checkpoint_index := pos c p j,
        x := pos c p (j + 5),
        ff_plus_one_present := s.ff_plus_one_present } := by
  obtain ⟨r1, r2, r3, _, r5⟩ := scan_part c e p 4 i s j hx
    (fun d hd => by rw [hb d (by omega)]; exact checkpointByte_isChk _) (by omega) hc
  have r6 := scan_chain_reg c e p K hK 4 i s j hx (fun d hd => hb d (by omega)) hcc
    (by omega) hc (by omega)
  rw [scanLoop_snoc]
  have hbn : readeeprom e (c.start_address + (scanLoop c e 4 i s).x) =
      checkpointByte (K >>> ((4 - 4) * 7)) := by
    rw [r1]; exact hb 4 (by omega)
  rw [scanBody_chk c e (i + 4) _ _ hbn (by omega) (by rw [r2]; exact Nat.mod_lt _ (by norm_num))]
  rw [if_pos (by omega)]
  have hreg : regNext (scanLoop c e 4 i s).checkpoint_count
      (scanLoop c e 4 i s).checkpoint_register (K >>> ((4 - 4) * 7)) = K := by
    rw [r3, r6, hcc]
    unfold regNext
    simp only [Nat.shiftRight_eq_div_pow]
    norm_num at hK ⊢
    omega
  rw [hreg, r1, r5, inc_index_pos, fci_pos c hL]

theorem findFF_skip (c : Counter) (op_id : Nat) :
    ∀ (k fuel i : Nat) (s : FFState),
      (∀ d, d < k → rd c s.e (i + d) ≠ 0xFF) →
      findFF c op_id (k + fuel) i s = findFF c op_id fuel (i + k) s := by
  intro k
  induction k with
  | zero => intro fuel i s _; simp
  | succ n ih =>
    intro fuel i s h
    rw [show n + 1 + fuel = (n + fuel) + 1 by omega, findFF]
    have h0 := h 0 (by omega)
    unfold rd at h0
    rw [Nat.add_zero] at h0
    rw [if_neg h0, ih fuel (i + 1) s (fun d hd => by
      have := h (d + 1) (by omega)
      rw [show i + (d + 1) = i + 1 + d by omega] at this
      exact this)]
    rw [show i + 1 + n = i + (n + 1) by omega]

theorem findFF_first (c : Counter) (op_id fuel i : Nat) (e : EEPROM) (sec : Option Nat)
    (h : rd c e i = 0xFF) :
    findFF c op_id (fuel + 1) i { e := e, first_FF_index := none, second_FF_index := sec } =
      findFF c op_id fuel (i + 1) { e := e, first_FF_index := some i, second_FF_index := sec } := by
  rw [findFF]
  unfold rd at h
  rw [if_pos h]

theorem findFF_second (c : Counter) (op_id fuel i f0 : Nat) (e : EEPROM) (sec : Option Nat)
    (hop : op_id ≠ 2) (h : rd c e i = 0xFF) :
    findFF c op_id (fuel + 1) i { e := e, first_FF_index := some f0, second_FF_index := sec } =
      { e := e, first_FF_index := some f0, second_FF_index := some i } := by
  rw [findFF]
  unfold rd at h
  rw [if_pos h]
  simp [hop]

theorem findFF_zero (c : Counter) (op_id i : Nat) (s : FFState) :
    findFF c op_id 0 i s = s := by
  rw [findFF]

theorem findFF_result (c : Counter) (e : EEPROM) (op_id : Nat) (hop : op_id ≠ 2)
    (f ec : Nat) (hL : 2 < c.length) (hf : f < c.length)
    (hFF : rd c e f = 0xFF) (hFF2 : ec = 1 → rd c e (inc_index c f) = 0xFF)
    (hnon : ∀ a, a < c.length → a ≠ f → ¬ (ec = 1 ∧ a = inc_index c f) → rd c e a ≠ 0xFF) :
    ∃ first0 second,
      findFF c op_id c.length 0 { e := e, first_FF_index := none, second_FF_index := none } =
        { e := e, first_FF_index := some first0, second_FF_index := second } ∧
      effectiveFirst c first0 second = f := by
  by_cases hec : ec = 1
  · by_cases hlast : f + 1 < c.length
    · have hinc : inc_index c f = f + 1 := by
        unfold inc_index; exact Nat.mod_eq_of_lt hlast
      refine ⟨f, some (f + 1), ?_, ?_⟩
      · have hlen : c.length = f + (1 + (1 + (c.length - f - 2))) := by omega
        conv_lhs => rw [hlen]
        rw [findFF_skip c op_id f _ 0 _ (fun d hd => by
          rw [Nat.zero_add]
          exact hnon d (by omega) (by omega) (by rw [hinc]; omega))]
        rw [Nat.zero_add, Nat.add_comm 1 (1 + (c.length - f - 2)), findFF_first c op_id _ f e none hFF]
        rw [Nat.add_comm 1 (c.length - f - 2), findFF_second c op_id _ (f + 1) f e none hop
          (by rw [← hinc]; exact hFF2 hec)]
      · unfold effectiveFirst
        rw [if_neg]
        rintro ⟨h1, h2⟩
        have := Option.some.inj h2
        omega
    · have hfl : f = c.length - 1 := by omega
      have hinc : inc_index c f = 0 := by
        unfold inc_index
        rw [hfl, show c.length - 1 + 1 = c.length by omega, Nat.mod_self]
      refine ⟨0, some f, ?_, ?_⟩
      · have hlen : c.length = ((c.length - 2) + 1) + 1 := by omega
        have h0 : rd c e 0 = 0xFF := by rw [← hinc]; exact hFF2 hec
        conv_lhs => rw [hlen]
        rw [findFF_first c op_id _ 0 e none h0]
        rw [findFF_skip c op_id (c.length - 2) 1 (0 + 1) _ (fun d hd => by
          dsimp only
          exact hnon (0 + 1 + d) (by omega) (by omega) (by rw [hinc]; omega))]
        rw [findFF_second c op_id 0 _ 0 e none hop (by
          rw [show 0 + 1 + (c.length - 2) = f by omega]; exact hFF)]
        rw [show 0 + 1 + (c.length - 2) = f by omega]
      · unfold effectiveFirst
        rw [if_pos ⟨rfl, by rw [hfl]⟩]
        omega
  · refine ⟨f, none, ?_, ?_⟩
    · have hlen : c.length = f + (1 + (c.length - f - 1)) := by omega
      conv_lhs => rw [hlen]
      rw [findFF_skip c op_id f _ 0 _ (fun d hd => by
        rw [Nat.zero_add]
        exact hnon d (by omega) (by omega) (fun h => hec h.1))]
      rw [Nat.zero_add, Nat.add_comm 1 (c.length - f - 1), findFF_first c op_id _ f e none hFF]
      have := findFF_skip c op_id (c.length - f - 1) 0 (f + 1)
        { e := e, first_FF_index := some f, second_FF_index := none } (fun d hd => by
          dsimp only
          exact hnon (f + 1 + d) (by omega) (by omega) (fun h => hec h.1))
      rw [Nat.add_zero] at this
      rw [this, findFF_zero]
    · unfold effectiveFirst
      rw [if_neg]
      rintro ⟨_, h2⟩
      exact Option.noConfusion h2

theorem inv_scan_FFs {c : Counter} {e : EEPROM} {p K m sv t ec : Nat}
    (h : Inv c e p K m sv t ec) :
    (scanLoop c e (1 + ec) 0 (scanInit (pos c p (5 + m + t)))).x = pos c p (6 + m + t + ec) ∧
    (scanLoop c e (1 + ec) 0 (scanInit (pos c p (5 + m + t)))).checkpoint_count = 0 ∧
    (scanLoop c e (1 + ec) 0 (scanInit (pos c p (5 + m + t)))).ff_plus_one_present = ec ∧
    (scanLoop c e (1 + ec) 0 (scanInit (pos c p (5 + m + t)))).count < 2 ^ 32 := by
  have h0 := scanBody_FF c e 0 (scanInit (pos c p (5 + m + t))) h.ff (by unfold scanInit; norm_num)
  rw [if_neg (by decide)] at h0
  rcases Nat.eq_zero_or_pos ec with hec | hec
  · subst hec
    rw [Nat.add_zero, scanLoop_one, h0]
    dsimp only [scanInit]
    rw [inc_index_pos]
    exact ⟨by congr 1; omega, rfl, rfl, by norm_num⟩
  · have hec1 : ec = 1 := by have := h.hec; omega
    subst hec1
    rw [scanLoop_snoc, scanLoop_one, h0]
    dsimp only [scanInit]
    rw [inc_index_pos]
    have hb : readeeprom e (c.start_address + pos c p (5 + m + t + 1)) = 0xFF := by
      have := h.ff2 rfl
      unfold rd at this
      rw [show 5 + m + t + 1 = 6 + m + t by omega]
      exact this
    rw [scanBody_FF c e (0 + 1) _ hb (by norm_num)]
    rw [if_pos (by norm_num)]
    dsimp only
    rw [inc_index_pos]
    exact ⟨by congr 1; omega, rfl, rfl, by norm_num⟩

theorem inv_scan_junk {c : Counter} {e : EEPROM} {p K m sv t ec : Nat}
    (h : Inv c e p K m sv t ec) :
    (scanLoop c e (c.length - 5 - m - t) 0 (scanInit (pos c p (5 + m + t)))).x = pos c p c.length ∧
    (scanLoop c e (c.length - 5 - m - t) 0
      (scanInit (pos c p (5 + m + t)))).checkpoint_count = 0 ∧
    (scanLoop c e (c.length - 5 - m - t) 0
      (scanInit (pos c p (5 + m + t)))).ff_plus_one_present = ec ∧
    (scanLoop c e (c.length - 5 - m - t) 0 (scanInit (pos c p (5 + m + t)))).count < 2 ^ 32 := by
  obtain ⟨a1, a2, a3, a4⟩ := inv_scan_FFs h
  have hm := h.hm
  have ht := h.ht
  have hec := h.hec
  have htm := h.htm
  rcases Nat.eq_zero_or_pos (c.length - 6 - m - t - ec) with hk | hk
  · have hlen : c.length - 5 - m - t = 1 + ec := by omega
    rw [hlen]
    refine ⟨?_, a2, a3, a4⟩
    rw [a1]; congr 1; omega
  · have hlen : c.length - 5 - m - t = (1 + ec) + ((c.length - 7 - m - t - ec) + 1) := by omega
    rw [hlen, scanLoop_add]
    have hj : ∀ d, d < (c.length - 7 - m - t - ec) + 1 →
        rd c e (pos c p (6 + m + t + ec + d)) ≠ 0xFF := fun d hd =>
      h.junk _ (by omega) (by omega)
    obtain ⟨r1, r2, r3, _⟩ := scan_junk c e p _ (0 + (1 + ec)) _ _ a1 hj a4 (by omega)
    have r5 := scan_junk_last c e p (c.length - 7 - m - t - ec) (0 + (1 + ec)) _ _ a1 hj
      (by
        rw [show 6 + m + t + ec + (c.length - 7 - m - t - ec) = c.length - 1 by omega]
        exact h.junkLast (by omega)) a4 (by omega)
    refine ⟨?_, r5, by rw [r2, a3], r3⟩
    rw [r1]; congr 1; omega

theorem inv_scan {c : Counter} {e : EEPROM} {p K m sv t ec : Nat}
    (h : Inv c e p K m sv t ec) :
    (scanLoop c e c.length 0 (scanInit (pos c p (5 + m + t)))).count = cntOf K m sv t ec ∧
    (scanLoop c e c.length 0 (scanInit (pos c p (5 + m + t)))).first_checkpoint_index = p := by
  obtain ⟨a1, a2, a3, a4⟩ := inv_scan_junk h
  have hm := h.hm
  have ht := h.ht
  have hec := h.hec
  have hlen : c.length = (c.length - 5 - m - t) + (5 + (m + t)) := by omega
  suffices key : ∀ n, n = (c.length - 5 - m - t) + (5 + (m + t)) →
      (scanLoop c e n 0 (scanInit (pos c p (5 + m + t)))).count = cntOf K m sv t ec ∧
      (scanLoop c e n 0 (scanInit (pos c p (5 + m + t)))).first_checkpoint_index = p from
    key c.length hlen
  intro n hn
  subst hn
  rw [scanLoop_add, scanLoop_add]
  generalize scanLoop c e (c.length - 5 - m - t) 0 (scanInit (pos c p (5 + m + t))) = sB
    at a1 a2 a3 a4 ⊢
  have hchain := scan_chain c e p (by have := h.hL; omega) (0 + (c.length - 5 - m - t)) sB
    c.length K a1 h.hK
    (fun d hd => by
      rw [Nat.add_comm c.length d, pos_add_length]; exact h.chain d hd) a2 a4
  rw [hchain, a3]
  generalize hsC : ({ count := (K + ec) % 2 ^ 32, checkpoint_register := K,
                      checkpoint_count := 0, first_checkpoint_index := pos c p c.length,
                      x := pos c p (c.length + 5), ff_plus_one_present := ec } : ScanState) = sC
  have c1 : sC.x = pos c p (c.length + 5) := by rw [← hsC]
  have c2 : sC.count = (K + ec) % 2 ^ 32 := by rw [← hsC]
  have c3 : sC.checkpoint_count = 0 := by rw [← hsC]
  have c4 : sC.first_checkpoint_index = p := by
    rw [← hsC]; dsimp only
    rw [show c.length = 0 + c.length by omega, pos_add_length, pos_zero c p h.hp]
  have c5 : sC.count < 2 ^ 32 := by rw [c2]; exact Nat.mod_lt _ (by norm_num)
  rw [scanLoop_add]
  -- the small-increment bytes
  have hD : (scanLoop c e m (0 + (c.length - 5 - m - t) + 5) sC).x = pos c p (c.length + 5 + m) ∧
      (scanLoop c e m (0 + (c.length - 5 - m - t) + 5) sC).count =
        (K + ec + (9 * m + sv - 9)) % 2 ^ 32 ∧
      (scanLoop c e m (0 + (c.length - 5 - m - t) + 5) sC).checkpoint_count = 0 ∧
      (scanLoop c e m (0 + (c.length - 5 - m - t) + 5) sC).first_checkpoint_index = p := by
    rcases Nat.eq_zero_or_pos m with hm0 | hmpos
    · subst hm0
      have := h.hm0 rfl
      subst this
      exact ⟨c1, by rw [scanLoop, c2]; norm_num, c3, c4⟩
    · obtain ⟨k, hk⟩ : ∃ k, m = k + 1 := ⟨m - 1, by omega⟩
      subst hk
      rw [scanLoop_snoc]
      obtain ⟨z1, z2, z3, z4, _⟩ := scan_zeros c e p k (0 + (c.length - 5 - (k + 1) - t) + 5) sC
        (c.length + 5) c1
        (fun d hd => by
          rw [show c.length + 5 + d = (5 + d) + c.length by omega, pos_add_length]
          exact h.zeros d (by omega)) c5 c3
      have hb : readeeprom e (c.start_address +
          (scanLoop c e k (0 + (c.length - 5 - (k + 1) - t) + 5) sC).x) = smallByte sv := by
        rw [z1, show c.length + 5 + k = (4 + (k + 1)) + c.length by omega, pos_add_length]
        exact h.last (by omega)
      rw [scan_small c e _ _ sv h.hsv.1 h.hsv.2 hb]
      dsimp only
      rw [z1, z2, z4, c2, c4, inc_index_pos]
      refine ⟨by congr 1, ?_, rfl, rfl⟩
      have := h.hsv
      omega
  obtain ⟨d1, d2, d3, d4⟩ := hD
  generalize scanLoop c e m (0 + (c.length - 5 - m - t) + 5) sC = sD at d1 d2 d3 d4 ⊢
  obtain ⟨p1, p2, p3, p4, p5⟩ := scan_part c e p t (0 + (c.length - 5 - m - t) + 5 + m) sD
    (c.length + 5 + m) d1
    (fun d hd => by
      rw [show c.length + 5 + m + d = (5 + m + d) + c.length by omega, pos_add_length,
        h.part d hd]
      exact checkpointByte_isChk _) (by omega) (by rw [d2]; exact Nat.mod_lt _ (by norm_num))
  refine ⟨?_, by rw [p4, d4]⟩
  rw [p2, d2]
  unfold cntOf
  omega

theorem inv_nonFF {c : Counter} {e : EEPROM} {p K m sv t ec : Nat}
    (h : Inv c e p K m sv t ec) (j : Nat) (hj : j < c.length) (h1 : j ≠ 5 + m + t)
    (h2 : ¬ (ec = 1 ∧ j = 6 + m + t)) : rd c e (pos c p j) ≠ 0xFF := by
  have hec := h.hec
  by_cases c1 : j < 5
  · rw [h.chain j c1]
    have := checkpointByte_lt (K >>> ((4 - j) * 7))
    omega
  · by_cases c2 : j < 5 + m
    · by_cases c3 : j + 1 < 5 + m
      · have := h.zeros (j - 5) (by omega)
        rw [show 5 + (j - 5) = j by omega] at this
        rw [this]; decide
      · have := h.last (by omega)
        rw [show 4 + m = j by omega] at this
        rw [this]
        exact (smallByte_props sv h.hsv.1 h.hsv.2).2.1
    · by_cases c4 : j < 5 + m + t
      · have := h.part (j - 5 - m) (by omega)
        rw [show 5 + m + (j - 5 - m) = j by omega] at this
        rw [this]
        have := checkpointByte_lt (((K + 9 * m + 10) % 2 ^ 32) >>> ((4 - (j - 5 - m)) * 7))
        omega
      · apply h.junk j _ hj
        by_cases c5 : ec = 1
        · have : j ≠ 6 + m + t := fun hh => h2 ⟨c5, hh⟩
          omega
        · omega

theorem inv_findFF {c : Counter} {e : EEPROM} {p K m sv t ec : Nat}
    (h : Inv c e p K m sv t ec) (op_id : Nat) (hop : op_id ≠ 2) :
    ∃ first0 second,
      findFF c op_id c.length 0 { e := e, first_FF_index := none, second_FF_index := none } =
        { e := e, first_FF_index := some first0, second_FF_index := second } ∧
      effectiveFirst c first0 second = pos c p (5 + m + t) := by
  have hL := h.hL
  have hm := h.hm
  have ht := h.ht
  have htm := h.htm
  apply findFF_result c e op_id hop (pos c p (5 + m + t)) ec (by omega)
    (pos_lt c (by omega) _ _) h.ff
  · intro hec
    rw [inc_index_pos, show 5 + m + t + 1 = 6 + m + t by omega]
    exact h.ff2 hec
  · intro a ha hne hne2
    obtain ⟨j, hj, hja⟩ := pos_surj c p a h.hp ha
    rw [← hja]
    apply inv_nonFF h j hj
    · intro hh; apply hne; rw [← hja, hh]
    · rintro ⟨hec, hh⟩
      apply hne2
      refine ⟨hec, ?_⟩
      rw [inc_index_pos, ← hja, hh, show 5 + m + t + 1 = 6 + m + t by omega]

theorem op_eq_of_findFF (c : Counter) (op_id : Nat) (e : EEPROM) (hop : op_id ≠ 2)
    (first0 : Nat) (second : Option Nat)
    (hf : findFF c op_id c.length 0 { e := e, first_FF_index := none, second_FF_index := none } =
        { e := e, first_FF_index := some first0, second_FF_index := second }) :
    op c op_id e =
      if op_id = 1 then
        (((scanLoop c e c.length 0 (scanInit (effectiveFirst c first0 second))).count + 1) % 2 ^ 32,
          incMutation c (effectiveFirst c first0 second)
            (scanLoop c e c.length 0
              (scanInit (effectiveFirst c first0 second))).first_checkpoint_index
            (((scanLoop c e c.length 0
              (scanInit (effectiveFirst c first0 second))).count + 1) % 2 ^ 32) e)
      else
        ((scanLoop c e c.length 0 (scanInit (effectiveFirst c first0 second))).count, e) := by
  unfold op
  rw [hf]
  dsimp only
  rw [if_neg hop]
  rfl

theorem inv_read {c : Counter} {e : EEPROM} {p K m sv t ec : Nat}
    (h : Inv c e p K m sv t ec) : op c 0 e = (cntOf K m sv t ec, e) := by
  obtain ⟨first0, second, hf, hef⟩ := inv_findFF h 0 (by decide)
  rw [op_eq_of_findFF c 0 e (by decide) first0 second hf, hef, if_neg (by decide),
    (inv_scan h).1]

theorem inv_increment {c : Counter} {e : EEPROM} {p K m sv t ec : Nat}
    (h : Inv c e p K m sv t ec) :
    op c 1 e = ((cntOf K m sv t ec + 1) % 2 ^ 32,
      incMutation c (pos c p (5 + m + t)) p ((cntOf K m sv t ec + 1) % 2 ^ 32) e) := by
  obtain ⟨first0, second, hf, hef⟩ := inv_findFF h 1 (by decide)
  rw [op_eq_of_findFF c 1 e (by decide) first0 second hf, hef, if_pos rfl,
    (inv_scan h).1, (inv_scan h).2]

theorem rd_updateeeprom (c : Counter) (e : EEPROM) (a v b : Nat) :
    rd c (updateeeprom e (c.start_address + a) v) b = if b = a then v % 256 else rd c e b := by
  unfold rd
  rw [readeeprom_updateeeprom]
  by_cases h : b = a
  · rw [if_pos h, if_pos (by rw [h])]
  · rw [if_neg h, if_neg (by omega)]

theorem lupLoop_eq (lup : Nat) :
    lupLoop lup 8 0x7F =
      if 0x7F = lup then some 0x7F else if 0x3F = lup then some 0x3F
      else if 0x1F = lup then some 0x1F else if 0x0F = lup then some 0x0F
      else if 7 = lup then some 7 else if 3 = lup then some 3
      else if 1 = lup then some 1 else none := by
  simp [lupLoop]

theorem lupLoop_small (sv : Nat) (h2 : 2 ≤ sv) (h8 : sv ≤ 8) :
    ∃ q, lupLoop (smallByte sv) 8 0x7F = some q := by
  have h : (lupLoop (smallByte sv) 8 0x7F).isSome = true := by
    interval_cases sv <;> decide
  exact Option.isSome_iff_exists.1 h

theorem lupLoop_zero : lupLoop 0 8 0x7F = none := by decide

theorem lupLoop_chk (b : Nat) (h : isChk b) : lupLoop b 8 0x7F = none := by
  rw [lupLoop_eq]
  unfold isChk at h
  split_ifs <;> first | rfl | omega

theorem smallByte_shift (sv : Nat) (h2 : 2 ≤ sv) (h8 : sv ≤ 8) :
    smallByte sv >>> 1 = smallByte (sv + 1) := by
  interval_cases sv <;> decide

theorem incMutation_erase (c : Counter) (first fci count : Nat) (e : EEPROM)
    (h2 : rd c e (inc_index c first) ≠ 0xFF)
    (h3 : rd c e (inc_index c (inc_index c first)) ≠ 0xFF) :
    incMutation c first fci count e =
      updateeeprom e (c.start_address + inc_index c first) 0xFF := by
  unfold incMutation
  unfold rd at h2 h3
  dsimp only
  rw [Nat.add_comm (inc_index c first) c.start_address, if_pos h2, if_neg h3]

theorem incMutation_lup (c : Counter) (first fci count : Nat) (e : EEPROM) (q : Nat)
    (h2 : rd c e (inc_index c first) = 0xFF)
    (h3 : rd c e (inc_index c (inc_index c first)) ≠ 0xFF)
    (hl : lupLoop (rd c e (dec_index c first)) 8 0x7F = some q) :
    incMutation c first fci count e =
      updateeeprom e (c.start_address + dec_index c first) (rd c e (dec_index c first) >>> 1) := by
  unfold incMutation
  unfold rd at h2 h3 hl
  dsimp only
  rw [Nat.add_comm (inc_index c first) c.start_address, if_neg (by rw [h2]; simp), if_neg h3, hl]
  rfl

theorem incMutation_new (c : Counter) (first fci count : Nat) (e : EEPROM)
    (h2 : rd c e (inc_index c first) = 0xFF)
    (h3 : rd c e (inc_index c (inc_index c first)) ≠ 0xFF)
    (hl : lupLoop (rd c e (dec_index c first)) 8 0x7F = none) :
    incMutation c first fci count e =
      if (futureLoop c first fci count 5 2 e).2 = 7 then
        updateeeprom (futureLoop c first fci count 5 2 e).1 (first + c.start_address) 0x7F
      else (futureLoop c first fci count 5 2 e).1 := by
  unfold incMutation
  unfold rd at h2 h3 hl
  dsimp only
  rw [Nat.add_comm (inc_index c first) c.start_address, if_neg (by rw [h2]; simp), if_neg h3, hl]

theorem futureLoop_none (c : Counter) (first fci count : Nat) (e : EEPROM)
    (h : ∀ i, 2 ≤ i → i ≤ 6 → (first + i) % c.length ≠ fci) :
    futureLoop c first fci count 5 2 e = (e, 7) := by
  simp only [futureLoop]
  rw [if_pos (by omega), if_neg (h 2 (by omega) (by omega)),
    if_pos (by omega), if_neg (h 3 (by omega) (by omega)),
    if_pos (by omega), if_neg (h 4 (by omega) (by omega)),
    if_pos (by omega), if_neg (h 5 (by omega) (by omega)),
    if_pos (by omega), if_neg (h 6 (by omega) (by omega))]

theorem futureLoop_found (c : Counter) (first fci count : Nat) (e : EEPROM) :
    ∀ (k fuel i : Nat), i + k ≤ 6 → k < fuel →
      (∀ d, d < k → (first + (i + d)) % c.length ≠ fci) →
      (first + (i + k)) % c.length = fci →
      futureLoop c first fci count fuel i e =
        (updateeeprom e (first + c.start_address)
          (checkpointByte (((count + ((i + k) * 2 - 4) % 256) % 2 ^ 32) >>> ((i + k - 2) * 7))),
         i + k) := by
  intro k
  induction k with
  | zero =>
    intro fuel i h1 h2 _ hc
    obtain ⟨f', hf'⟩ : ∃ f', fuel = f' + 1 := ⟨fuel - 1, by omega⟩
    subst hf'
    rw [Nat.add_zero] at hc
    rw [futureLoop, if_pos (by omega), if_pos hc]
    rfl
  | succ n ih =>
    intro fuel i h1 h2 hn hc
    obtain ⟨f', hf'⟩ : ∃ f', fuel = f' + 1 := ⟨fuel - 1, by omega⟩
    subst hf'
    have hn0 := hn 0 (by omega)
    rw [Nat.add_zero] at hn0
    rw [futureLoop, if_pos (by omega), if_neg hn0]
    have := ih f' (i + 1) (by omega) (by omega)
      (fun d hd => by
        have := hn (d + 1) (by omega)
        rw [show i + (d + 1) = i + 1 + d by omega] at this
        exact this)
      (by rw [show i + 1 + n = i + (n + 1) by omega]; exact hc)
    rw [this, show i + 1 + n = i + (n + 1) by omega]

theorem rd_update_pos (c : Counter) (e : EEPROM) (p j0 v j : Nat)
    (hj0 : j0 < c.length) (hj : j < c.length) :
    rd c (updateeeprom e (c.start_address + pos c p j0) v) (pos c p j) =
      if j = j0 then v % 256 else rd c e (pos c p j) := by
  rw [rd_updateeeprom]
  by_cases h : j = j0
  · rw [if_pos h, if_pos (by rw [h])]
  · rw [if_neg h, if_neg (pos_ne c p j j0 hj hj0 h)]

theorem inv_bounds {c : Counter} {e : EEPROM} {p K m sv t ec : Nat}
    (h : Inv c e p K m sv t ec) : 7 + m + t ≤ c.length ∧ 16 ≤ c.length := by
  have hm := h.hm
  have ht := h.ht
  have htm := h.htm
  have hL := h.hL
  omega

theorem inv_third {c : Counter} {e : EEPROM} {p K m sv t ec : Nat}
    (h : Inv c e p K m sv t ec) : rd c e (pos c p (7 + m + t)) ≠ 0xFF := by
  have hb := inv_bounds h
  by_cases h7 : 7 + m + t < c.length
  · exact inv_nonFF h _ h7 (by omega) (by omega)
  · have : 7 + m + t = 0 + c.length := by omega
    rw [this, pos_add_length]
    exact inv_nonFF h 0 (by omega) (by omega) (by omega)

/-- First case of the increment: the byte after the first `0xFF` is erased. -/
theorem inv_step_erase {c : Counter} {e : EEPROM} {p K m sv t : Nat}
    (h : Inv c e p K m sv t 0) (count : Nat) :
    incMutation c (pos c p (5 + m + t)) p count e =
      updateeeprom e (c.start_address + pos c p (6 + m + t)) 0xFF ∧
    Inv c (updateeeprom e (c.start_address + pos c p (6 + m + t)) 0xFF) p K m sv t 1 := by
  have hb := inv_bounds h
  have hm := h.hm
  have ht := h.ht
  have htm := h.htm
  have i1 : inc_index c (pos c p (5 + m + t)) = pos c p (6 + m + t) := by
    rw [inc_index_pos]; congr 1; omega
  have i2 : inc_index c (pos c p (6 + m + t)) = pos c p (7 + m + t) := by
    rw [inc_index_pos]; congr 1; omega
  constructor
  · rw [incMutation_erase c _ p count e
      (by rw [i1]; exact h.junk _ (by omega) (by omega))
      (by rw [i1, i2]; exact inv_third h), i1]
  · have hr : ∀ j, j < c.length →
        rd c (updateeeprom e (c.start_address + pos c p (6 + m + t)) 0xFF) (pos c p j) =
          if j = 6 + m + t then 0xFF else rd c e (pos c p j) := fun j hj => by
      rw [rd_update_pos c e p _ _ j (by omega) hj]
    exact
      { hL := h.hL, hp := h.hp, hK := h.hK, hm := h.hm, hsv := h.hsv, hm0 := h.hm0, ht := h.ht,
        htm := h.htm, hec := by omega,
        chain := fun j hj => by rw [hr j (by omega), if_neg (by omega)]; exact h.chain j hj,
        zeros := fun j hj => by rw [hr _ (by omega), if_neg (by omega)]; exact h.zeros j hj,
        last := fun hj => by rw [hr _ (by omega), if_neg (by omega)]; exact h.last hj,
        part := fun j hj => by rw [hr _ (by omega), if_neg (by omega)]; exact h.part j hj,
        ff := by rw [hr _ (by omega), if_neg (by omega)]; exact h.ff,
        ff2 := fun _ => by rw [hr _ (by omega), if_pos rfl],
        junk := fun j hj1 hj2 => by
          rw [hr _ hj2, if_neg (by omega)]; exact h.junk j (by omega) hj2,
        junkLast := fun hj => by
          rw [hr _ (by omega), if_neg (by omega)]; exact h.junkLast (by omega) }

theorem inv_lup_index {c : Counter} {e : EEPROM} {p K m sv t ec : Nat}
    (h : Inv c e p K m sv t ec) :
    dec_index c (pos c p (5 + m + t)) = pos c p (4 + m + t) := by
  have := dec_index_pos c (by have := h.hL; omega) p (4 + m + t)
  rw [show 4 + m + t + 1 = 5 + m + t by omega] at this
  exact this

/-- Second case of the increment: one more bit of the latest small-increment
byte is cleared. -/
theorem inv_step_shift {c : Counter} {e : EEPROM} {p K m sv : Nat}
    (h : Inv c e p K m sv 0 1) (hm1 : 0 < m) (h8 : sv ≤ 8) (count : Nat) :
    incMutation c (pos c p (5 + m + 0)) p count e =
      updateeeprom e (c.start_address + pos c p (4 + m)) (smallByte (sv + 1)) ∧
    Inv c (updateeeprom e (c.start_address + pos c p (4 + m)) (smallByte (sv + 1)))
      p K m (sv + 1) 0 1 := by
  have hb := inv_bounds h
  have hm := h.hm
  have hsv := h.hsv
  have i1 : inc_index c (pos c p (5 + m + 0)) = pos c p (6 + m + 0) := by
    rw [inc_index_pos]; congr 1; omega
  have i2 : inc_index c (pos c p (6 + m + 0)) = pos c p (7 + m + 0) := by
    rw [inc_index_pos]; congr 1; omega
  have i3 := inv_lup_index h
  have hlast : rd c e (pos c p (4 + m + 0)) = smallByte sv := h.last hm1
  obtain ⟨q, hq⟩ := lupLoop_small sv hsv.1 h8
  constructor
  · rw [incMutation_lup c _ p count e q
      (by rw [i1]; exact h.ff2 rfl)
      (by rw [i1, i2]; exact inv_third h)
      (by rw [i3, hlast]; exact hq), i3, hlast, smallByte_shift sv hsv.1 h8]
    rfl
  · have hv : smallByte (sv + 1) % 256 = smallByte (sv + 1) := by
      have := (smallByte_props (sv + 1) (by omega) (by omega)).2.2.2
      omega
    have hr : ∀ j, j < c.length →
        rd c (updateeeprom e (c.start_address + pos c p (4 + m)) (smallByte (sv + 1)))
            (pos c p j) =
          if j = 4 + m then smallByte (sv + 1) else rd c e (pos c p j) := fun j hj => by
      rw [rd_update_pos c e p _ _ j (by omega) hj, hv]
    exact
      { hL := h.hL, hp := h.hp, hK := h.hK, hm := h.hm, hsv := by omega,
        hm0 := fun h0 => by omega, ht := h.ht,
        htm := fun h0 => by omega, hec := h.hec,
        chain := fun j hj => by rw [hr j (by omega), if_neg (by omega)]; exact h.chain j hj,
        zeros := fun j hj => by rw [hr _ (by omega), if_neg (by omega)]; exact h.zeros j hj,
        last := fun _ => by rw [hr _ (by omega), if_pos rfl],
        part := fun j hj => by omega,
        ff := by rw [hr _ (by omega), if_neg (by omega)]; exact h.ff,
        ff2 := fun h1 => by rw [hr _ (by omega), if_neg (by omega)]; exact h.ff2 h1,
        junk := fun j hj1 hj2 => by
          rw [hr _ hj2, if_neg (by omega)]; exact h.junk j hj1 hj2,
        junkLast := fun hj => by
          rw [hr _ (by omega), if_neg (by omega)]; exact h.junkLast hj }

theorem inv_lup_none {c : Counter} {e : EEPROM} {p K m t : Nat}
    (h : Inv c e p K m 9 t 1) :
    lupLoop (rd c e (dec_index c (pos c p (5 + m + t)))) 8 0x7F = none := by
  have hm := h.hm
  have ht := h.ht
  rw [inv_lup_index h]
  rcases Nat.eq_zero_or_pos t with ht0 | htpos
  · subst ht0
    rcases Nat.eq_zero_or_pos m with hm0 | hmpos
    · subst hm0
      rw [h.chain 4 (by omega)]
      exact lupLoop_chk _ (checkpointByte_isChk _)
    · rw [Nat.add_zero, h.last hmpos]
      decide
  · have := h.part (t - 1) (by omega)
    rw [show 5 + m + (t - 1) = 4 + m + t by omega] at this
    rw [this]
    exact lupLoop_chk _ (checkpointByte_isChk _)

theorem pos_add_mod (c : Counter) (p j i : Nat) :
    (pos c p j + i) % c.length = pos c p (j + i) := by
  unfold pos
  rw [Nat.mod_add_mod, Nat.add_assoc]

theorem pos_ne_self (c : Counter) (p j : Nat) (hp : p < c.length) (h0 : 0 < j)
    (hj : j < c.length) : pos c p j ≠ p := by
  have := pos_ne c p j 0 hj (by omega) (by omega)
  rw [pos_zero c p hp] at this
  exact this

/-- Third case of the increment: a fresh small-increment byte `0x7F` replaces
the first `0xFF`. -/
theorem inv_step_fresh {c : Counter} {e : EEPROM} {p K m : Nat}
    (h : Inv c e p K m 9 0 1) (hlt : m + 11 < c.length) (count : Nat) :
    incMutation c (pos c p (5 + m + 0)) p count e =
      updateeeprom e (c.start_address + pos c p (5 + m)) 0x7F ∧
    Inv c (updateeeprom e (c.start_address + pos c p (5 + m)) 0x7F) p K (m + 1) 2 0 0 := by
  have hb := inv_bounds h
  have hm := h.hm
  have i1 : inc_index c (pos c p (5 + m + 0)) = pos c p (6 + m + 0) := by
    rw [inc_index_pos]; congr 1; omega
  have i2 : inc_index c (pos c p (6 + m + 0)) = pos c p (7 + m + 0) := by
    rw [inc_index_pos]; congr 1; omega
  constructor
  · rw [incMutation_new c _ p count e
      (by rw [i1]; exact h.ff2 rfl)
      (by rw [i1, i2]; exact inv_third h)
      (inv_lup_none h)]
    rw [futureLoop_none c _ p count e (fun i hi1 hi2 => by
      rw [pos_add_mod]
      exact pos_ne_self c p _ h.hp (by omega) (by omega))]
    rw [if_pos rfl, Nat.add_comm]
    rfl
  · have hr : ∀ j, j < c.length →
        rd c (updateeeprom e (c.start_address + pos c p (5 + m)) 0x7F) (pos c p j) =
          if j = 5 + m then 0x7F else rd c e (pos c p j) := fun j hj => by
      rw [rd_update_pos c e p _ _ j (by omega) hj]
    exact
      { hL := h.hL, hp := h.hp, hK := h.hK, hm := by omega, hsv := by omega,
        hm0 := fun h0 => by omega, ht := h.ht,
        htm := fun h0 => by omega, hec := by omega,
        chain := fun j hj => by rw [hr j (by omega), if_neg (by omega)]; exact h.chain j hj,
        zeros := fun j hj => by
          rw [hr _ (by omega), if_neg (by omega)]
          by_cases hj2 : j + 1 < m
          · exact h.zeros j hj2
          · have := h.last (by omega)
            rw [show 4 + m = 5 + j by omega] at this
            rw [this]; decide,
        last := fun _ => by
          rw [hr _ (by omega), if_pos (by omega)]; decide,
        part := fun j hj => by omega,
        ff := by
          rw [hr _ (by omega), if_neg (by omega)]
          have := h.ff2 rfl
          rw [show 6 + m + 0 = 5 + (m + 1) + 0 by omega] at this
          exact this,
        ff2 := fun h1 => by omega,
        junk := fun j hj1 hj2 => by
          rw [hr _ hj2, if_neg (by omega)]; exact h.junk j (by omega) hj2,
        junkLast := fun hj => by
          rw [hr _ (by omega), if_neg (by omega)]; exact h.junkLast (by omega) }

theorem inv_future {c : Counter} {e : EEPROM} {p K m t : Nat}
    (h : Inv c e p K m 9 t 1) (hfull : m + 11 = c.length) :
    incMutation c (pos c p (5 + m + t)) p ((cntOf K m 9 t 1 + 1) % 2 ^ 32) e =
      updateeeprom e (c.start_address + pos c p (5 + m + t)) (nextChk K m t) := by
  have hb := inv_bounds h
  have ht := h.ht
  have i1 : inc_index c (pos c p (5 + m + t)) = pos c p (6 + m + t) := by
    rw [inc_index_pos]; congr 1; omega
  have i2 : inc_index c (pos c p (6 + m + t)) = pos c p (7 + m + t) := by
    rw [inc_index_pos]; congr 1; omega
  rw [incMutation_new c _ p _ e
    (by rw [i1]; exact h.ff2 rfl)
    (by rw [i1, i2]; exact inv_third h)
    (inv_lup_none h)]
  rw [futureLoop_found c _ p _ e (4 - t) 5 2 (by omega) (by omega)
    (fun d hd => by
      rw [pos_add_mod]
      exact pos_ne_self c p _ h.hp (by omega) (by omega))
    (by
      rw [pos_add_mod, show 5 + m + t + (2 + (4 - t)) = 0 + c.length by omega, pos_add_length,
        pos_zero c p h.hp])]
  dsimp only
  rw [if_neg (by omega), Nat.add_comm (pos c p (5 + m + t)) c.start_address]
  have e1 : ((cntOf K m 9 t 1 + 1) % 2 ^ 32 + ((2 + (4 - t)) * 2 - 4) % 256) % 2 ^ 32 =
      (K + 9 * m + 10) % 2 ^ 32 := by
    unfold cntOf
    omega
  have e2 : (2 + (4 - t) - 2) * 7 = (4 - t) * 7 := by omega
  rw [e1, e2]
  rfl

/-- Fourth case of the increment: a byte of the next checkpoint chain replaces
the first `0xFF`, and the chain is not complete yet. -/
theorem inv_step_chain {c : Counter} {e : EEPROM} {p K m t : Nat}
    (h : Inv c e p K m 9 t 1) (hfull : m + 11 = c.length) (ht3 : t < 4) :
    Inv c (updateeeprom e (c.start_address + pos c p (5 + m + t)) (nextChk K m t))
      p K m 9 (t + 1) 0 := by
  have hb := inv_bounds h
  have hv : nextChk K m t % 256 = nextChk K m t := by
    have := checkpointByte_lt (((K + 9 * m + 10) % 2 ^ 32) >>> ((4 - t) * 7))
    unfold nextChk
    omega
  have hr : ∀ j, j < c.length →
      rd c (updateeeprom e (c.start_address + pos c p (5 + m + t)) (nextChk K m t))
          (pos c p j) =
        if j = 5 + m + t then nextChk K m t else rd c e (pos c p j) := fun j hj => by
    rw [rd_update_pos c e p _ _ j (by omega) hj, hv]
  exact
    { hL := h.hL, hp := h.hp, hK := h.hK, hm := h.hm, hsv := h.hsv,
      hm0 := h.hm0, ht := by omega,
      htm := fun _ => ⟨hfull, rfl⟩, hec := by omega,
      chain := fun j hj => by rw [hr j (by omega), if_neg (by omega)]; exact h.chain j hj,
      zeros := fun j hj => by rw [hr _ (by omega), if_neg (by omega)]; exact h.zeros j hj,
      last := fun hj => by rw [hr _ (by omega), if_neg (by omega)]; exact h.last hj,
      part := fun j hj => by
        rw [hr _ (by omega)]
        by_cases hjt : j = t
        · rw [if_pos (by omega), hjt]; rfl
        · rw [if_neg (by omega)]; exact h.part j (by omega),
      ff := by
        rw [hr _ (by omega), if_neg (by omega)]
        have := h.ff2 rfl
        rw [show 6 + m + t = 5 + m + (t + 1) by omega] at this
        exact this,
      ff2 := fun h1 => by omega,
      junk := fun j hj1 hj2 => by
        rw [hr _ hj2, if_neg (by omega)]; exact h.junk j (by omega) hj2,
      junkLast := fun hj => by
        rw [hr _ (by omega), if_neg (by omega)]; exact h.junkLast (by omega) }

theorem pos_pos (c : Counter) (p a j : Nat) : pos c (pos c p a) j = pos c p (a + j) := by
  unfold pos
  rw [Nat.mod_add_mod, Nat.add_assoc]

/-- Fifth case of the increment: the last byte of the next checkpoint chain is
written; that chain becomes the reference chain. -/
theorem inv_step_complete {c : Counter} {e : EEPROM} {p K m : Nat}
    (h : Inv c e p K m 9 4 1) (hfull : m + 11 = c.length) :
    Inv c (updateeeprom e (c.start_address + pos c p (5 + m + 4)) (nextChk K m 4))
      (pos c p (c.length - 6)) ((K + 9 * m + 10) % 2 ^ 32) 0 9 0 0 := by
  have hb := inv_bounds h
  have hL := h.hL
  have hv : nextChk K m 4 % 256 = nextChk K m 4 := by
    have := checkpointByte_lt (((K + 9 * m + 10) % 2 ^ 32) >>> ((4 - 4) * 7))
    unfold nextChk
    omega
  have hr : ∀ j, j < c.length →
      rd c (updateeeprom e (c.start_address + pos c p (5 + m + 4)) (nextChk K m 4))
          (pos c p j) =
        if j = 5 + m + 4 then nextChk K m 4 else rd c e (pos c p j) := fun j hj => by
    rw [rd_update_pos c e p _ _ j (by omega) hj, hv]
  have hwrap : ∀ j, 6 ≤ j → pos c p (c.length - 6 + j) = pos c p (j - 6) := fun j hj => by
    rw [show c.length - 6 + j = (j - 6) + c.length by omega, pos_add_length]
  exact
    { hL := h.hL, hp := pos_lt c (by omega) _ _, hK := Nat.mod_lt _ (by norm_num),
      hm := by omega, hsv := by omega,
      hm0 := fun _ => rfl, ht := by omega,
      htm := fun h0 => by omega, hec := by omega,
      chain := fun j hj => by
        rw [pos_pos, hr _ (by omega)]
        by_cases hj4 : j = 4
        · rw [if_pos (by omega), hj4]; rfl
        · rw [if_neg (by omega)]
          have := h.part j (by omega)
          rw [show 5 + m + j = c.length - 6 + j by omega] at this
          exact this,
      zeros := fun j hj => by omega,
      last := fun hj => by omega,
      part := fun j hj => by omega,
      ff := by
        rw [pos_pos, hr _ (by omega), if_neg (by omega)]
        have := h.ff2 rfl
        rw [show 6 + m + 4 = c.length - 6 + (5 + 0 + 0) by omega] at this
        exact this,
      ff2 := fun h1 => by omega,
      junk := fun j hj1 hj2 => by
        rw [pos_pos, hwrap j (by omega), hr _ (by omega), if_neg (by omega)]
        exact inv_nonFF h _ (by omega) (by omega) (by omega),
      junkLast := fun hj => by
        rw [pos_pos, hwrap _ (by omega), hr _ (by omega), if_neg (by omega)]
        have := h.last (by omega)
        rw [show 4 + m = c.length - 1 - 6 by omega] at this
        rw [this]
        decide }

theorem readeeprom_resetTail (c : Counter) :
    ∀ (fuel i : Nat) (e : EEPROM) (a : Nat),
      readeeprom (resetTail c fuel i e) a =
        if c.start_address + i ≤ a ∧ a < c.start_address + i + fuel ∧ readeeprom e a = 0xFF
        then 0x77 else readeeprom e a := by
  intro fuel
  induction fuel with
  | zero =>
    intro i e a
    rw [resetTail, if_neg (by omega)]
  | succ n ih =>
    intro i e a
    rw [resetTail]
    by_cases hi : readeeprom e (c.start_address + i) = 0xFF
    · rw [if_pos hi, ih, readeeprom_updateeeprom]
      by_cases ha : a = c.start_address + i
      · subst ha
        rw [if_pos rfl, if_neg (by omega), if_pos ⟨by omega, by omega, hi⟩]
      · rw [if_neg ha]
        by_cases hc : c.start_address + (i + 1) ≤ a ∧ a < c.start_address + (i + 1) + n ∧
            readeeprom e a = 0xFF
        · rw [if_pos hc, if_pos ⟨by omega, by omega, hc.2.2⟩]
        · rw [if_neg hc, if_neg]
          rintro ⟨h1, h2, h3⟩
          exact hc ⟨by omega, by omega, h3⟩
    · rw [if_neg hi, ih]
      by_cases hc : c.start_address + (i + 1) ≤ a ∧ a < c.start_address + (i + 1) + n ∧
          readeeprom e a = 0xFF
      · rw [if_pos hc, if_pos ⟨by omega, by omega, hc.2.2⟩]
      · rw [if_neg hc, if_neg]
        rintro ⟨h1, h2, h3⟩
        by_cases ha : a = c.start_address + i
        · rw [ha] at h3; exact hi h3
        · exact hc ⟨by omega, by omega, h3⟩

theorem checkpointByte_mod (z : Nat) : checkpointByte z % 256 = checkpointByte z := by
  have := checkpointByte_lt z
  omega

/-- The bytes `resetcount` leaves, address by address. -/
theorem readeeprom_resetcount (c : Counter) (v : Nat) (e : EEPROM) (a : Nat) :
    readeeprom (resetcount c v e) a =
      if a < c.start_address then readeeprom e a
      else if a - c.start_address < 5 then
        checkpointByte (v >>> ((4 - (a - c.start_address)) * 7))
      else if a - c.start_address = 5 then 0xFF
      else if a - c.start_address < c.length ∧ readeeprom e a = 0xFF then 0x77
      else readeeprom e a := by
  unfold resetcount
  dsimp only
  rw [readeeprom_resetTail]
  simp only [resetHead, readeeprom_updateeeprom, checkpointByte_mod]
  by_cases h0 : a < c.start_address
  · rw [if_pos h0, if_neg (by omega)]
    simp only [show ¬ (a = c.start_address + 5) by omega, show ¬ (a = c.start_address + (0 + 1 + 1 + 1 + 1)) by omega,
      show ¬ (a = c.start_address + (0 + 1 + 1 + 1)) by omega, show ¬ (a = c.start_address + (0 + 1 + 1)) by omega,
      show ¬ (a = c.start_address + (0 + 1)) by omega, show ¬ (a = c.start_address + 0) by omega, if_false]
  · rw [if_neg h0]
    obtain ⟨j, rfl⟩ : ∃ j, a = c.start_address + j := ⟨a - c.start_address, by omega⟩
    rw [Nat.add_sub_cancel_left]
    simp only [Nat.add_right_inj]
    by_cases h5 : j < 5
    · rw [if_pos h5, if_neg (by
        rintro ⟨h1, -, -⟩
        omega)]
      have hj : j = 0 ∨ j = 1 ∨ j = 2 ∨ j = 3 ∨ j = 4 := by omega
      rcases hj with rfl | rfl | rfl | rfl | rfl <;> simp
    · rw [if_neg h5]
      by_cases h55 : j = 5
      · subst h55
        simp
      · rw [if_neg h55]
        simp only [show ¬ (j = 5) by omega, show ¬ (j = 0 + 1 + 1 + 1 + 1) by omega,
          show ¬ (j = 0 + 1 + 1 + 1) by omega, show ¬ (j = 0 + 1 + 1) by omega,
          show ¬ (j = 0 + 1) by omega, show ¬ (j = 0) by omega, if_false]
        by_cases hc : j < c.length ∧ readeeprom e (c.start_address + j) = 0xFF
        · rw [if_pos hc, if_pos ⟨by omega, by omega, hc.2⟩]
        · rw [if_neg hc, if_neg]
          rintro ⟨h1, h2, h3⟩
          exact hc ⟨by omega, h3⟩

theorem rd_resetcount (c : Counter) (v : Nat) (e : EEPROM) (j : Nat) :
    rd c (resetcount c v e) j =
      if j < 5 then checkpointByte (v >>> ((4 - j) * 7))
      else if j = 5 then 0xFF
      else if j < c.length ∧ rd c e j = 0xFF then 0x77
      else rd c e j := by
  unfold rd
  rw [readeeprom_resetcount, if_neg (by omega), Nat.add_sub_cancel_left]

theorem pos_zero_left (c : Counter) (j : Nat) (hj : j < c.length) : pos c 0 j = j := by
  unfold pos
  rw [Nat.zero_add]
  exact Nat.mod_eq_of_lt hj

/-- After `resetcount(v)` the region has the shape `Inv`, provided the last
byte of the region was not a checkpoint byte before. -/
theorem inv_resetcount (c : Counter) (v : Nat) (e : EEPROM) (hL : 16 ≤ c.length)
    (hv : v < 2 ^ 32) (hlast : ¬ isChk (rd c e (c.length - 1))) :
    Inv c (resetcount c v e) 0 v 0 9 0 0 := by
  exact
    { hL := hL, hp := by omega, hK := hv, hm := by omega, hsv := by omega,
      hm0 := fun _ => rfl, ht := by omega, htm := fun h0 => by omega, hec := by omega,
      chain := fun j hj => by
        rw [pos_zero_left c j (by omega), rd_resetcount, if_pos hj],
      zeros := fun j hj => by omega,
      last := fun hj => by omega,
      part := fun j hj => by omega,
      ff := by
        rw [pos_zero_left c _ (by omega), rd_resetcount, if_neg (by omega), if_pos (by omega)],
      ff2 := fun h1 => by omega,
      junk := fun j hj1 hj2 => by
        rw [pos_zero_left c j hj2, rd_resetcount, if_neg (by omega), if_neg (by omega)]
        by_cases hc : j < c.length ∧ rd c e j = 0xFF
        · rw [if_pos hc]; decide
        · rw [if_neg hc]; exact fun hh => hc ⟨hj2, hh⟩,
      junkLast := fun hj => by
        rw [pos_zero_left c _ (by omega), rd_resetcount, if_neg (by omega), if_neg (by omega)]
        by_cases hc : c.length - 1 < c.length ∧ rd c e (c.length - 1) = 0xFF
        · rw [if_pos hc]; decide
        · rw [if_neg hc]; exact hlast }

/-- One `increment()` on a region of shape `Inv`: it performs a single
`updateeeprom`, returns the count plus one, and leaves a region of shape `Inv`
that stands for the count plus one. -/
theorem inv_step {c : Counter} {e : EEPROM} {p K m sv t ec : Nat}
    (h : Inv c e p K m sv t ec) :
    ∃ a v p' K' m' sv' t' ec',
      op c 1 e = ((cntOf K m sv t ec + 1) % 2 ^ 32, updateeeprom e a v) ∧
      c.start_address ≤ a ∧ a < c.start_address + c.length ∧
      Inv c (updateeeprom e a v) p' K' m' sv' t' ec' ∧
      cntOf K' m' sv' t' ec' = (cntOf K m sv t ec + 1) % 2 ^ 32 := by
  have hinc := inv_increment h
  have hL := h.hL
  have hm := h.hm
  have ht := h.ht
  have hec := h.hec
  have hsv := h.hsv
  have htm := h.htm
  have hm0 := h.hm0
  have hpl : ∀ j, c.start_address ≤ c.start_address + pos c p j ∧
      c.start_address + pos c p j < c.start_address + c.length := fun j => by
    have := pos_lt c (by omega) p j
    omega
  rcases Nat.eq_zero_or_pos ec with hec0 | hec1
  · subst hec0
    obtain ⟨s1, s2⟩ := inv_step_erase h ((cntOf K m sv t 0 + 1) % 2 ^ 32)
    refine ⟨_, _, p, K, m, sv, t, 1, by rw [hinc, s1], (hpl _).1, (hpl _).2, s2, ?_⟩
    unfold cntOf; omega
  · have : ec = 1 := by omega
    subst this
    rcases Nat.eq_zero_or_pos t with ht0 | htpos
    · subst ht0
      by_cases hshift : 0 < m ∧ sv ≤ 8
      · obtain ⟨s1, s2⟩ := inv_step_shift h hshift.1 hshift.2 ((cntOf K m sv 0 1 + 1) % 2 ^ 32)
        refine ⟨_, _, p, K, m, sv + 1, 0, 1, by rw [hinc, s1], (hpl _).1, (hpl _).2, s2, ?_⟩
        unfold cntOf; omega
      · have hsv9 : sv = 9 := by
          rcases Nat.eq_zero_or_pos m with h0 | h1
          · exact hm0 h0
          · omega
        subst hsv9
        by_cases hfull : m + 11 = c.length
        · have s1 := inv_future h hfull
          have s2 := inv_step_chain h hfull (by omega)
          refine ⟨_, _, p, K, m, 9, 0 + 1, 0, by rw [hinc, s1], (hpl _).1, (hpl _).2, s2, ?_⟩
          unfold cntOf; omega
        · obtain ⟨s1, s2⟩ := inv_step_fresh h (by omega) ((cntOf K m 9 0 1 + 1) % 2 ^ 32)
          refine ⟨_, _, p, K, m + 1, 2, 0, 0, by rw [hinc, s1], (hpl _).1, (hpl _).2, s2, ?_⟩
          unfold cntOf; omega
    · obtain ⟨hfull, hsv9⟩ := htm htpos
      subst hsv9
      have s1 := inv_future h hfull
      by_cases ht4 : t < 4
      · have s2 := inv_step_chain h hfull ht4
        refine ⟨_, _, p, K, m, 9, t + 1, 0, by rw [hinc, s1], (hpl _).1, (hpl _).2, s2, ?_⟩
        unfold cntOf; omega
      · have : t = 4 := by omega
        subst this
        have s2 := inv_step_complete h hfull
        refine ⟨_, _, _, _, 0, 9, 0, 0, by rw [hinc, s1], (hpl _).1, (hpl _).2, s2, ?_⟩
        unfold cntOf; omega

theorem good_read {c : Counter} {e : EEPROM} {n : Nat} (h : Good c e n) :
    op c 0 e = (n, e) := by
  obtain ⟨p, K, m, sv, t, ec, hi, hc⟩ := h
  rw [inv_read hi, hc]

theorem good_step {c : Counter} {e : EEPROM} {n : Nat} (h : Good c e n) :
    ∃ a v, op c 1 e = ((n + 1) % 2 ^ 32, updateeeprom e a v) ∧
      c.start_address ≤ a ∧ a < c.start_address + c.length ∧
      Good c (updateeeprom e a v) ((n + 1) % 2 ^ 32) := by
  obtain ⟨p, K, m, sv, t, ec, hi, hc⟩ := h
  obtain ⟨a, v, p', K', m', sv', t', ec', h1, h2, h3, h4, h5⟩ := inv_step hi
  rw [hc] at h1 h5
  exact ⟨a, v, h1, h2, h3, p', K', m', sv', t', ec', h4, h5⟩

theorem good_resetcount (c : Counter) (v : Nat) (e : EEPROM) (hL : 16 ≤ c.length)
    (hv : v < 2 ^ 32) (hlast : ¬ isChk (rd c e (c.length - 1))) :
    Good c (resetcount c v e) v := by
  refine ⟨0, v, 0, 9, 0, 0, inv_resetcount c v e hL hv hlast, ?_⟩
  unfold cntOf
  norm_num
  omega

theorem good_incrementN (c : Counter) (e : EEPROM) (v : Nat) (h : Good c e v) :
    ∀ n, Good c (incrementN c n e) ((v + n) % 2 ^ 32) := by
  intro n
  induction n with
  | zero =>
    obtain ⟨p, K, m, sv, t, ec, hi, hc⟩ := h
    refine ⟨p, K, m, sv, t, ec, hi, ?_⟩
    rw [hc, Nat.add_zero]
    rw [← hc]; unfold cntOf
    exact (Nat.mod_mod _ _).symm
  | succ k ih =>
    obtain ⟨a, w, h1, _, _, h4⟩ := good_step ih
    rw [incrementN]
    unfold increment
    rw [h1]
    have : ((v + k) % 2 ^ 32 + 1) % 2 ^ 32 = (v + (k + 1)) % 2 ^ 32 := by omega
    rw [this] at h4
    exact h4

theorem erased_not_chk (c : Counter) (e : EEPROM) (hL : 16 ≤ c.length)
    (h : ∀ j, j < c.length → readeeprom e (c.start_address + j) = 0xFF) :
    ¬ isChk (rd c e (c.length - 1)) := by
  unfold rd
  rw [h _ (by omega)]
  decide

theorem good_torn {c : Counter} {e : EEPROM} {n : Nat} (h : Good c e n) :
    applyWrites e (incrementWrites c e) = (increment c e).2 ∧
    ∀ k, k ≤ (incrementWrites c e).length →
      (read c (applyWrites e ((incrementWrites c e).take k))).1 = n ∨
      (read c (applyWrites e ((incrementWrites c e).take k))).1 = (n + 1) % 2 ^ 32 := by
  obtain ⟨a, w, h1, _, _, h4⟩ := good_step h
  unfold incrementWrites increment read
  rw [h1]
  dsimp only
  by_cases heq : readeeprom e a = w % 256
  · have hu : updateeeprom e a w = e := by unfold updateeeprom; rw [if_pos heq]
    rw [hu, List.drop_length]
    refine ⟨rfl, fun k _ => ?_⟩
    left
    rw [List.take_nil]
    show (op c 0 e).1 = n
    rw [good_read h]
  · have hu : updateeeprom e a w =
        { mem := fun x => if x = a then w % 256 else e.mem x,
          log := e.log ++ [(a, w % 256)] } := by
      unfold updateeeprom; rw [if_neg heq]
    have hlog : (updateeeprom e a w).log.drop e.log.length = [(a, w % 256)] := by
      rw [hu]
      exact List.drop_left' rfl
    rw [hlog]
    have hfull : applyWrites e [(a, w % 256)] = updateeeprom e a w := by
      rw [hu]; rfl
    refine ⟨hfull, fun k hk => ?_⟩
    rcases Nat.eq_zero_or_pos k with h0 | hpos
    · subst h0
      left
      show (op c 0 e).1 = n
      rw [good_read h]
    · have hk1 : k = 1 := by simp at hk; omega
      subst hk1
      right
      rw [List.take_of_length_le (by simp), hfull, good_read h4]

theorem findFF_e_of_ne_two (c : Counter) (op_id : Nat) (h : op_id ≠ 2) :
    ∀ (fuel i : Nat) (s : FFState), (findFF c op_id fuel i s).e = s.e := by
  intro fuel
  induction fuel with
  | zero => intro i s; rfl
  | succ n ih =>
    intro i s
    unfold findFF
    split
    · split
      · simp [h]
      · rw [ih]
    · rw [ih]

theorem op_read_snd (c : Counter) (e : EEPROM) : (op c 0 e).2 = e := by
  have h := findFF_e_of_ne_two c 0 (by decide) c.length 0
    { e := e, first_FF_index := none, second_FF_index := none }
  unfold op
  simp only [show (0:Nat) ≠ 2 by decide, show ¬ ((0:Nat) = 2) by decide, if_false,
    show ¬ ((0:Nat) = 1) by decide]
  split <;> simp [h]

/-- C1: from an erased region of length at least 16, after `resetcount(v)` and
`n` calls of `increment()`, `read()` returns `(v + n) mod 2^32`, and the `k`-th
`increment()` returned `(v + k) mod 2^32`. -/
theorem count_after_reset_and_increments (c : Counter) (e : EEPROM) (v n : Nat)
    (hL : 16 ≤ c.length) (hv : v < 2 ^ 32)
    (herased : ∀ j, j < c.length → readeeprom e (c.start_address + j) = 0xFF) :
    (read c (incrementN c n (resetcount c v e))).1 = (v + n) % 2 ^ 32 ∧
    ∀ k, 1 ≤ k → k ≤ n →
      (increment c (incrementN c (k - 1) (resetcount c v e))).1 = (v + k) % 2 ^ 32 := by
  have hg := good_resetcount c v e hL hv (erased_not_chk c e hL herased)
  constructor
  · unfold read
    rw [good_read (good_incrementN c _ v hg n)]
  · intro k hk1 _
    obtain ⟨a, w, h1, _⟩ := good_step (good_incrementN c _ v hg (k - 1))
    unfold increment
    rw [h1]
    show ((v + (k - 1)) % 2 ^ 32 + 1) % 2 ^ 32 = (v + k) % 2 ^ 32
    omega

/-- Witness of C1: on the erased device, after `resetcount(0xFFFFFFFF)` the
first `increment()` yields 0 and `read()` then returns 0. -/
theorem count_after_reset_and_increments_witness :
    16 ≤ demoCounter.length ∧ 4294967295 < 2 ^ 32 ∧
    (∀ j, j < demoCounter.length → readeeprom erased (demoCounter.start_address + j) = 0xFF) ∧
    ((read demoCounter (incrementN demoCounter 1 (resetcount demoCounter 4294967295 erased))).1
        = (4294967295 + 1) % 2 ^ 32 ∧
      ∀ k, 1 ≤ k → k ≤ 1 →
        (increment demoCounter (incrementN demoCounter (k - 1)
          (resetcount demoCounter 4294967295 erased))).1 = (4294967295 + k) % 2 ^ 32) :=
  ⟨by decide, by norm_num, fun _ _ => rfl,
    count_after_reset_and_increments demoCounter erased 4294967295 1 (by decide) (by norm_num)
      (fun _ _ => rfl)⟩

set_option maxRecDepth 1000000 in
set_option maxHeartbeats 4000000 in
/-- C2 (failing input): on an erased region of 16 bytes, after `resetcount(0)`
and 159 calls of `increment()` the count is 159; `resetcount(5)` followed by
`read()` then returns 4, not 5.  The smallest such region, `staleChain`, gives 2. -/
theorem resetcount_read_stale_chain :
    16 ≤ demoCounter.length ∧
    (read demoCounter (incrementN demoCounter 159 (resetcount demoCounter 0 erased))).1 = 159 ∧
    (read demoCounter
      (resetcount demoCounter 5 (incrementN demoCounter 159 (resetcount demoCounter 0 erased)))).1
        = 4 ∧
    (read demoCounter (resetcount demoCounter 5 staleChain)).1 = 2 := by
  decide

/-- C3: in every state reached from `resetcount(v)` on an erased region by
increments, the writes of the next `increment()`, applied in full, give the
medium that `increment()` leaves, and after any leading part of those writes
`read()` returns the count before the increment or that count plus one. -/
theorem no_overcount_under_interruption (c : Counter) (e : EEPROM) (v n : Nat)
    (hL : 16 ≤ c.length) (hv : v < 2 ^ 32)
    (herased : ∀ j, j < c.length → readeeprom e (c.start_address + j) = 0xFF) :
    applyWrites (incrementN c n (resetcount c v e))
        (incrementWrites c (incrementN c n (resetcount c v e))) =
      (increment c (incrementN c n (resetcount c v e))).2 ∧
    ∀ k, k ≤ (incrementWrites c (incrementN c n (resetcount c v e))).length →
      (read c (applyWrites (incrementN c n (resetcount c v e))
        ((incrementWrites c (incrementN c n (resetcount c v e))).take k))).1 = (v + n) % 2 ^ 32 ∨
      (read c (applyWrites (incrementN c n (resetcount c v e))
        ((incrementWrites c (incrementN c n (resetcount c v e))).take k))).1 =
          ((v + n) % 2 ^ 32 + 1) % 2 ^ 32 :=
  good_torn (good_incrementN c _ v
    (good_resetcount c v e hL hv (erased_not_chk c e hL herased)) n)

/-- Witness of C3: the erased device, `resetcount(41)`, three increments. -/
theorem no_overcount_under_interruption_witness :
    16 ≤ demoCounter.length ∧ 41 < 2 ^ 32 ∧
    (∀ j, j < demoCounter.length → readeeprom erased (demoCounter.start_address + j) = 0xFF) ∧
    (applyWrites (incrementN demoCounter 3 (resetcount demoCounter 41 erased))
        (incrementWrites demoCounter (incrementN demoCounter 3 (resetcount demoCounter 41 erased))) =
      (increment demoCounter (incrementN demoCounter 3 (resetcount demoCounter 41 erased))).2 ∧
    ∀ k, k ≤ (incrementWrites demoCounter
        (incrementN demoCounter 3 (resetcount demoCounter 41 erased))).length →
      (read demoCounter (applyWrites (incrementN demoCounter 3 (resetcount demoCounter 41 erased))
        ((incrementWrites demoCounter
          (incrementN demoCounter 3 (resetcount demoCounter 41 erased))).take k))).1 =
            (41 + 3) % 2 ^ 32 ∨
      (read demoCounter (applyWrites (incrementN demoCounter 3 (resetcount demoCounter 41 erased))
        ((incrementWrites demoCounter
          (incrementN demoCounter 3 (resetcount demoCounter 41 erased))).take k))).1 =
            ((41 + 3) % 2 ^ 32 + 1) % 2 ^ 32) :=
  ⟨by decide, by norm_num, fun _ _ => rfl,
    no_overcount_under_interruption demoCounter erased 41 3 (by decide) (by norm_num)
      (fun _ _ => rfl)⟩

set_option maxRecDepth 100000 in
/-- C4 (failing input): the region left by `resetcount(7)` and one
`increment()` on the erased device has exactly two `0xFF` bytes and count 8;
`begin(false)` rewrites it (the byte at offset 6 goes from `0xFF` to `0x77`)
and the count becomes 0. -/
theorem begin_resets_two_markers :
    16 ≤ demoCounter.length ∧
    countFF demoCounter (increment demoCounter (resetcount demoCounter 7 erased)).2 = 2 ∧
    (read demoCounter (increment demoCounter (resetcount demoCounter 7 erased)).2).1 = 8 ∧
    readeeprom (increment demoCounter (resetcount demoCounter 7 erased)).2 6 = 0xFF ∧
    readeeprom
      (begin demoCounter false (increment demoCounter (resetcount demoCounter 7 erased)).2) 6
        = 0x77 ∧
    (read demoCounter
      (begin demoCounter false (increment demoCounter (resetcount demoCounter 7 erased)).2)).1
        = 0 := by
  decide

/-- C5: `begin(true)` leaves the medium of the interposed `increment()` when
`a+1 == b` and `b == c`, and otherwise `resetcount(a+1)` applied to it, where
`a = read()`, `b = increment()` and `c = read()` after the increment. -/
theorem begin_recover_eq (c : Counter) (e : EEPROM) :
    begin c true e =
      if ((read c e).1 + 1) % 2 ^ 32 = (increment c e).1 ∧
          (increment c e).1 = (read c (increment c e).2).1
      then (increment c e).2
      else resetcount c (((read c e).1 + 1) % 2 ^ 32) (increment c e).2 := by
  unfold begin read increment
  simp only [op_read_snd, if_true]
  by_cases h1 : ((op c 0 e).1 + 1) % 4294967296 = (op c 1 e).1
  · by_cases h2 : (op c 1 e).1 = (op c 0 (op c 1 e).2).1
    · simp [h1, h2]
    · simp [h1, h2]
  · simp [h1]

end EECounter

namespace EERecordSystem

open EECounter

/-- C6: on a begun, well-formed store, when no slot of the list holds `id` and
`a0` is the first zero slot in scan order, `addID(id, listid)` writes the bytes
of `id`, least significant first, into that slot, changes no other byte, and
`queryID(id, listid, false)` returns true afterwards. -/
theorem addID_reuses_first_free_slot (st : Store) (id listid a0 : Nat) (e : EEPROM)
    (hb : st.began = true) (hid0 : id ≠ 0) (hid : id < 2 ^ 32)
    (hwf : wellFormed st.EElength e st.EElength 0)
    (habsent : ∀ a ∈ listSlots listid st.EElength e st.EElength 0, slotValue e a ≠ id)
    (hfree : (listSlots listid st.EElength e st.EElength 0).find?
      (fun a => decide (slotValue e a = 0)) = some a0) :
    (∀ k, k < 4 → readeeprom (addID st id listid e).e (a0 + k) = idByte id k) ∧
    slotValue (addID st id listid e).e a0 = id ∧
    (∀ x, (x < a0 ∨ a0 + 4 ≤ x) → readeeprom (addID st id listid e).e x = readeeprom e x) ∧
    (queryID st id listid false (addID st id listid e).e).ret = true := by
  have hadd := idop_A_of_free st id listid a0 e hb hid0 hid habsent hfree
  unfold addID queryID
  rw [hadd]
  dsimp only
  refine ⟨fun k hk => ?_, slotValue_writeSlot e a0 id hid, fun x hx => ?_, ?_⟩
  · rw [readeeprom_writeSlot, if_pos ⟨by omega, by omega⟩, Nat.add_sub_cancel_left]
  · rw [readeeprom_writeSlot, if_neg (by omega)]
  · exact query_after_add st id listid a0 e hb hid0 hid hwf (List.mem_of_find?_eq_some hfree)

set_option maxRecDepth 100000 in
/-- Witness of C6: adding 99 to list 1 of `demoList` reuses the free slot at
address 10. -/
theorem addID_reuses_first_free_slot_witness :
    demoStore.began = true ∧ 99 ≠ 0 ∧ 99 < 2 ^ 32 ∧
    wellFormed demoStore.EElength demoList demoStore.EElength 0 ∧
    (∀ a ∈ listSlots 1 demoStore.EElength demoList demoStore.EElength 0,
      slotValue demoList a ≠ 99) ∧
    (listSlots 1 demoStore.EElength demoList demoStore.EElength 0).find?
      (fun a => decide (slotValue demoList a = 0)) = some 10 ∧
    ((∀ k, k < 4 → readeeprom (addID demoStore 99 1 demoList).e (10 + k) = idByte 99 k) ∧
     slotValue (addID demoStore 99 1 demoList).e 10 = 99 ∧
     (∀ x, (x < 10 ∨ 10 + 4 ≤ x) →
        readeeprom (addID demoStore 99 1 demoList).e x = readeeprom demoList x) ∧
     (queryID demoStore 99 1 false (addID demoStore 99 1 demoList).e).ret = true) :=
  ⟨rfl, by decide, by norm_num, by decide, by decide, by decide,
    addID_reuses_first_free_slot demoStore 99 1 10 demoList rfl (by decide) (by norm_num)
      (by decide) (by decide) (by decide)⟩

/-- C7: on a begun, well-formed store, after `deleteID(id, listid, false)` the
call `queryID(id, listid, false)` returns false. -/
theorem query_false_after_delete (st : Store) (id listid : Nat) (e : EEPROM)
    (hb : st.began = true) (hid0 : id ≠ 0) (hid : id < 2 ^ 32)
    (hwf : wellFormed st.EElength e st.EElength 0) :
    (queryID st id listid false (deleteID st id listid false e).e).ret = false :=
  query_after_delete st id listid e hb hid0 hid hwf

set_option maxRecDepth 100000 in
/-- Witness of C7: deleting 42 from list 1 of `demoList`, where it is stored. -/
theorem query_false_after_delete_witness :
    demoStore.began = true ∧ 42 ≠ 0 ∧ 42 < 2 ^ 32 ∧
    wellFormed demoStore.EElength demoList demoStore.EElength 0 ∧
    (queryID demoStore 42 1 false demoList).ret = true ∧
    (queryID demoStore 42 1 false (deleteID demoStore 42 1 false demoList).e).ret = false :=
  ⟨rfl, by decide, by norm_num, by decide, by decide,
    query_false_after_delete demoStore 42 1 demoList rfl (by decide) (by norm_num) (by decide)⟩

theorem enumIDs_calls (st : Store) (listid : Nat) (e : EEPROM) :
    (enumIDs st listid e).calls = [] := by
  unfold enumIDs
  rw [idop_zero]

set_option maxRecDepth 100000 in
/-- C8 (failing input): list 1 of `demoList` holds the live identifiers 42 and
7, the scan in mode `E` would report both, yet `enumIDs(1, callback)` never
invokes the callback. -/
theorem enumIDs_invokes_nothing :
    demoStore.began = true ∧
    listSlots 1 demoStore.EElength demoList demoStore.EElength 0 = [6, 10, 14] ∧
    slotValue demoList 6 = 42 ∧ slotValue demoList 10 = 0 ∧ slotValue demoList 14 = 7 ∧
    (idop demoStore 'E' 1 1 demoList).calls = [42, 7] ∧
    (enumIDs demoStore 1 demoList).calls = [] := by
  decide

set_option maxRecDepth 100000 in
/-- C9 (counterexample): 42 is already in list 1 of `demoList`, and
`addID(42, 1)` returns true, not false. -/
theorem addID_present_returns_true_example :
    demoStore.began = true ∧ 42 ≠ 0 ∧
    (∃ a ∈ listSlots 1 demoStore.EElength demoList demoStore.EElength 0,
      slotValue demoList a = 42) ∧
    ¬ ((addID demoStore 42 1 demoList).ret = false) := by
  decide

/-- C9 (amended): on a begun store, if some slot of the list already holds
`id`, then `addID(id, listid)` returns true and leaves the medium unchanged. -/
theorem addID_present (st : Store) (id listid : Nat) (e : EEPROM)
    (hb : st.began = true) (hid0 : id ≠ 0) (hid : id < 2 ^ 32)
    (h : ∃ a ∈ listSlots listid st.EElength e st.EElength 0, slotValue e a = id) :
    (addID st id listid e).ret = true ∧ (addID st id listid e).e = e :=
  idop_A_of_match st id listid e hb hid0 hid h

set_option maxRecDepth 100000 in
/-- Witness of C9 (amended): `addID(42, 1)` on `demoList`. -/
theorem addID_present_witness :
    demoStore.began = true ∧ 42 ≠ 0 ∧ 42 < 2 ^ 32 ∧
    (∃ a ∈ listSlots 1 demoStore.EElength demoList demoStore.EElength 0,
      slotValue demoList a = 42) ∧
    ((addID demoStore 42 1 demoList).ret = true ∧ (addID demoStore 42 1 demoList).e = demoList) :=
  ⟨rfl, by decide, by norm_num, by decide,
    addID_present demoStore 42 1 demoList rfl (by decide) (by norm_num) (by decide)⟩

/-- C10: for every store and medium, every `listid` and both values of the
flag, `addID(0, listid)`, `queryID(0, listid, flag)` and
`deleteID(0, listid, flag)` return false and leave the medium unchanged. -/
theorem zero_id_rejected (st : Store) (listid : Nat) (flag : Bool) (e : EEPROM) :
    ((addID st 0 listid e).ret = false ∧ (addID st 0 listid e).e = e) ∧
    ((queryID st 0 listid flag e).ret = false ∧ (queryID st 0 listid flag e).e = e) ∧
    ((deleteID st 0 listid flag e).ret = false ∧ (deleteID st 0 listid flag e).e = e) := by
  unfold addID queryID deleteID
  simp only [idop_zero, and_self]

end EERecordSystem

namespace EECounter

theorem findFF_op_irrelevant (c : Counter) (op1 op2 : Nat) (h1 : op1 ≠ 2) (h2 : op2 ≠ 2) :
    ∀ (fuel i : Nat) (s : FFState), findFF c op1 fuel i s = findFF c op2 fuel i s := by
  intro fuel
  induction fuel with
  | zero => intro i s; rfl
  | succ n ih =>
    intro i s
    rw [findFF, findFF]
    by_cases hb : readeeprom s.e (c.start_address + i) = 0xFF
    · rw [if_pos hb, if_pos hb]
      cases hf : s.first_FF_index with
      | none => exact ih _ _
      | some f0 =>
        dsimp only
        rw [if_pos h1, if_pos h2, if_neg (fun h => h1 h.1), if_neg (fun h => h2 h.1)]
    · rw [if_neg hb, if_neg hb]
      exact ih _ _

theorem increment_eq_read_succ (c : Counter) (e : EEPROM) :
    (op c 1 e).1 = ((op c 0 e).1 + 1) % 2 ^ 32 := by
  have hf := findFF_op_irrelevant c 1 0 (by decide) (by decide) c.length 0
    { e := e, first_FF_index := none, second_FF_index := none }
  unfold op
  rw [hf]
  generalize findFF c 0 c.length 0
    { e := e, first_FF_index := none, second_FF_index := none } = s
  cases hfirst : s.first_FF_index <;> simp [hfirst]

theorem specByte_eq (v i : Nat) : specByte v i = checkpointByte (v >>> ((4 - i) * 7)) := by
  unfold specByte
  have h : 0x80 ||| ((v >>> (7 * (4 - i))) &&& 0x7F) = 128 + (v >>> ((4 - i) * 7)) % 128 := by
    rw [land_127, Nat.mul_comm 7 (4 - i)]
    have := lor_128 ((v >>> ((4 - i) * 7)) % 128)
    have h2 : (v >>> ((4 - i) * 7)) % 128 % 256 = (v >>> ((4 - i) * 7)) % 128 := by omega
    have h3 : (v >>> ((4 - i) * 7)) % 128 % 128 = (v >>> ((4 - i) * 7)) % 128 := by omega
    rw [h2, h3, Nat.lor_comm] at this
    exact this
  rw [h, checkpointByte_eq]
  by_cases hz : (v >>> ((4 - i) * 7)) % 128 = 127
  · rw [if_pos (by omega), if_pos hz]
  · rw [if_neg (by omega), if_neg hz]

theorem constructorWait_small (length : Nat) (h : length < 16) :
    ∀ fuel, constructorWait length fuel = none := by
  intro fuel
  induction fuel with
  | zero => rfl
  | succ n ih => rw [constructorWait, if_pos h, ih]

theorem construct_small (start length : Nat) (h : length < 16) (fuel : Nat) :
    construct start length fuel = none := by
  unfold construct
  rw [constructorWait_small length h fuel]

theorem construct_large (start length : Nat) (h : 16 ≤ length) (fuel : Nat) (hf : 0 < fuel) :
    construct start length fuel = some { start_address := start, length := length } := by
  obtain ⟨n, rfl⟩ : ∃ n, fuel = n + 1 := ⟨fuel - 1, by omega⟩
  unfold construct
  rw [constructorWait, if_neg (by omega)]

end EECounter

namespace EERecordSystem

open EECounter

theorem readeeprom_writeImage (e : EEPROM) (a : Nat) :
    readeeprom (writeImage eeprom_initial_image.length 0 e) a =
      if a < 6 then eeprom_initial_image.getD a 0 else readeeprom e a := by
  simp only [eeprom_initial_image, List.length, writeImage, readeeprom_updateeeprom]
  by_cases h : a < 6
  · rw [if_pos h]
    have ha : a = 0 ∨ a = 1 ∨ a = 2 ∨ a = 3 ∨ a = 4 ∨ a = 5 := by omega
    rcases ha with rfl | rfl | rfl | rfl | rfl | rfl <;> simp
  · rw [if_neg h]
    simp only [show ¬ (a = 0 + 1 + 1 + 1 + 1 + 1) by omega, show ¬ (a = 0 + 1 + 1 + 1 + 1) by omega,
      show ¬ (a = 0 + 1 + 1 + 1) by omega, show ¬ (a = 0 + 1 + 1) by omega,
      show ¬ (a = 0 + 1) by omega, show ¬ (a = 0) by omega, if_false]

/-- The bytes `begin()` leaves, address by address. -/
theorem readeeprom_begin (st : Store) (e : EEPROM) (a : Nat) :
    readeeprom (begin st e).2 a =
      if readeeprom e 1 = 0x43 ∧ readeeprom e 2 = 0x41 ∧ readeeprom e 3 = 0x53 then
        (if a = 0 then 4 else readeeprom e a)
      else (if a < 6 then eeprom_initial_image.getD a 0 else readeeprom e a) := by
  unfold begin
  dsimp only
  by_cases h : readeeprom e 1 = 0x43 ∧ readeeprom e 2 = 0x41 ∧ readeeprom e 3 = 0x53
  · have hn : ¬ (readeeprom e 1 ≠ 0x43 ∨ readeeprom e 2 ≠ 0x41 ∨ readeeprom e 3 ≠ 0x53) := by
      rintro (h1 | h1 | h1)
      · exact h1 h.1
      · exact h1 h.2.1
      · exact h1 h.2.2
    rw [if_neg hn, if_pos h]
    by_cases h0 : readeeprom e 0 = 4
    · rw [if_neg (by rw [h0]; simp)]
      by_cases ha : a = 0
      · rw [if_pos ha, ha, h0]
      · rw [if_neg ha]
    · rw [if_pos h0, readeeprom_updateeeprom]
  · have hn : (readeeprom e 1 ≠ 0x43 ∨ readeeprom e 2 ≠ 0x41 ∨ readeeprom e 3 ≠ 0x53) := by
      by_contra hc
      apply h
      refine ⟨?_, ?_, ?_⟩
      · by_contra h1; exact hc (Or.inl h1)
      · by_contra h1; exact hc (Or.inr (Or.inl h1))
      · by_contra h1; exact hc (Or.inr (Or.inr h1))
    rw [if_pos hn, if_neg h]
    have h0 : readeeprom (writeImage eeprom_initial_image.length 0 e) 0 = 4 := by
      rw [readeeprom_writeImage]; rfl
    rw [if_neg (by rw [h0]; simp), readeeprom_writeImage]

theorem begin_fixed (st : Store) (e : EEPROM)
    (h0 : readeeprom e 0 = 4) (h1 : readeeprom e 1 = 0x43) (h2 : readeeprom e 2 = 0x41)
    (h3 : readeeprom e 3 = 0x53) : (begin st e).2 = e := by
  unfold begin
  dsimp only
  have hn : ¬ (readeeprom e 1 ≠ 0x43 ∨ readeeprom e 2 ≠ 0x41 ∨ readeeprom e 3 ≠ 0x53) := by
    rintro (h | h | h)
    · exact h h1
    · exact h h2
    · exact h h3
  rw [if_neg hn, if_neg (by rw [h0]; simp)]

theorem begin_header (st : Store) (e : EEPROM) :
    readeeprom (begin st e).2 0 = 4 ∧ readeeprom (begin st e).2 1 = 0x43 ∧
    readeeprom (begin st e).2 2 = 0x41 ∧ readeeprom (begin st e).2 3 = 0x53 := by
  simp only [readeeprom_begin]
  by_cases h : readeeprom e 1 = 0x43 ∧ readeeprom e 2 = 0x41 ∧ readeeprom e 3 = 0x53
  · simp [h]
  · simp [h, eeprom_initial_image]

theorem recordsFrom_fuel (EElength : Nat) (e : EEPROM) :
    ∀ (fuel p k : Nat), EElength ≤ p + fuel →
      recordsFrom EElength e (fuel + k) p = recordsFrom EElength e fuel p := by
  intro fuel
  induction fuel with
  | zero =>
    intro p k h
    cases k with
    | zero => rfl
    | succ k =>
      have hp : ¬ p < EElength := by omega
      rw [Nat.zero_add]
      conv_lhs => rw [recordsFrom]
      rw [if_neg hp]
      rfl
  | succ n ih =>
    intro p k h
    rw [show n + 1 + k = (n + k) + 1 by omega, recordsFrom, recordsFrom]
    by_cases hp : p < EElength
    · rw [if_pos hp, if_pos hp]
      by_cases hb : readeeprom e p = 0
      · rw [if_pos hb, if_pos hb]
      · rw [if_neg hb, if_neg hb, ih _ _ (by omega)]
    · rw [if_neg hp, if_neg hp]

/-- The loop of `getrecordaddress` ends within the fuel and returns the first
record of the walk whose key byte is `key`. -/
theorem getrecordLoop_eq (key EElength : Nat) (e : EEPROM) :
    ∀ (fuel p : Nat), EElength ≤ p + fuel →
      getrecordLoop key EElength e (fuel + 1) p =
        some (((recordsFrom EElength e fuel p).find?
          (fun r => decide (readeeprom e (r.1 + 1) = key))).map (fun r => (r.1 + 1, r.2 - 1))) := by
  intro fuel
  induction fuel with
  | zero =>
    intro p h
    rw [getrecordLoop, if_neg (by omega), recordsFrom]
    rfl
  | succ n ih =>
    intro p h
    rw [getrecordLoop, recordsFrom]
    by_cases hp : p < EElength
    · rw [if_pos hp, if_pos hp]
      by_cases hb : readeeprom e p = 0
      · rw [if_pos hb, if_pos hb]
        rfl
      · rw [if_neg hb, if_neg hb]
        have hlt := readeeprom_lt e p
        by_cases hk : readeeprom e (p + 1) = key
        · rw [if_pos hk, List.find?_cons_of_pos _ (by simpa using hk)]
          have : (readeeprom e p + 255) % 256 = readeeprom e p - 1 := by omega
          rw [this]
          rfl
        · rw [if_neg hk, List.find?_cons_of_neg _ (by simpa using hk)]
          exact ih _ (by omega)
    · rw [if_neg hp, if_neg hp]
      rfl

theorem getrecordLoop_enough (key EElength : Nat) (e : EEPROM) (fuel : Nat)
    (h : EElength < fuel) :
    getrecordLoop key EElength e fuel 0 = some (firstMatch key EElength e) := by
  obtain ⟨n, rfl⟩ : ∃ n, fuel = n + 1 := ⟨fuel - 1, by omega⟩
  rw [getrecordLoop_eq key EElength e n 0 (by omega)]
  unfold firstMatch
  have := recordsFrom_fuel EElength e EElength 0 (n - EElength) (by omega)
  rw [show EElength + (n - EElength) = n by omega] at this
  rw [this]

theorem getrecordaddress_eq (st : Store) (key : Nat) (e : EEPROM) (hb : st.began = true) :
    getrecordaddress st key e = some (firstMatch key st.EElength e) := by
  unfold getrecordaddress
  rw [if_neg (by rw [hb]; simp)]
  exact getrecordLoop_enough key st.EElength e _ (by omega)

/-- The result of the loop depends only on the bytes up to the key byte found. -/
theorem getrecordLoop_congr (key EElength : Nat) (e e2 : EEPROM) (A s : Nat) :
    ∀ (fuel p : Nat), getrecordLoop key EElength e fuel p = some (some (A, s)) →
      p + 1 ≤ A ∧
      ((∀ x, x ≤ A → readeeprom e2 x = readeeprom e x) →
        getrecordLoop key EElength e2 fuel p = some (some (A, s))) := by
  intro fuel
  induction fuel with
  | zero => intro p h; rw [getrecordLoop] at h; exact Option.noConfusion h
  | succ n ih =>
    intro p h
    rw [getrecordLoop] at h
    by_cases hp : p < EElength
    · rw [if_pos hp] at h
      by_cases hb : readeeprom e p = 0
      · rw [if_pos hb] at h
        exact absurd (Option.some.inj h) (by simp)
      · rw [if_neg hb] at h
        by_cases hk : readeeprom e (p + 1) = key
        · rw [if_pos hk] at h
          have hA : p + 1 = A := by
            have := Option.some.inj (Option.some.inj h)
            exact congrArg Prod.fst this
          refine ⟨by omega, fun hag => ?_⟩
          rw [getrecordLoop, if_pos hp, hag p (by omega), if_neg hb]
          dsimp only
          rw [hag (p + 1) (by omega), if_pos hk]
          exact h
        · rw [if_neg hk] at h
          obtain ⟨i1, i2⟩ := ih _ h
          refine ⟨by omega, fun hag => ?_⟩
          rw [getrecordLoop, if_pos hp, hag p (by omega), if_neg hb]
          dsimp only
          rw [hag (p + 1) (by omega), if_neg hk]
          exact i2 hag
    · rw [if_neg hp] at h
      exact absurd (Option.some.inj h) (by simp)

theorem readeeprom_writeData_below (address : Nat) (recorddata : Nat → Nat) :
    ∀ (fuel i : Nat) (e : EEPROM) (x : Nat), x ≤ address + i →
      readeeprom (writeData address recorddata fuel i e) x = readeeprom e x := by
  intro fuel
  induction fuel with
  | zero => intro i e x _; rfl
  | succ n ih =>
    intro i e x hx
    rw [writeData, ih (i + 1) _ x (by omega), readeeprom_updateeeprom, if_neg (by omega)]

theorem updaterecord_found (st : Store) (key : Nat) (recorddata : Nat → Nat) (datasize : Nat)
    (e : EEPROM) (address s : Nat) (hb : st.began = true)
    (hfound : getrecordaddress st key e = some (some (address, s))) :
    updaterecord st key recorddata datasize e =
      some (true, writeData address recorddata (if datasize < s then s else datasize) 0 e) := by
  unfold updaterecord
  rw [if_neg (by rw [hb]; simp), hfound]

theorem getrecordaddress_after_update (st : Store) (key : Nat) (recorddata : Nat → Nat)
    (n : Nat) (e : EEPROM) (address s : Nat) (hb : st.began = true)
    (hfound : getrecordaddress st key e = some (some (address, s))) :
    getrecordaddress st key (writeData address recorddata n 0 e) = some (some (address, s)) := by
  unfold getrecordaddress at hfound ⊢
  rw [if_neg (by rw [hb]; simp)] at hfound ⊢
  exact (getrecordLoop_congr key st.EElength e _ address s _ 0 hfound).2
    (fun x hx => readeeprom_writeData_below address recorddata n 0 e x (by omega))

end EERecordSystem

namespace EECounter

theorem futureLoop_cases (c : Counter) (first fci count : Nat) :
    ∀ (fuel i : Nat) (e : EEPROM), i + fuel = 7 →
      futureLoop c first fci count fuel i e = (e, 7) ∨
      ∃ z, (futureLoop c first fci count fuel i e).1 =
          updateeeprom e (first + c.start_address) (checkpointByte z) ∧
        (futureLoop c first fci count fuel i e).2 ≤ 6 := by
  intro fuel
  induction fuel with
  | zero =>
    intro i e h
    left
    rw [futureLoop, show i = 7 by omega]
  | succ n ih =>
    intro i e h
    rw [futureLoop, if_pos (by omega)]
    by_cases hc : (first + i) % c.length = fci
    · rw [if_pos hc]
      right
      exact ⟨_, rfl, by show i ≤ 6; omega⟩
    · rw [if_neg hc]
      exact ih (i + 1) e (by omega)

theorem inc_index_eq_pos (c : Counter) (k : Nat) (hk : k < c.length) :
    inc_index c k = pos c k 1 := by
  have := inc_index_pos c k 0
  rw [pos_zero c k hk] at this
  exact this

theorem inc_inc_index_eq_pos (c : Counter) (k : Nat) (hk : k < c.length) :
    inc_index c (inc_index c k) = pos c k 2 := by
  rw [inc_index_eq_pos c k hk, inc_index_pos]

theorem dec_index_eq_pos (c : Counter) (k : Nat) (hk : k < c.length) :
    dec_index c k = pos c k (c.length - 1) := by
  have h1 := dec_index_pos c (by omega) k (c.length - 1)
  rw [show c.length - 1 + 1 = 0 + c.length by omega, pos_add_length, pos_zero c k hk] at h1
  exact h1

/-- One increment mutation on a region whose `0xFF` bytes are at `k` and possibly
at the next offset: it is a single `updateeeprom` inside the region, and the
`0xFF` bytes are again at some offset and possibly the next one. -/
theorem incMutation_markers (c : Counter) (e : EEPROM) (k fci count : Nat)
    (hL : 16 ≤ c.length) (h : markersAt c e k) :
    ∃ a w k', a < c.length ∧
      incMutation c k fci count e = updateeeprom e (c.start_address + a) w ∧
      markersAt c (updateeeprom e (c.start_address + a) w) k' := by
  obtain ⟨hk, hff, hall⟩ := h
  have hk0 : pos c k 0 = k := pos_zero c k hk
  have e1 := inc_index_eq_pos c k hk
  have e2 := inc_inc_index_eq_pos c k hk
  have e0 := dec_index_eq_pos c k hk
  have hinc : (k + 1) % c.length = pos c k 1 := by rw [← e1]; rfl
  have n10 : pos c k 1 ≠ k := by
    have := pos_ne c k 1 0 (by omega) (by omega) (by omega); rwa [hk0] at this
  have n20 : pos c k 2 ≠ k := by
    have := pos_ne c k 2 0 (by omega) (by omega) (by omega); rwa [hk0] at this
  have n21 : pos c k 2 ≠ pos c k 1 := pos_ne c k 2 1 (by omega) (by omega) (by omega)
  have nd0 : pos c k (c.length - 1) ≠ k := by
    have := pos_ne c k (c.length - 1) 0 (by omega) (by omega) (by omega); rwa [hk0] at this
  have nd1 : pos c k (c.length - 1) ≠ pos c k 1 :=
    pos_ne c k (c.length - 1) 1 (by omega) (by omega) (by omega)
  have hlt : ∀ j, pos c k j < c.length := fun j => pos_lt c (by omega) k j
  have h3 : rd c e (inc_index c (inc_index c k)) ≠ 0xFF := by
    rw [e2]
    intro hh
    rcases hall _ (hlt 2) hh with h' | h'
    · exact n20 h'
    · rw [hinc] at h'; exact n21 h'
  have hall' : ∀ j, j < c.length → rd c e j = 0xFF → j = k ∨ j = pos c k 1 := fun j hj hh => by
    have := hall j hj hh
    rwa [hinc] at this
  by_cases h2 : rd c e (inc_index c k) = 0xFF
  · cases hl : lupLoop (rd c e (dec_index c k)) 8 0x7F with
    | some q =>
      refine ⟨pos c k (c.length - 1), rd c e (dec_index c k) >>> 1, k, hlt _, ?_, ?_⟩
      · rw [incMutation_lup c k fci count e q h2 h3 hl, e0]
      · have hv : (rd c e (dec_index c k) >>> 1) % 256 ≠ 0xFF := by
          have := readeeprom_lt e (c.start_address + dec_index c k)
          unfold rd
          rw [Nat.shiftRight_eq_div_pow]
          omega
        refine ⟨hk, ?_, fun j hj hh => ?_⟩
        · show rd c _ k = 0xFF
          rw [rd_updateeeprom, if_neg (fun hh => nd0 hh.symm)]
          exact hff
        · have hh' : rd c (updateeeprom e (c.start_address + pos c k (c.length - 1))
              (rd c e (dec_index c k) >>> 1)) j = 0xFF := hh
          rw [rd_updateeeprom] at hh'
          by_cases hj0 : j = pos c k (c.length - 1)
          · rw [if_pos hj0] at hh'; exact absurd hh' hv
          · rw [if_neg hj0] at hh'
            exact hall j hj hh'
    | none =>
      have hnew := incMutation_new c k fci count e h2 h3 hl
      have key : ∃ w, w % 256 ≠ 0xFF ∧
          incMutation c k fci count e = updateeeprom e (c.start_address + k) w := by
        rcases futureLoop_cases c k fci count 5 2 e (by omega) with hc | ⟨z, hz1, hz2⟩
        · refine ⟨0x7F, by decide, ?_⟩
          rw [hnew, hc, if_pos rfl, Nat.add_comm]
        · refine ⟨checkpointByte z, ?_, ?_⟩
          · have := checkpointByte_lt z; omega
          · rw [hnew, if_neg (by omega), hz1, Nat.add_comm]
      obtain ⟨w, hw, hinc'⟩ := key
      refine ⟨k, w, pos c k 1, hk, hinc', hlt 1, ?_, fun j hj hh => ?_⟩
      · show rd c _ (pos c k 1) = 0xFF
        rw [rd_updateeeprom, if_neg n10, ← e1]
        exact h2
      · have hh' : rd c (updateeeprom e (c.start_address + k) w) j = 0xFF := hh
        rw [rd_updateeeprom] at hh'
        by_cases hj0 : j = k
        · rw [if_pos hj0] at hh'; exact absurd hh' hw
        · rw [if_neg hj0] at hh'
          rcases hall' j hj hh' with h' | h'
          · exact absurd h' hj0
          · exact Or.inl h'
  · refine ⟨pos c k 1, 0xFF, k, hlt 1, ?_, hk, ?_, fun j hj hh => ?_⟩
    · rw [incMutation_erase c k fci count e h2 h3, e1]
    · show rd c _ k = 0xFF
      rw [rd_updateeeprom, if_neg (fun hh => n10 hh.symm)]
      exact hff
    · have hh' : rd c (updateeeprom e (c.start_address + pos c k 1) 0xFF) j = 0xFF := hh
      rw [rd_updateeeprom] at hh'
      by_cases hj0 : j = pos c k 1
      · right; rw [hinc]; exact hj0
      · rw [if_neg hj0] at hh'
        exact hall j hj hh'

theorem markers_findFF (c : Counter) (e : EEPROM) (k : Nat) (hL : 16 ≤ c.length)
    (h : markersAt c e k) (op_id : Nat) (hop : op_id ≠ 2) :
    ∃ first0 second,
      findFF c op_id c.length 0 { e := e, first_FF_index := none, second_FF_index := none } =
        { e := e, first_FF_index := some first0, second_FF_index := second } ∧
      effectiveFirst c first0 second = k := by
  obtain ⟨hk, hff, hall⟩ := h
  apply findFF_result c e op_id hop k (if rd c e (inc_index c k) = 0xFF then 1 else 0)
    (by omega) hk hff
  · intro hec
    by_cases h2 : rd c e (inc_index c k) = 0xFF
    · exact h2
    · rw [if_neg h2] at hec; omega
  · intro a ha hne hne2 hh
    rcases hall a ha hh with h' | h'
    · exact hne h'
    · apply hne2
      have ha' : a = inc_index c k := h'
      refine ⟨?_, ha'⟩
      rw [if_pos (by rw [← ha']; exact hh)]

/-- One `increment()` on a region whose `0xFF` bytes are at `k` and possibly at the
next offset. -/
theorem markers_step (c : Counter) (e : EEPROM) (k : Nat) (hL : 16 ≤ c.length)
    (h : markersAt c e k) :
    ∃ a w k', a < c.length ∧ (op c 1 e).2 = updateeeprom e (c.start_address + a) w ∧
      markersAt c (updateeeprom e (c.start_address + a) w) k' := by
  obtain ⟨first0, second, hf, hef⟩ := markers_findFF c e k hL h 1 (by decide)
  rw [op_eq_of_findFF c 1 e (by decide) first0 second hf, hef, if_pos rfl]
  exact incMutation_markers c e k _ _ hL h

theorem markers_resetcount (c : Counter) (v : Nat) (e : EEPROM) (hL : 16 ≤ c.length) :
    markersAt c (resetcount c v e) 5 := by
  refine ⟨by omega, ?_, fun j hj hh => ?_⟩
  · show rd c _ 5 = 0xFF
    rw [rd_resetcount, if_neg (by omega), if_pos rfl]
  · have hh' : rd c (resetcount c v e) j = 0xFF := hh
    rw [rd_resetcount] at hh'
    left
    by_contra hj5
    by_cases h5 : j < 5
    · rw [if_pos h5] at hh'
      have := checkpointByte_lt (v >>> ((4 - j) * 7))
      omega
    · rw [if_neg h5, if_neg hj5] at hh'
      by_cases hc : j < c.length ∧ rd c e j = 0xFF
      · rw [if_pos hc] at hh'; omega
      · rw [if_neg hc] at hh'; exact hc ⟨hj, hh'⟩

theorem markers_incrementN (c : Counter) (v : Nat) (e : EEPROM) (hL : 16 ≤ c.length) :
    ∀ n, ∃ k, markersAt c (incrementN c n (resetcount c v e)) k := by
  intro n
  induction n with
  | zero => exact ⟨5, markers_resetcount c v e hL⟩
  | succ m ih =>
    obtain ⟨k, hk⟩ := ih
    obtain ⟨a, w, k', _, h1, h2⟩ := markers_step c _ k hL hk
    refine ⟨k', ?_⟩
    rw [incrementN]
    unfold increment
    rw [h1]
    exact h2

theorem countFF_of_markers (c : Counter) (e : EEPROM) (k : Nat) (h : markersAt c e k) :
    countFF c e = 1 ∨ countFF c e = 2 := by
  obtain ⟨hk, hff, hall⟩ := h
  unfold countFF
  generalize hl : (List.range c.length).filter
    (fun j => decide (readeeprom e (c.start_address + j) = 0xFF)) = l
  have hmem : k ∈ l := by
    rw [← hl, List.mem_filter]
    exact ⟨List.mem_range.2 hk, by simpa using hff⟩
  have hnd : l.Nodup := by
    rw [← hl]; exact (List.nodup_range _).filter _
  have hsub : l ⊆ [k, (k + 1) % c.length] := by
    intro j hj
    rw [← hl, List.mem_filter] at hj
    have := hall j (List.mem_range.1 hj.1) (by simpa using hj.2)
    simp only [List.mem_cons, List.mem_singleton, List.not_mem_nil, or_false]
    exact this
  have hle : l.length ≤ 2 := (hnd.subperm hsub).length_le
  have hpos : 0 < l.length := List.length_pos_of_mem hmem
  omega

end EECounter

namespace EERecordSystem

open EECounter

/-- C11: on a begun store `getrecordaddress(key)` returns the result of the
reference first-match scan (`(p+1, b-1)` for the first record in physical order
whose key byte equals `key`, not found otherwise), and its loop ends with that
result whenever it is given more iterations than the medium has bytes. -/
theorem getrecordaddress_first_match (st : Store) (key : Nat) (e : EEPROM)
    (hb : st.began = true) :
    getrecordaddress st key e = some (firstMatch key st.EElength e) ∧
    ∀ fuel, st.EElength < fuel →
      getrecordLoop key st.EElength e fuel 0 = some (firstMatch key st.EElength e) :=
  ⟨getrecordaddress_eq st key e hb, fun fuel h => getrecordLoop_enough key st.EElength e fuel h⟩

set_option maxRecDepth 100000 in
/-- Witness of C11: key 9 on `demoRecords`, found at address 8 with size 2 after
the records keyed `C` and 5 were passed; key 6 is not found. -/
theorem getrecordaddress_first_match_witness :
    demoStore.began = true ∧
    firstMatch 9 demoStore.EElength demoRecords = some (8, 2) ∧
    firstMatch 6 demoStore.EElength demoRecords = none ∧
    (getrecordaddress demoStore 9 demoRecords =
        some (firstMatch 9 demoStore.EElength demoRecords) ∧
      ∀ fuel, demoStore.EElength < fuel →
        getrecordLoop 9 demoStore.EElength demoRecords fuel 0 =
          some (firstMatch 9 demoStore.EElength demoRecords)) :=
  ⟨rfl, by decide, by decide, getrecordaddress_first_match demoStore 9 demoRecords rfl⟩

set_option maxRecDepth 100000 in
/-- C12 (failing input): on `demoRecords` the records keyed 5 and 9 are found at
addresses 5 and 8, both with reported size 2; `updaterecord(5, {0xAA, 0x00}, 2)`
returns true and writes the second data byte over address 7, the length byte of
the record keyed 9, after which `getrecordaddress(9)` finds nothing. -/
theorem updaterecord_overwrites_next_length_byte :
    demoStore.began = true ∧
    getrecordaddress demoStore 5 demoRecords = some (some (5, 2)) ∧
    getrecordaddress demoStore 9 demoRecords = some (some (8, 2)) ∧
    readeeprom demoRecords 7 = 3 ∧
    (updaterecord demoStore 5 demoData 2 demoRecords).map (fun r => r.1) = some true ∧
    (updaterecord demoStore 5 demoData 2 demoRecords).map (fun r => readeeprom r.2 7) = some 0 ∧
    (updaterecord demoStore 5 demoData 2 demoRecords).map
      (fun r => getrecordaddress demoStore 9 r.2) = some (some none) := by
  decide

set_option maxRecDepth 100000 in
/-- C13 (counterexample): the record keyed 5 of `demoRecords` has size 2, and
`updaterecord(5, data, 3)` does not return false; it changes the byte at
address 6. -/
theorem updaterecord_grow_not_rejected_example :
    demoStore.began = true ∧
    getrecordaddress demoStore 5 demoRecords = some (some (5, 2)) ∧
    ¬ ((updaterecord demoStore 5 demoData3 3 demoRecords).map (fun r => r.1) = some false) ∧
    readeeprom demoRecords 6 = 0x11 ∧
    (updaterecord demoStore 5 demoData3 3 demoRecords).map (fun r => readeeprom r.2 6) =
      some 0xAA := by
  decide

/-- C13 (amended): on a begun store where `key` has a record of size `s` at
`address`, `updaterecord(key, data)` with more than `s` data bytes returns true,
`getrecordaddress(key)` still reports `address` and `s`, and no byte at or
before the key byte is changed. -/
theorem updaterecord_grow (st : Store) (key : Nat) (recorddata : Nat → Nat) (datasize : Nat)
    (e : EEPROM) (address s : Nat) (hb : st.began = true)
    (hfound : getrecordaddress st key e = some (some (address, s))) (hgrow : s < datasize) :
    ∃ e2, updaterecord st key recorddata datasize e = some (true, e2) ∧
      getrecordaddress st key e2 = some (some (address, s)) ∧
      ∀ x, x ≤ address → readeeprom e2 x = readeeprom e x := by
  refine ⟨writeData address recorddata datasize 0 e, ?_, ?_, ?_⟩
  · rw [updaterecord_found st key recorddata datasize e address s hb hfound,
      if_neg (by omega)]
  · exact getrecordaddress_after_update st key recorddata datasize e address s hb hfound
  · intro x hx
    exact readeeprom_writeData_below address recorddata datasize 0 e x (by omega)

set_option maxRecDepth 100000 in
/-- Witness of C13 (amended): three data bytes for the record keyed 5 of
`demoRecords`, whose size is 2. -/
theorem updaterecord_grow_witness :
    demoStore.began = true ∧
    getrecordaddress demoStore 5 demoRecords = some (some (5, 2)) ∧ 2 < 3 ∧
    ∃ e2, updaterecord demoStore 5 demoData3 3 demoRecords = some (true, e2) ∧
      getrecordaddress demoStore 5 e2 = some (some (5, 2)) ∧
      ∀ x, x ≤ 5 → readeeprom e2 x = readeeprom demoRecords x :=
  ⟨rfl, by decide, by decide,
    updaterecord_grow demoStore 5 demoData3 3 demoRecords 5 2 rfl (by decide) (by decide)⟩

/-- C14: for every medium, `begin()` applied twice leaves the medium that one
`begin()` leaves; after `begin()` bytes 0..3 are 4, `C`, `A`, `S`; when bytes
1..3 were `C`, `A`, `S` only byte 0 is changed, and otherwise bytes 0..5 are the
initial image 4, `C`, `A`, `S`, 0, 0 and no other byte is changed. -/
theorem begin_idempotent_format (st : Store) (e : EEPROM) :
    (EERecordSystem.begin (EERecordSystem.begin st e).1 (EERecordSystem.begin st e).2).2 =
      (EERecordSystem.begin st e).2 ∧
    (readeeprom (EERecordSystem.begin st e).2 0 = 4 ∧
      readeeprom (EERecordSystem.begin st e).2 1 = 0x43 ∧
      readeeprom (EERecordSystem.begin st e).2 2 = 0x41 ∧
      readeeprom (EERecordSystem.begin st e).2 3 = 0x53) ∧
    ∀ a, readeeprom (EERecordSystem.begin st e).2 a =
      if readeeprom e 1 = 0x43 ∧ readeeprom e 2 = 0x41 ∧ readeeprom e 3 = 0x53 then
        (if a = 0 then 4 else readeeprom e a)
      else (if a < 6 then [4, 0x43, 0x41, 0x53, 0, 0].getD a 0 else readeeprom e a) := by
  obtain ⟨h0, h1, h2, h3⟩ := begin_header st e
  exact ⟨begin_fixed _ _ h0 h1 h2 h3, ⟨h0, h1, h2, h3⟩, fun a => readeeprom_begin st e a⟩

set_option maxRecDepth 100000 in
/-- C19 (failing input): list 1 of `demoList` holds the slots 42, 0 (free) and
7; no live slot has the three low-order bytes of `0x01000000`, which are zero,
yet `queryID(0x01000000, 1, true)` returns true: the free slot matches. -/
theorem query24_matches_free_slot :
    demoStore.began = true ∧
    wellFormed demoStore.EElength demoList demoStore.EElength 0 ∧
    0x01000000 ≠ 0 ∧
    listSlots 1 demoStore.EElength demoList demoStore.EElength 0 = [6, 10, 14] ∧
    slotValue demoList 6 = 42 ∧ slotValue demoList 10 = 0 ∧ slotValue demoList 14 = 7 ∧
    (¬ ∃ a ∈ listSlots 1 demoStore.EElength demoList demoStore.EElength 0,
        slotValue demoList a ≠ 0 ∧ slotValue demoList a % 2 ^ 24 = 0x01000000 % 2 ^ 24) ∧
    (queryID demoStore 0x01000000 1 true demoList).ret = true := by
  decide

/-- C20: on a begun, well-formed store, `deleteID(id, listid, false)` with
`id ≠ 0` sets to zero every byte of every slot of the list whose value is `id`,
leaves every other byte unchanged, and returns true exactly when such a slot
existed. -/
theorem deleteID_exact (st : Store) (id listid : Nat) (e : EEPROM)
    (hb : st.began = true) (hid0 : id ≠ 0) (hid : id < 2 ^ 32)
    (hwf : wellFormed st.EElength e st.EElength 0) :
    (∀ x, (hit e id (listSlots listid st.EElength e st.EElength 0) x →
            readeeprom (deleteID st id listid false e).e x = 0) ∧
          (¬ hit e id (listSlots listid st.EElength e st.EElength 0) x →
            readeeprom (deleteID st id listid false e).e x = readeeprom e x)) ∧
    ((deleteID st id listid false e).ret = true ↔
      ∃ a ∈ listSlots listid st.EElength e st.EElength 0, slotValue e a = id) :=
  idop_D_spec st id listid e hb hid0 hid hwf

set_option maxRecDepth 100000 in
/-- Witness of C20: deleting 42 from list 1 of `demoList`, stored in the slot at
address 6. -/
theorem deleteID_exact_witness :
    demoStore.began = true ∧ 42 ≠ 0 ∧ 42 < 2 ^ 32 ∧
    wellFormed demoStore.EElength demoList demoStore.EElength 0 ∧
    slotValue demoList 6 = 42 ∧
    ((∀ x, (hit demoList 42 (listSlots 1 demoStore.EElength demoList demoStore.EElength 0) x →
            readeeprom (deleteID demoStore 42 1 false demoList).e x = 0) ∧
          (¬ hit demoList 42 (listSlots 1 demoStore.EElength demoList demoStore.EElength 0) x →
            readeeprom (deleteID demoStore 42 1 false demoList).e x = readeeprom demoList x)) ∧
    ((deleteID demoStore 42 1 false demoList).ret = true ↔
      ∃ a ∈ listSlots 1 demoStore.EElength demoList demoStore.EElength 0,
        slotValue demoList a = 42)) :=
  ⟨rfl, by decide, by norm_num, by decide, by decide,
    deleteID_exact demoStore 42 1 demoList rfl (by decide) (by norm_num) (by decide)⟩

end EERecordSystem

namespace EECounter

/-- C15 (counterexample): for the requested length 8 the constructor returns
after no number of iterations of its waiting loop. -/
theorem construct_short_never_returns_example :
    ¬ ∃ fuel c, construct 0 8 fuel = some c := by
  rintro ⟨fuel, c, h⟩
  rw [construct_small 0 8 (by decide) fuel] at h
  exact Option.noConfusion h

/-- C15 (amended): constructing a counter with a requested length smaller than
16 does not complete (the constructor waits for ever); a requested length of at
least 16 is kept as given, together with the start address. -/
theorem construct_length (start length : Nat) :
    (length < 16 → ∀ fuel, construct start length fuel = none) ∧
    (16 ≤ length → ∀ fuel, 0 < fuel →
      construct start length fuel = some { start_address := start, length := length }) :=
  ⟨fun h fuel => construct_small start length h fuel,
    fun h fuel hf => construct_large start length h fuel hf⟩

/-- Witness of C15 (amended): the lengths 8 and 20. -/
theorem construct_length_witness :
    8 < 16 ∧ (∀ fuel, construct 0 8 fuel = none) ∧ 16 ≤ 20 ∧
    construct 3 20 1 = some { start_address := 3, length := 20 } :=
  ⟨by decide, (construct_length 0 8).1 (by decide), by decide,
    (construct_length 3 20).2 (by decide) 1 (by decide)⟩

/-- C16: for a region of length at least 16 and any prior medium, after
`resetcount(v)` the byte at offset `i ≤ 4` is `0x80 | ((v >> (7*(4-i))) & 0x7F)`,
or `0x70` when that is `0xFF`; the byte at offset 5 is `0xFF`; a byte at an
offset from 6 to `L-1` is `0x77` if it was `0xFF` and unchanged otherwise; bytes
outside the region are unchanged. -/
theorem resetcount_byte_image (c : Counter) (v : Nat) (e : EEPROM) (hL : 16 ≤ c.length) :
    (∀ i, i ≤ 4 → readeeprom (resetcount c v e) (c.start_address + i) = specByte v i) ∧
    readeeprom (resetcount c v e) (c.start_address + 5) = 0xFF ∧
    (∀ j, 6 ≤ j → j < c.length →
      readeeprom (resetcount c v e) (c.start_address + j) =
        if readeeprom e (c.start_address + j) = 0xFF then 0x77
        else readeeprom e (c.start_address + j)) ∧
    (∀ a, a < c.start_address ∨ c.start_address + c.length ≤ a →
      readeeprom (resetcount c v e) a = readeeprom e a) := by
  refine ⟨fun i hi => ?_, ?_, fun j h6 hj => ?_, fun a ha => ?_⟩
  · rw [readeeprom_resetcount, if_neg (by omega), if_pos (by omega), specByte_eq,
      Nat.add_sub_cancel_left]
  · rw [readeeprom_resetcount, if_neg (by omega), if_neg (by omega), if_pos (by omega)]
  · rw [readeeprom_resetcount, if_neg (by omega), if_neg (by omega), if_neg (by omega),
      Nat.add_sub_cancel_left]
    by_cases h : readeeprom e (c.start_address + j) = 0xFF
    · rw [if_pos ⟨hj, h⟩, if_pos h]
    · rw [if_neg (fun hh => h hh.2), if_neg h]
  · rw [readeeprom_resetcount]
    rcases ha with ha | ha
    · rw [if_pos ha]
    · rw [if_neg (by omega), if_neg (by omega), if_neg (by omega), if_neg (by omega)]

set_option maxRecDepth 100000 in
/-- Witness of C16: `resetcount(300)` on the used region `staleChain`; the
checkpoint bytes are `80 80 80 82 AC`. -/
theorem resetcount_byte_image_witness :
    16 ≤ demoCounter.length ∧
    specByte 300 3 = 0x82 ∧ specByte 300 4 = 0xAC ∧ specByte 0xFFFFFFFF 4 = 0x70 ∧
    ((∀ i, i ≤ 4 →
        readeeprom (resetcount demoCounter 300 staleChain) (demoCounter.start_address + i) =
          specByte 300 i) ∧
    readeeprom (resetcount demoCounter 300 staleChain) (demoCounter.start_address + 5) = 0xFF ∧
    (∀ j, 6 ≤ j → j < demoCounter.length →
      readeeprom (resetcount demoCounter 300 staleChain) (demoCounter.start_address + j) =
        if readeeprom staleChain (demoCounter.start_address + j) = 0xFF then 0x77
        else readeeprom staleChain (demoCounter.start_address + j)) ∧
    (∀ a, a < demoCounter.start_address ∨ demoCounter.start_address + demoCounter.length ≤ a →
      readeeprom (resetcount demoCounter 300 staleChain) a = readeeprom staleChain a)) :=
  ⟨by decide, by decide, by decide, by decide,
    resetcount_byte_image demoCounter 300 staleChain (by decide)⟩

/-- C17: for a region of length at least 16 with arbitrary prior contents, after
`resetcount(v)` and any number `n` of `increment()` calls there is an offset `k`
holding `0xFF` such that every `0xFF` of the region is at `k` or at
`(k+1) mod L`; the region holds one or two `0xFF` bytes. -/
theorem erased_marker_invariant (c : Counter) (e : EEPROM) (v n : Nat) (hL : 16 ≤ c.length) :
    (∃ k, markersAt c (incrementN c n (resetcount c v e)) k) ∧
    (countFF c (incrementN c n (resetcount c v e)) = 1 ∨
      countFF c (incrementN c n (resetcount c v e)) = 2) := by
  obtain ⟨k, hk⟩ := markers_incrementN c v e hL n
  exact ⟨⟨k, hk⟩, countFF_of_markers c _ k hk⟩

set_option maxRecDepth 100000 in
/-- Witness of C17: `resetcount(5)` and three increments on the used region
`staleChain`; two increments leave one `0xFF` byte, three leave two. -/
theorem erased_marker_invariant_witness :
    16 ≤ demoCounter.length ∧
    countFF demoCounter (incrementN demoCounter 2 (resetcount demoCounter 5 staleChain)) = 1 ∧
    countFF demoCounter (incrementN demoCounter 3 (resetcount demoCounter 5 staleChain)) = 2 ∧
    ((∃ k, markersAt demoCounter
        (incrementN demoCounter 3 (resetcount demoCounter 5 staleChain)) k) ∧
    (countFF demoCounter (incrementN demoCounter 3 (resetcount demoCounter 5 staleChain)) = 1 ∨
      countFF demoCounter
        (incrementN demoCounter 3 (resetcount demoCounter 5 staleChain)) = 2)) :=
  ⟨by decide, by decide, by decide,
    erased_marker_invariant demoCounter staleChain 5 3 (by decide)⟩

theorem op_no_marker (c : Counter) (e : EEPROM)
    (h : ∀ j, j < c.length → readeeprom e (c.start_address + j) ≠ 0xFF) :
    (op c 0 e).1 = 0 ∧ (op c 1 e).1 = 1 := by
  have hs : ∀ op_id, findFF c op_id c.length 0
      { e := e, first_FF_index := none, second_FF_index := none } =
      { e := e, first_FF_index := none, second_FF_index := none } := by
    intro op_id
    have := findFF_skip c op_id c.length 0 0
      { e := e, first_FF_index := none, second_FF_index := none }
      (fun d hd => by unfold rd; rw [Nat.zero_add]; exact h d hd)
    rw [Nat.add_zero, findFF_zero] at this
    exact this
  unfold op
  rw [hs 0, hs 1]
  simp

/-- C18: for every region and every medium, `increment()` returns the value
`read()` returns on the same medium plus 1 mod 2^32, so the test `a+1 != b` of
`begin(true)` is never true; on a region with no `0xFF` byte `read()` returns 0
and `increment()` returns 1. -/
theorem increment_returns_read_plus_one (c : Counter) (e : EEPROM) :
    (increment c e).1 = ((read c e).1 + 1) % 2 ^ 32 ∧
    ¬ (((read c e).1 + 1) % 2 ^ 32 ≠ (increment c (read c e).2).1) ∧
    ((∀ j, j < c.length → readeeprom e (c.start_address + j) ≠ 0xFF) →
      (read c e).1 = 0 ∧ (increment c e).1 = 1) := by
  refine ⟨increment_eq_read_succ c e, ?_, fun h => op_no_marker c e h⟩
  have h2 : (read c e).2 = e := op_read_snd c e
  rw [h2]
  exact fun hne => hne (increment_eq_read_succ c e).symm

set_option maxRecDepth 100000 in
/-- Witness of C18: the region of `staleChain`, which holds no `0xFF` byte. -/
theorem increment_returns_read_plus_one_witness :
    (∀ j, j < demoCounter.length →
      readeeprom staleChain (demoCounter.start_address + j) ≠ 0xFF) ∧
    (read demoCounter staleChain).1 = 0 ∧ (increment demoCounter staleChain).1 = 1 :=
  ⟨by decide,
    (increment_returns_read_plus_one demoCounter staleChain).2.2 (by decide)⟩

theorem land_255 (w : Nat) (h : w < 256) : w &&& 0xFF = w := by
  have := Nat.and_pow_two_sub_one_eq_mod w 8
  norm_num at this
  rw [this]
  exact Nat.mod_eq_of_lt h

theorem lupLoop_some (lup q : Nat) (h : lupLoop lup 8 0x7F = some q) :
    lup >>> 1 < 256 ∧ lup >>> 1 ≠ lup ∧ (lup >>> 1) &&& lup = lup >>> 1 := by
  rw [lupLoop_eq] at h
  split_ifs at h with h1 h2 h3 h4 h5 h6 h7
  all_goals first
    | (subst h1; decide)
    | (subst h2; decide)
    | (subst h3; decide)
    | (subst h4; decide)
    | (subst h5; decide)
    | (subst h6; decide)
    | (subst h7; decide)

/-- The single write of one increment mutation on a region whose `0xFF` bytes
are at `k` and possibly at the next offset: it changes the byte it writes, and
the new value is `0xFF` or clears bits of the old one. -/
theorem incMutation_wear (c : Counter) (e : EEPROM) (k fci count : Nat)
    (hL : 16 ≤ c.length) (h : markersAt c e k) :
    ∃ a w, a < c.length ∧
      incMutation c k fci count e = updateeeprom e (c.start_address + a) w ∧
      w < 256 ∧ w ≠ rd c e a ∧ (w = 0xFF ∨ w &&& rd c e a = w) := by
  obtain ⟨hk, hff, hall⟩ := h
  have hk0 : pos c k 0 = k := pos_zero c k hk
  have e1 := inc_index_eq_pos c k hk
  have e2 := inc_inc_index_eq_pos c k hk
  have e0 := dec_index_eq_pos c k hk
  have hinc : (k + 1) % c.length = pos c k 1 := by rw [← e1]; rfl
  have n20 : pos c k 2 ≠ k := by
    have := pos_ne c k 2 0 (by omega) (by omega) (by omega); rwa [hk0] at this
  have n21 : pos c k 2 ≠ pos c k 1 := pos_ne c k 2 1 (by omega) (by omega) (by omega)
  have hlt : ∀ j, pos c k j < c.length := fun j => pos_lt c (by omega) k j
  have h3 : rd c e (inc_index c (inc_index c k)) ≠ 0xFF := by
    rw [e2]
    intro hh
    rcases hall _ (hlt 2) hh with h' | h'
    · exact n20 h'
    · rw [hinc] at h'; exact n21 h'
  by_cases h2 : rd c e (inc_index c k) = 0xFF
  · cases hl : lupLoop (rd c e (dec_index c k)) 8 0x7F with
    | some q =>
      obtain ⟨l1, l2, l3⟩ := lupLoop_some _ q hl
      refine ⟨pos c k (c.length - 1), rd c e (dec_index c k) >>> 1, hlt _, ?_, ?_, ?_, ?_⟩
      · rw [incMutation_lup c k fci count e q h2 h3 hl, e0]
      · exact l1
      · rw [← e0]; exact l2
      · right; rw [← e0]; exact l3
    | none =>
      have hnew := incMutation_new c k fci count e h2 h3 hl
      have key : ∃ w, w < 256 ∧ w ≠ 0xFF ∧
          incMutation c k fci count e = updateeeprom e (c.start_address + k) w := by
        rcases futureLoop_cases c k fci count 5 2 e (by omega) with hc | ⟨z, hz1, hz2⟩
        · refine ⟨0x7F, by decide, by decide, ?_⟩
          rw [hnew, hc, if_pos rfl, Nat.add_comm]
        · refine ⟨checkpointByte z, ?_, ?_, ?_⟩
          · have := checkpointByte_lt z; omega
          · have := checkpointByte_lt z; omega
          · rw [hnew, if_neg (by omega), hz1, Nat.add_comm]
      obtain ⟨w, hw1, hw2, hinc'⟩ := key
      have hffk : rd c e k = 0xFF := hff
      refine ⟨k, w, hk, hinc', hw1, ?_, ?_⟩
      · rw [hffk]; exact hw2
      · right; rw [hffk]; exact land_255 w hw1
  · refine ⟨pos c k 1, 0xFF, hlt 1, ?_, by decide, ?_, Or.inl rfl⟩
    · rw [incMutation_erase c k fci count e h2 h3, e1]
    · rw [← e1]; exact fun hh => h2 hh.symm

theorem updateeeprom_log (e : EEPROM) (a w : Nat) (hw : w < 256) (hne : w ≠ readeeprom e a) :
    (updateeeprom e a w).log.drop e.log.length = [(a, w)] := by
  have heq : ¬ readeeprom e a = w % 256 := by
    rw [Nat.mod_eq_of_lt hw]; exact fun hh => hne hh.symm
  unfold updateeeprom
  rw [if_neg heq, Nat.mod_eq_of_lt hw]
  exact List.drop_left' rfl

/-- One `increment()` on a region whose `0xFF` bytes are at `k` and possibly at
the next offset: exactly one byte changes, inside the region, by one physical
write, to `0xFF` or to a value that clears bits of the old one. -/
theorem wear_step (c : Counter) (e : EEPROM) (k : Nat) (hL : 16 ≤ c.length)
    (h : markersAt c e k) :
    ∃ a w, c.start_address ≤ a ∧ a < c.start_address + c.length ∧
      readeeprom (increment c e).2 a = w ∧ readeeprom e a ≠ w ∧
      (∀ x, x ≠ a → readeeprom (increment c e).2 x = readeeprom e x) ∧
      (w = 0xFF ∨ w &&& readeeprom e a = w) ∧
      incrementWrites c e = [(a, w)] := by
  obtain ⟨first0, second, hf, hef⟩ := markers_findFF c e k hL h 1 (by decide)
  obtain ⟨a, w, ha, hm, hw, hne, hbits⟩ := incMutation_wear c e k
    (scanLoop c e c.length 0 (scanInit k)).first_checkpoint_index
    (((scanLoop c e c.length 0 (scanInit k)).count + 1) % 2 ^ 32) hL h
  have hop : (increment c e).2 = updateeeprom e (c.start_address + a) w := by
    unfold increment
    rw [op_eq_of_findFF c 1 e (by decide) first0 second hf, hef, if_pos rfl]
    exact hm
  refine ⟨c.start_address + a, w, by omega, by omega, ?_, fun hh => hne hh.symm, ?_, hbits, ?_⟩
  · rw [hop, readeeprom_updateeeprom, if_pos rfl, Nat.mod_eq_of_lt hw]
  · intro x hx
    rw [hop, readeeprom_updateeeprom, if_neg hx]
  · unfold incrementWrites
    rw [hop]
    exact updateeeprom_log e _ w hw hne

/-- C21: in every state reached from `resetcount(v)` (any prior contents, region
length at least 16) by increments, one `increment()` changes exactly one byte of
the medium, at an address inside the counter region, by a single physical
write; the new value is `0xFF` or clears bits of the old value
(`new AND old = new`). -/
theorem wear_bound_per_increment (c : Counter) (e : EEPROM) (v n : Nat) (hL : 16 ≤ c.length) :
    ∃ a w, c.start_address ≤ a ∧ a < c.start_address + c.length ∧
      readeeprom (increment c (incrementN c n (resetcount c v e))).2 a = w ∧
      readeeprom (incrementN c n (resetcount c v e)) a ≠ w ∧
      (∀ x, x ≠ a → readeeprom (increment c (incrementN c n (resetcount c v e))).2 x =
        readeeprom (incrementN c n (resetcount c v e)) x) ∧
      (w = 0xFF ∨ w &&& readeeprom (incrementN c n (resetcount c v e)) a = w) ∧
      incrementWrites c (incrementN c n (resetcount c v e)) = [(a, w)] := by
  obtain ⟨k, hk⟩ := markers_incrementN c v e hL n
  exact wear_step c _ k hL hk

set_option maxRecDepth 100000 in
/-- Witness of C21: `resetcount(5)` on the used region `staleChain`; the first
increment erases offset 6, the second writes `0x7F` over the `0xFF` at offset
5, and the fourth clears a bit of that byte (`0x7F` to `0x3F`). -/
theorem wear_bound_per_increment_witness :
    16 ≤ demoCounter.length ∧
    incrementWrites demoCounter (incrementN demoCounter 0 (resetcount demoCounter 5 staleChain)) =
      [(6, 0xFF)] ∧
    incrementWrites demoCounter (incrementN demoCounter 1 (resetcount demoCounter 5 staleChain)) =
      [(5, 0x7F)] ∧
    incrementWrites demoCounter (incrementN demoCounter 3 (resetcount demoCounter 5 staleChain)) =
      [(5, 0x3F)] ∧
    ∃ a w, demoCounter.start_address ≤ a ∧ a < demoCounter.start_address + demoCounter.length ∧
      readeeprom (increment demoCounter
        (incrementN demoCounter 3 (resetcount demoCounter 5 staleChain))).2 a = w ∧
      readeeprom (incrementN demoCounter 3 (resetcount demoCounter 5 staleChain)) a ≠ w ∧
      (∀ x, x ≠ a → readeeprom (increment demoCounter
          (incrementN demoCounter 3 (resetcount demoCounter 5 staleChain))).2 x =
        readeeprom (incrementN demoCounter 3 (resetcount demoCounter 5 staleChain)) x) ∧
      (w = 0xFF ∨
        w &&& readeeprom (incrementN demoCounter 3 (resetcount demoCounter 5 staleChain)) a = w) ∧
      incrementWrites demoCounter
        (incrementN demoCounter 3 (resetcount demoCounter 5 staleChain)) = [(a, w)] :=
  ⟨by decide, by decide, by decide, by decide,
    wear_bound_per_increment demoCounter staleChain 5 3 (by decide)⟩

end EECounter
